import Mathlib

set_option maxRecDepth 4000

/-!
Verification development for a Merkle Search Tree implementation.

The embedding models, faithfully to the source:
  - `utils.rs`: the SHA-256 digest (`sha256`), the `hash` helper and the
    `calc_level` function (including the exact textual construction
    `format!("0{:b} ", byte)` it scans);
  - `store.rs`: `Page`, `PageData`, the association-map `Store` with
    `put/get/has/remove/missing_set`, and `Page::refs`;
  - `mst.rs`: `hash_page` (abstract digest over the canonical
    serialization), `split`, `insert`, `insert_after_first`,
    `update_parent_chain`, `get_value`, the MST-order traversal,
    `to_list` and `merge`.

Bytes are modelled as `Nat` (values < 256 where relevant), machine
arithmetic is explicit `% 2 ^ 32` arithmetic on `Nat`.
-/

namespace MST

/-! ## SHA-256 over byte lists (the digest used by `utils::hash`) -/

/-- Truncation to a 32-bit word. -/
def w32 (n : Nat) : Nat := n % 4294967296

/-- 32-bit right rotation. -/
def rotr (x n : Nat) : Nat := w32 ((x >>> n) ||| (x <<< (32 - n)))

/-- Big sigma-0 of SHA-256. -/
def bsig0 (x : Nat) : Nat := (rotr x 2) ^^^ (rotr x 13) ^^^ (rotr x 22)

/-- Big sigma-1 of SHA-256. -/
def bsig1 (x : Nat) : Nat := (rotr x 6) ^^^ (rotr x 11) ^^^ (rotr x 25)

/-- Small sigma-0 of SHA-256. -/
def ssig0 (x : Nat) : Nat := (rotr x 7) ^^^ (rotr x 18) ^^^ (x >>> 3)

/-- Small sigma-1 of SHA-256. -/
def ssig1 (x : Nat) : Nat := (rotr x 17) ^^^ (rotr x 19) ^^^ (x >>> 10)

/-- The 64 SHA-256 round constants. -/
def sha256K : List Nat :=
  [1116352408, 1899447441, 3049323471, 3921009573, 961987163, 1508970993,
   2453635748, 2870763221, 3624381080, 310598401, 607225278, 1426881987,
   1925078388, 2162078206, 2614888103, 3248222580, 3835390401, 4022224774,
   264347078, 604807628, 770255983, 1249150122, 1555081692, 1996064986,
   2554220882, 2821834349, 2952996808, 3210313671, 3336571891, 3584528711,
   113926993, 338241895, 666307205, 773529912, 1294757372, 1396182291,
   1695183700, 1986661051, 2177026350, 2456956037, 2730485921, 2820302411,
   3259730800, 3345764771, 3516065817, 3600352804, 4094571909, 275423344,
   430227734, 506948616, 659060556, 883997877, 958139571, 1322822218,
   1537002063, 1747873779, 1955562222, 2024104815, 2227730452, 2361852424,
   2428436474, 2756734187, 3204031479, 3329325298]

/-- The SHA-256 initial hash state. -/
def sha256H0 : List Nat :=
  [1779033703, 3144134277, 1013904242, 2773480762, 1359893119, 2600822924,
   528734635, 1541459225]

/-- A `Nat` as four big-endian bytes (the `u32::to_be_bytes` layout). -/
def u32be (n : Nat) : List Nat :=
  [n / 16777216 % 256, n / 65536 % 256, n / 256 % 256, n % 256]

/-- A `Nat` as eight big-endian bytes. -/
def u64be (n : Nat) : List Nat :=
  [n / 72057594037927936 % 256, n / 281474976710656 % 256,
   n / 1099511627776 % 256, n / 4294967296 % 256] ++ u32be n

/-- SHA-256 message padding: append `0x80`, zero bytes up to 56 mod 64,
then the bit length as eight big-endian bytes. -/
def padMessage (msg : List Nat) : List Nat :=
  msg ++ [128] ++ List.replicate ((119 - msg.length % 64) % 64) 0
      ++ u64be (8 * msg.length)

/-- Group bytes into big-endian 32-bit words. -/
def bytesToWords : List Nat → List Nat
  | a :: b :: c :: d :: rest =>
      (a * 16777216 + b * 65536 + c * 256 + d) :: bytesToWords rest
  | _ => []

/-- One extension step of the SHA-256 message schedule. -/
def extendStep (w : List Nat) : List Nat :=
  let n := w.length
  w ++ [w32 (ssig1 (w.getD (n - 2) 0) + w.getD (n - 7) 0
             + ssig0 (w.getD (n - 15) 0) + w.getD (n - 16) 0)]

/-- The full 64-word message schedule from a 16-word block. -/
def schedule (w16 : List Nat) : List Nat := Nat.repeat extendStep 48 w16

/-- One SHA-256 compression round on the state `[a,b,c,d,e,f,g,h]`. -/
def roundStep (s : List Nat) (kw : Nat × Nat) : List Nat :=
  match s with
  | [a, b, c, d, e, f, g, hh] =>
      let ch := (e &&& f) ^^^ ((4294967295 ^^^ e) &&& g)
      let maj := (a &&& b) ^^^ (a &&& c) ^^^ (b &&& c)
      let t1 := w32 (hh + bsig1 e + ch + kw.1 + kw.2)
      let t2 := w32 (bsig0 a + maj)
      [w32 (t1 + t2), a, b, c, w32 (d + t1), e, f, g]
  | _ => s

/-- Compress one 64-byte block into the running hash state. -/
def compressBlock (h : List Nat) (block : List Nat) : List Nat :=
  let ws := schedule (bytesToWords block)
  let s := (sha256K.zip ws).foldl roundStep h
  List.zipWith (fun x y => w32 (x + y)) h s

/-- Process `n` 64-byte blocks of `bytes` starting from state `h`. -/
def sha256Blocks : Nat → List Nat → List Nat → List Nat
  | 0, h, _ => h
  | n + 1, h, bytes => sha256Blocks n (compressBlock h (bytes.take 64)) (bytes.drop 64)

/-- Serialize a word list to bytes, four big-endian bytes per word. -/
def wordsBytes : List Nat → List Nat
  | [] => []
  | w :: ws => u32be w ++ wordsBytes ws

/-- SHA-256 of a byte list, as 32 bytes.  This is `utils::hash`. -/
def sha256 (msg : List Nat) : List Nat :=
  let padded := padMessage msg
  wordsBytes (sha256Blocks (padded.length / 64) sha256H0 padded)

/-! ## `calc_level` from utils.rs

```rust
pub fn calc_level<Key: AsRef<[u8]>>(key: Key) -> u32 {
    let hash = hash(key);
    let mut count = 0;
    for byte in hash.into_iter() {
        let string = &format!("0{:b} ", byte);
        for c in string.chars() {
            if c == '0' { count += 1; } else { break; }
        }
    }
    count
}
```

Note the `break` leaves only the inner character loop: the outer loop over
the 32 digest bytes always runs to completion. -/

/-- The binary digits of a positive number, most significant first, with no
leading zeros — `format!("{:b}", n)` for `n > 0`.  The first argument is
structural-recursion fuel; `fuel ≥ n` is always sufficient. -/
def binDigitsAux : Nat → Nat → List Char
  | _, 0 => []
  | 0, _ + 1 => []
  | fuel + 1, n + 1 =>
      binDigitsAux fuel ((n + 1) / 2) ++ [if (n + 1) % 2 = 1 then '1' else '0']

/-- `format!("{:b}", b)` as a character list (`"0"` for zero). -/
def binChars (b : Nat) : List Char :=
  if b = 0 then ['0'] else binDigitsAux b b

/-- The characters of `format!("0{:b} ", byte)`: a `'0'` prefix, the
minimal binary representation, a trailing space. -/
def levelString (b : Nat) : List Char := '0' :: binChars b ++ [' ']

/-- Leading `'0'` characters of a character list. -/
def countLeadingZeroChars : List Char → Nat
  | [] => 0
  | c :: cs => if c = '0' then countLeadingZeroChars cs + 1 else 0

/-- The count accumulated by `calc_level`'s loop over the digest bytes:
each byte contributes the leading `'0'` characters of its own string. -/
def levelCount : List Nat → Nat
  | [] => 0
  | b :: rest => countLeadingZeroChars (levelString b) + levelCount rest

/-- `utils::calc_level`: hash the key with SHA-256, then scan. -/
def calc_level (key : List Nat) : Nat := levelCount (sha256 key)

/-- Number of binary digits of `n` (0 for 0); fuel-structured so that it
reduces in the kernel; `fuel ≥ n` is always sufficient. -/
def bitLenAux : Nat → Nat → Nat
  | _, 0 => 0
  | 0, _ + 1 => 0
  | fuel + 1, n + 1 => bitLenAux fuel ((n + 1) / 2) + 1

/-- Number of binary digits of `n`. -/
def bitLen (n : Nat) : Nat := bitLenAux n n

/-- Leading zero bits of a byte in its 8-bit representation. -/
def leadingZeroBits (b : Nat) : Nat := 8 - bitLen b

/-- Modelled from the spec: the level formula the specification claims,
`level = 9 * z + w` where `z` counts leading zero bytes and
`w = 1 + leading_zero_bits(b)` for the first nonzero byte `b`, with
`level = 9 * 32 = 288` when all 32 bytes are zero. -/
def specLevel : List Nat → Nat
  | [] => 0
  | b :: rest => if b = 0 then 9 + specLevel rest else 1 + leadingZeroBits b

/-! ### C1: the level function -/

/-- For a positive argument the digit string produced by `binDigitsAux`
starts with `'1'` (the leading binary digit is never zero). -/
theorem binDigitsAux_head (fuel : Nat) : ∀ n, 0 < n → n ≤ fuel →
    ∃ t, binDigitsAux fuel n = '1' :: t := by
  induction fuel with
  | zero => intro n h1 h2; omega
  | succ fuel ih =>
    intro n h1 h2
    match n, h1 with
    | n + 1, _ =>
      rcases Nat.eq_zero_or_pos ((n + 1) / 2) with hz | hp
      · have hn : n = 0 := by omega
        subst hn
        exact ⟨[], by simp [binDigitsAux]⟩
      · have hlt : (n + 1) / 2 < n + 1 := Nat.div_lt_self (Nat.succ_pos n) Nat.one_lt_two
        obtain ⟨t, ht⟩ := ih ((n + 1) / 2) hp (by omega)
        exact ⟨t ++ [if (n + 1) % 2 = 1 then '1' else '0'], by simp [binDigitsAux, ht]⟩

/-- Each byte contributes exactly 2 leading `'0'` characters when it is
zero and exactly 1 otherwise. -/
theorem countLeadingZeroChars_levelString (b : Nat) :
    countLeadingZeroChars (levelString b) = if b = 0 then 2 else 1 := by
  by_cases hb : b = 0
  · subst hb; decide
  · obtain ⟨t, ht⟩ := binDigitsAux_head b b (Nat.pos_of_ne_zero hb) le_rfl
    simp only [levelString, binChars, if_neg hb, ht, hb]
    rfl

/-- The byte-scan count equals the list length plus the number of zero
bytes (each byte contributes 1, a zero byte contributes 2). -/
theorem levelCount_eq (h : List Nat) :
    levelCount h = h.length + h.count 0 := by
  induction h with
  | nil => rfl
  | cons b rest ih =>
    rw [levelCount, countLeadingZeroChars_levelString, ih, List.count_cons]
    by_cases hb : b = 0
    · subst hb; simp; omega
    · simp [hb, Ne.symm hb]; omega

theorem roundStep_length (s : List Nat) (kw : Nat × Nat) (h : s.length = 8) :
    (roundStep s kw).length = 8 := by
  match s, h with
  | [a, b, c, d, e, f, g, hh], _ => rfl

theorem foldl_roundStep_length (l : List (Nat × Nat)) (s : List Nat)
    (h : s.length = 8) : (l.foldl roundStep s).length = 8 := by
  induction l generalizing s with
  | nil => exact h
  | cons kw rest ih => exact ih _ (roundStep_length s kw h)

theorem compressBlock_length (h block : List Nat) (hl : h.length = 8) :
    (compressBlock h block).length = 8 := by
  rw [compressBlock, List.length_zipWith, foldl_roundStep_length _ _ hl, hl]
  exact min_self 8

theorem sha256Blocks_length (n : Nat) : ∀ h bytes, h.length = 8 →
    (sha256Blocks n h bytes).length = 8 := by
  induction n with
  | zero => intro h bytes hl; exact hl
  | succ n ih =>
    intro h bytes hl
    exact ih _ _ (compressBlock_length h _ hl)

theorem wordsBytes_length (ws : List Nat) :
    (wordsBytes ws).length = 4 * ws.length := by
  induction ws with
  | nil => rfl
  | cons w rest ih =>
    show (u32be w ++ wordsBytes rest).length = 4 * (w :: rest).length
    rw [List.length_append, ih]
    simp [u32be]
    omega

/-- The digest always has 32 bytes. -/
theorem sha256_length (msg : List Nat) : (sha256 msg).length = 32 := by
  rw [sha256, wordsBytes_length, sha256Blocks_length]
  rfl

/-- C1 (counterexample): for the key `[97]` (the byte string `"a"`), the
implementation computes level 32, while the specification's formula
`9 * z + w` over `h = digest(key)` yields 1 — the first digest byte is
`0xca`, so `z = 0` and `w = 1`.  The two disagree because the scan in
`calc_level` never stops at the first non-`'0'` character: the `break`
leaves only the inner loop, and the outer loop over digest bytes always
completes. -/
theorem calc_level_spec_counterexample :
    calc_level [97] = 32 ∧ specLevel (sha256 [97]) = 1 ∧
      calc_level [97] ≠ specLevel (sha256 [97]) := by decide

/-- C1 (amended): for every key, `calc_level` returns
`32 + (number of zero bytes anywhere in the digest)`: each digest byte
contributes the leading `'0'` characters of its own string
`"0" ++ minimal_binary(byte) ++ " "` — 2 for a zero byte, 1 for a nonzero
byte — and the contributions of all 32 bytes are summed; the count does
not stop at the first non-`'0'` character of the whole sequence. -/
theorem calc_level_eq_zero_bytes (key : List Nat) :
    calc_level key = 32 + (sha256 key).count 0 := by
  rw [calc_level, levelCount_eq, sha256_length]

/-! ## Data model: `PageData`, `Page`, `Store` (from store.rs)

The store is a `HashMap` in the source; it is modelled as a key-unique
association list (`put` replaces any existing binding, `remove` deletes
the binding, `get` looks the key up).  Keys, values, the digest and the
caller-supplied value operations (`compare_keys`, `merge`, `as_bytes`)
are abstract parameters, collected in `Params` below. -/

/-- `store::PageData`: one entry of a page. -/
structure PageData (Key V : Type) where
  key : Key
  value : V
  next : Option Key
deriving DecidableEq

/-- `store::Page`: a tree node. -/
structure Page (Key V : Type) where
  level : Nat
  low : Option Key
  list : List (PageData Key V)
deriving DecidableEq

/-- `store::Store`: the content-addressed page store. -/
structure Store (Key V : Type) where
  pages : List (Key × Page Key V)
deriving DecidableEq

variable {Key V : Type}

/-- `Store::new`. -/
def Store.new : Store Key V := ⟨[]⟩

/-- Lookup in the underlying association list. -/
def pagesGet [DecidableEq Key] : List (Key × Page Key V) → Key → Option (Page Key V)
  | [], _ => none
  | (k, p) :: rest, key => if k = key then some p else pagesGet rest key

/-- `Store::get`. -/
def Store.get [DecidableEq Key] (s : Store Key V) (key : Key) : Option (Page Key V) :=
  pagesGet s.pages key

/-- `Store::has`. -/
def Store.has [DecidableEq Key] (s : Store Key V) (key : Key) : Bool :=
  (s.get key).isSome

/-- `Store::remove`: drop the binding for `key`. -/
def Store.remove [DecidableEq Key] (s : Store Key V) (key : Key) : Store Key V :=
  ⟨s.pages.filter (fun kv => decide (kv.1 ≠ key))⟩

/-- `Store::put`: record the binding, replacing any existing one
(`HashMap::insert`). -/
def Store.put [DecidableEq Key] (s : Store Key V) (key : Key) (page : Page Key V) :
    Store Key V :=
  ⟨(key, page) :: (s.remove key).pages⟩

/-- Number of bindings held by the store. -/
def Store.size (s : Store Key V) : Nat := s.pages.length

/-- `Page::refs` (via the `Reference` impl for `Page`): `low` first, then
every present `next`, in list order. -/
def Page.refs (p : Page Key V) : List Key :=
  (match p.low with
   | some low => [low]
   | none => []) ++ p.list.filterMap (fun e => e.next)

/-- The caller-supplied capability bundle plus the digest: `compare_keys`
and `merge` from the `Value` contract, `calc_level` and `hash_page`
(which in the source are SHA-256 over key bytes and over the canonical
page serialization respectively), and the all-zero default key
(`MSTKey::default()`). -/
structure Params (Key V : Type) where
  compare_keys : Key → Key → Ordering
  merge : V → V → V
  calc_level : Key → Nat
  hash_page : Page Key V → Key
  default : Key

/-- `mst::MST`: a root key together with the owned store. -/
structure MSTree (Key V : Type) where
  root : Key
  store : Store Key V
deriving DecidableEq

/-- `MST::new`. -/
def MSTree.new (P : Params Key V) : MSTree Key V := ⟨P.default, Store.new⟩

/-- Outcome of an operation: a value, the fatal abort raised in
`insert_after_first`, a failed `unwrap`/index (`stuck`), or
non-termination of the Rust loop, detected by fuel exhaustion (`spin`). -/
inductive Outcome (α : Type) where
  | ok : α → Outcome α
  | fatal : Outcome α
  | stuck : Outcome α
  | spin : Outcome α
deriving DecidableEq

/-- `mst::UpdateType`: which pointer of a parent page to rewrite. -/
inductive UpdateType where
  | low : UpdateType
  | next : Nat → UpdateType
deriving DecidableEq

theorem pagesGet_mem [DecidableEq Key] :
    ∀ (l : List (Key × Page Key V)) (key : Key) (p : Page Key V),
      pagesGet l key = some p → (key, p) ∈ l := by
  intro l
  induction l with
  | nil => intro key p h; cases h
  | cons kv rest ih =>
    intro key p h
    rw [pagesGet] at h
    split at h
    · cases h
      rename_i heq
      cases kv
      simp_all
    · exact List.mem_cons_of_mem _ (ih key p h)

theorem filter_ne_length_lt [DecidableEq Key] :
    ∀ (l : List (Key × Page Key V)) (key : Key), (∃ p, (key, p) ∈ l) →
      (l.filter (fun kv => decide (kv.1 ≠ key))).length < l.length := by
  intro l
  induction l with
  | nil => intro key ⟨p, hp⟩; cases hp
  | cons kv rest ih =>
    intro key ⟨p, hp⟩
    by_cases hk : kv.1 = key
    · rw [List.filter_cons_of_neg (by simp [hk])]
      exact Nat.lt_succ_of_le (List.length_filter_le _ _)
    · rcases List.mem_cons.mp hp with heq | hmem
      · exact absurd (congrArg Prod.fst heq.symm) hk
      · rw [List.filter_cons_of_pos (by simp [hk])]
        exact Nat.succ_lt_succ (ih key ⟨p, hmem⟩)

/-- `Store::remove` of a present key strictly shrinks the store. -/
theorem Store.remove_size_lt [DecidableEq Key] (s : Store Key V) (key : Key)
    (p : Page Key V) (h : s.get key = some p) : (s.remove key).size < s.size :=
  filter_ne_length_lt s.pages key ⟨p, pagesGet_mem s.pages key p h⟩

variable [DecidableEq Key]

/-- `MST::create_and_store_page`: build the page, hash it, store it. -/
def create_and_store_page (P : Params Key V) (s : Store Key V) (level : Nat)
    (low : Option Key) (list : List (PageData Key V)) : Store Key V × Key :=
  let new_page : Page Key V := ⟨level, low, list⟩
  let new_page_key := P.hash_page new_page
  (s.put new_page_key new_page, new_page_key)

/-- `MST::create_single_item_page`. -/
def create_single_item_page (P : Params Key V) (s : Store Key V) (level : Nat)
    (low : Option Key) (key : Key) (value : V) (next : Option Key) :
    Store Key V × Key :=
  create_and_store_page P s level low [⟨key, value, next⟩]

/-! ### `MST::split`

`split` removes the page it decomposes before recursing, so the recursion
is well-founded by store size.  `split_entries` is the loop over the
page's entry list in the `split_key ≥ first key` arm: it walks the
entries until it finds the split point (the first index `i` that is last
or has `split_key < entries[i+1].key`), recursively splits that entry's
`next` subtree, and — when entries remain to the right — creates and
stores the right page. -/

mutual

def split (P : Params Key V) (s : Store Key V) (node_key_opt : Option Key)
    (split_key : Key) : Store Key V × Option Key × Option Key :=
  match node_key_opt with
  | none => (s, none, none)
  | some node_key =>
    if node_key = P.default then (s, none, none)
    else
      match hget : s.get node_key with
      | none => (s, none, none)
      | some current_page =>
        let s1 := s.remove node_key
        have hlt : s1.size < s.size := Store.remove_size_lt s node_key current_page hget
        match current_page.list with
        | [] => (s1, current_page.low, none)
        | first_entry :: more =>
          match P.compare_keys split_key first_entry.key with
          | .lt =>
            let res := split P s1 current_page.low split_key
            let res2 := create_and_store_page P res.1 current_page.level res.2.2
              (first_entry :: more)
            (res2.1, res.2.1, some res2.2)
          | _ =>
            let res := split_entries P s1 current_page.level split_key
              (first_entry :: more)
            let left_page : Page Key V := ⟨current_page.level, current_page.low, res.2.1⟩
            let left_page_key := P.hash_page left_page
            (res.1.put left_page_key left_page, some left_page_key, res.2.2)
termination_by (s.size, 0)
decreasing_by
  · exact Prod.Lex.left _ _ hlt
  · exact Prod.Lex.left _ _ hlt

def split_entries (P : Params Key V) (s : Store Key V) (level : Nat)
    (split_key : Key) (entries : List (PageData Key V)) :
    Store Key V × List (PageData Key V) × Option Key :=
  match entries with
  | [] => (s, [], none)
  | [entry] =>
    let res := split P s entry.next split_key
    (res.1, [⟨entry.key, entry.value, res.2.1⟩], res.2.2)
  | entry :: next_entry :: rest =>
    match P.compare_keys split_key next_entry.key with
    | .lt =>
      let res := split P s entry.next split_key
      let res2 := create_and_store_page P res.1 level res.2.2 (next_entry :: rest)
      (res2.1, [⟨entry.key, entry.value, res.2.1⟩], some res2.2)
    | _ =>
      let res := split_entries P s level split_key (next_entry :: rest)
      (res.1, entry :: res.2.1, res.2.2)
termination_by (s.size, entries.length + 1)
decreasing_by
  · exact Prod.Lex.right _ (by omega)
  · exact Prod.Lex.right _ (by omega)
  · exact Prod.Lex.right _ (by simp [List.length_cons])

end

/-! ### `MST::insert` and helpers -/

/-- `MST::insert_after_first`: rebuild the entry list with `item_key`
inserted (or merged) somewhere at or after the first entry.  The `.gt`
arm is the source's fatal
`panic!("Unexpected order in insert_after_first")`. -/
def insert_after_first (P : Params Key V) (s : Store Key V)
    (entries : List (PageData Key V)) (item_key : Key) (item_value : V) :
    Outcome (Store Key V × List (PageData Key V)) :=
  match entries with
  | [] => .ok (s, [])
  | entry :: rest =>
    match P.compare_keys entry.key item_key with
    | .eq => .ok (s, ⟨entry.key, P.merge entry.value item_value, entry.next⟩ :: rest)
    | .lt =>
      match rest with
      | [] =>
        let res := split P s entry.next item_key
        .ok (res.1, [⟨entry.key, entry.value, res.2.1⟩,
                     ⟨item_key, item_value, res.2.2⟩])
      | next_entry :: _ =>
        match P.compare_keys item_key next_entry.key with
        | .lt =>
          let res := split P s entry.next item_key
          .ok (res.1, ⟨entry.key, entry.value, res.2.1⟩ ::
                      ⟨item_key, item_value, res.2.2⟩ :: rest)
        | _ =>
          match insert_after_first P s rest item_key item_value with
          | .ok res => .ok (res.1, entry :: res.2)
          | e => e
    | .gt => .fatal

/-- `MST::update_parent_chain` (also inlined twice in `insert`): replay
the recorded parent updates bottom-up, rehashing each rebuilt parent.
The parent lookups are `unwrap`s in the source; a missing parent or an
out-of-range entry index is `stuck`. -/
def update_parent_chain (P : Params Key V) (s : Store Key V) (child_key : Key) :
    List (Key × UpdateType) → Outcome (Store Key V × Key)
  | [] => .ok (s, child_key)
  | (parent_key, upd) :: rest =>
    match s.get parent_key with
    | none => .stuck
    | some parent_page =>
      match upd with
      | .low =>
        let new_page : Page Key V := ⟨parent_page.level, some child_key, parent_page.list⟩
        let new_parent_key := P.hash_page new_page
        update_parent_chain P (s.put new_parent_key new_page) new_parent_key rest
      | .next idx =>
        match parent_page.list[idx]? with
        | none => .stuck
        | some e =>
          let new_page : Page Key V := ⟨parent_page.level, parent_page.low,
            parent_page.list.set idx ⟨e.key, e.value, some child_key⟩⟩
          let new_parent_key := P.hash_page new_page
          update_parent_chain P (s.put new_parent_key new_page) new_parent_key rest

/-- The scan in `insert`'s descend arm: find the first index `i ≥ 1` with
`item_key < list[i].key` and descend into `list[i-1].next`, or descend
into the last entry's `next`.  Returns the index `i-1` (for the
`UpdateType::Next` record) and that entry's `next` pointer; `i` here
counts from the entry passed as `entry`. -/
def descend_target (P : Params Key V) (item_key : Key) :
    Nat → PageData Key V → List (PageData Key V) → Nat × Option Key
  | i, entry, [] => (i, entry.next)
  | i, entry, next_entry :: rest =>
    match P.compare_keys item_key next_entry.key with
    | .lt => (i, entry.next)
    | _ => descend_target P item_key (i + 1) next_entry rest

/-- The main loop of `MST::insert`.  `fuel` bounds the number of loop
iterations; the loop state is the current key and the parent trail
(most recent first). -/
def insert_loop (P : Params Key V) (fuel : Nat) (s : Store Key V) (level : Nat)
    (item_key : Key) (item_value : V) (current_key : Key)
    (parent_updates : List (Key × UpdateType)) : Outcome (Store Key V × Key) :=
  match fuel with
  | 0 => .spin
  | fuel + 1 =>
    match s.get current_key with
    | none =>
      let res := create_single_item_page P s level none item_key item_value none
      update_parent_chain P res.1 res.2 parent_updates
    | some current_page =>
      if current_page.level < level then
        let existing_page : Page Key V :=
          ⟨current_page.level, current_page.low, current_page.list⟩
        let existing_page_key := P.hash_page existing_page
        let s1 := (s.put existing_page_key existing_page : Store Key V)
        let res := split P s1 (some existing_page_key) item_key
        let res2 := create_single_item_page P res.1 level res.2.1 item_key
          item_value res.2.2
        update_parent_chain P res2.1 res2.2 parent_updates
      else if current_page.level = level then
        match current_page.list with
        | [] =>
          -- the source builds `new_list = [(item_key, item_value, none)]` but
          -- then discards it and re-enters the loop with unchanged state: the
          -- Rust loop never terminates in this arm
          insert_loop P fuel s level item_key item_value current_key parent_updates
        | first :: _ =>
          if P.compare_keys item_key first.key = .lt then
            let res := split P s current_page.low item_key
            let new_page : Page Key V := ⟨current_page.level, res.2.1,
              ⟨item_key, item_value, res.2.2⟩ :: current_page.list⟩
            let new_page_key := P.hash_page new_page
            update_parent_chain P (res.1.put new_page_key new_page) new_page_key
              parent_updates
          else
            match insert_after_first P s current_page.list item_key item_value with
            | .ok res =>
              let new_page : Page Key V := ⟨current_page.level, current_page.low, res.2⟩
              let new_page_key := P.hash_page new_page
              update_parent_chain P (res.1.put new_page_key new_page) new_page_key
                parent_updates
            | .fatal => .fatal
            | .stuck => .stuck
            | .spin => .spin
      else
        match current_page.list with
        | [] =>
          insert_loop P fuel s level item_key item_value
            (current_page.low.getD P.default) ((current_key, .low) :: parent_updates)
        | first :: more =>
          if P.compare_keys item_key first.key = .lt then
            insert_loop P fuel s level item_key item_value
              (current_page.low.getD P.default) ((current_key, .low) :: parent_updates)
          else
            let tgt := descend_target P item_key 0 first more
            insert_loop P fuel s level item_key item_value
              (tgt.2.getD P.default) ((current_key, .next tgt.1) :: parent_updates)

/-- `MST::insert`: compute the level and either create the first page or
run the loop from the root.  One unit of fuel per iteration; the loop
visits pairwise distinct stored keys in any terminating Rust execution,
so `size + 1` units are sufficient whenever the Rust loop terminates. -/
def insert (P : Params Key V) (m : MSTree Key V) (item_key : Key) (item_value : V) :
    Outcome (MSTree Key V × Key) :=
  let level := P.calc_level item_key
  if m.root = P.default ∨ m.store.has m.root = false then
    let res := create_single_item_page P m.store level none item_key item_value none
    .ok (⟨res.2, res.1⟩, res.2)
  else
    match insert_loop P (m.store.size + 1) m.store level item_key item_value
        m.root [] with
    | .ok res => .ok (⟨res.2, res.1⟩, res.2)
    | .fatal => .fatal
    | .stuck => .stuck
    | .spin => .spin

/-! ### `MST::get_value` -/

/-- Result of the entry scan inside `get_value_from_node`. -/
inductive ScanRes (Key V : Type) where
  | found : V → ScanRes Key V
  | descend : Option Key → ScanRes Key V
  | exhausted : ScanRes Key V
deriving DecidableEq

/-- The `for i in 0..page.list.len()` scan of `get_value_from_node`:
`fallback` is `page.low` for the first entry and the previous entry's
`next` afterwards. -/
def scan_entries (P : Params Key V) (search_key : Key) :
    Option Key → List (PageData Key V) → ScanRes Key V
  | _, [] => .exhausted
  | fallback, entry :: rest =>
    match P.compare_keys search_key entry.key with
    | .eq => .found entry.value
    | .lt => .descend fallback
    | .gt =>
      match rest with
      | [] => .descend entry.next
      | _ => scan_entries P search_key entry.next rest

/-- `MST::get_value_from_node`, with one unit of fuel per visited node
(the Rust recursion needs no fuel; on the stores arising here the keys
along a descent are pairwise distinct, so `size + 1` suffices). -/
def get_value_from_node (P : Params Key V) (fuel : Nat) (s : Store Key V)
    (node_key : Key) (search_key : Key) : Outcome (Option V) :=
  match fuel with
  | 0 => .spin
  | fuel + 1 =>
    if node_key = P.default then .ok none
    else
      match s.get node_key with
      | none => .ok none
      | some page =>
        match page.list with
        | [] =>
          match page.low with
          | some low_key => get_value_from_node P fuel s low_key search_key
          | none => .ok none
        | _ =>
          match scan_entries P search_key page.low page.list with
          | .found v => .ok (some v)
          | .exhausted => .ok none
          | .descend none => .ok none
          | .descend (some next_key) => get_value_from_node P fuel s next_key search_key

/-- `MST::get_value`: search from the root. -/
def get_value (P : Params Key V) (m : MSTree Key V) (search_key : Key) :
    Outcome (Option V) :=
  get_value_from_node P (m.store.size + 1) m.store m.root search_key

/-! ### MST-order traversal, `to_list`, `merge`

`mst_order_traverse` visits `low`, then each entry followed by its
`next`, guarded by a visited set.  The visitors used by `to_list` and
`add_items_to_mst` always return `Continue` and act only on
`VisitEntry`, so the traversal is embedded as a collector of the entries
in visit order, threading the visited set.  `fuel` bounds the recursion
depth. -/

mutual

def mst_order_entries (P : Params Key V) (fuel : Nat) (s : Store Key V)
    (start : Key) (visited : List Key) :
    Outcome (List (PageData Key V) × List Key) :=
  match fuel with
  | 0 => .spin
  | fuel + 1 =>
    if start = P.default ∨ start ∈ visited then .ok ([], visited)
    else
      let visited1 := start :: visited
      match s.get start with
      | none => .ok ([], visited1)
      | some page =>
        match mst_order_entries P fuel s (page.low.getD P.default) visited1 with
        | .ok res => mst_order_go P fuel s page.list res.2 res.1
        | e => e
termination_by (fuel, 0)
decreasing_by
  · exact Prod.Lex.left _ _ (Nat.lt_succ_self fuel)
  · exact Prod.Lex.left _ _ (Nat.lt_succ_self fuel)

def mst_order_go (P : Params Key V) (fuel : Nat) (s : Store Key V)
    (entries : List (PageData Key V)) (visited : List Key)
    (acc : List (PageData Key V)) :
    Outcome (List (PageData Key V) × List Key) :=
  match entries with
  | [] => .ok (acc, visited)
  | entry :: rest =>
    match mst_order_entries P fuel s (entry.next.getD P.default) visited with
    | .ok res => mst_order_go P fuel s rest res.2 (acc ++ entry :: res.1)
    | e => e
termination_by (fuel, entries.length + 1)
decreasing_by
  · exact Prod.Lex.right _ (by omega)
  · exact Prod.Lex.right _ (by simp [List.length_cons])

end

/-- `MST::to_list`: the values of the tree in MST traversal order. -/
def to_list (P : Params Key V) (m : MSTree Key V) : Outcome (List V) :=
  if m.root = P.default then .ok []
  else
    match mst_order_entries P (m.store.size + 1) m.store m.root [] with
    | .ok res => .ok (res.1.map (fun e => e.value))
    | .fatal => .fatal
    | .stuck => .stuck
    | .spin => .spin

/-- Insert every collected entry, in order (the visitor body of
`add_items_to_mst`). -/
def insert_fold (P : Params Key V) (target : MSTree Key V) :
    List (PageData Key V) → Outcome (MSTree Key V)
  | [] => .ok target
  | entry :: rest =>
    match insert P target entry.key entry.value with
    | .ok res => insert_fold P res.1 rest
    | .fatal => .fatal
    | .stuck => .stuck
    | .spin => .spin

/-- `MST::add_items_to_mst`: traverse `source` in MST order and insert
each entry into `target`. -/
def add_items_to_mst (P : Params Key V) (source : MSTree Key V)
    (target : MSTree Key V) : Outcome (MSTree Key V) :=
  if source.root = P.default then .ok target
  else
    match mst_order_entries P (source.store.size + 1) source.store source.root [] with
    | .ok res => insert_fold P target res.1
    | .fatal => .fatal
    | .stuck => .stuck
    | .spin => .spin

/-- `MST::merge`: build a fresh empty MST, add `self`'s items, then
`other`'s.  The first returned pair is the post-call `(self, other)` —
the Rust receiver is `&mut self` and `other` is `&self`, and neither is
written, which the simulation renders by returning them alongside the
result `(new_root, new_store)`. -/
def merge (P : Params Key V) (a b : MSTree Key V) :
    Outcome ((MSTree Key V × MSTree Key V) × (Key × Store Key V)) :=
  let new_mst : MSTree Key V := ⟨P.default, Store.new⟩
  match (if a.root ≠ P.default then add_items_to_mst P a new_mst else .ok new_mst) with
  | .ok m1 =>
    match (if b.root ≠ P.default then add_items_to_mst P b m1 else .ok m1) with
    | .ok m2 => .ok ((a, b), (m2.root, m2.store))
    | .fatal => .fatal
    | .stuck => .stuck
    | .spin => .spin
  | .fatal => .fatal
  | .stuck => .stuck
  | .spin => .spin

/-! ### `Store::missing_set` -/

theorem pagesGet_none [DecidableEq Key] :
    ∀ (l : List (Key × Page Key V)) (key : Key), pagesGet l key = none →
      ∀ kv ∈ l, kv.1 ≠ key := by
  intro l
  induction l with
  | nil => intro key _ kv hkv; cases hkv
  | cons hd rest ih =>
    intro key h kv hkv
    rw [pagesGet] at h
    split at h
    · cases h
    · rcases List.mem_cons.mp hkv with rfl | hmem
      · rename_i hne; exact hne
      · exact ih key h kv hmem

theorem length_filter_mono {α : Type} (p q : α → Bool) (l : List α)
    (h : ∀ a, p a = true → q a = true) :
    (l.filter p).length ≤ (l.filter q).length := by
  induction l with
  | nil => exact Nat.le_refl 0
  | cons a rest ih =>
    by_cases hp : p a = true
    · rw [List.filter_cons_of_pos hp, List.filter_cons_of_pos (h a hp)]
      exact Nat.succ_le_succ ih
    · rw [List.filter_cons_of_neg (by simpa using hp)]
      by_cases hq : q a = true
      · rw [List.filter_cons_of_pos hq]
        exact Nat.le_succ_of_le ih
      · rw [List.filter_cons_of_neg (by simpa using hq)]
        exact ih

/-- Marking a present, unvisited key as visited strictly shrinks the
unvisited part of the store. -/
theorem filter_unvisited_lt [DecidableEq Key]
    (l : List (Key × Page Key V)) (hash : Key) (visited : List Key)
    (p : Page Key V) (hmem : (hash, p) ∈ l) (hnv : hash ∉ visited) :
    (l.filter (fun kv => decide (kv.1 ∉ hash :: visited))).length <
      (l.filter (fun kv => decide (kv.1 ∉ visited))).length := by
  induction l with
  | nil => cases hmem
  | cons kv rest ih =>
    by_cases hk : kv.1 = hash
    · rw [List.filter_cons_of_neg (by simp [hk]),
        List.filter_cons_of_pos (by simp [hk, hnv])]
      refine Nat.lt_succ_of_le (length_filter_mono _ _ _ ?_)
      intro a ha
      simp only [decide_eq_true_eq, List.mem_cons, not_or] at ha ⊢
      exact ha.2
    · rcases List.mem_cons.mp hmem with heq | hmem2
      · exact absurd (congrArg Prod.fst heq.symm) hk
      · by_cases hv : kv.1 ∈ visited
        · rw [List.filter_cons_of_neg (by simp [hv]),
            List.filter_cons_of_neg (by simp [hv])]
          exact ih hmem2
        · rw [List.filter_cons_of_pos (by simp [hk, hv]),
            List.filter_cons_of_pos (by simp [hv])]
          exact Nat.succ_lt_succ (ih hmem2)

/-- The DFS loop of `Store::missing_set`: a work stack (top first), a
visited set and the accumulated result. -/
def missing_set_loop (s : Store Key V) (to_visit visited result : List Key) :
    List Key :=
  match to_visit with
  | [] => result
  | hash :: rest =>
    if hash ∈ visited then missing_set_loop s rest visited result
    else
      match hget : s.get hash with
      | none => missing_set_loop s rest (hash :: visited) (hash :: result)
      | some page =>
        missing_set_loop s
          ((page.refs.filter (fun r => decide (r ∉ hash :: visited))).reverse ++ rest)
          (hash :: visited) result
termination_by
  ((s.pages.filter (fun kv => decide (kv.1 ∉ visited))).length, to_visit.length)
decreasing_by
  · exact Prod.Lex.right _ (by simp [List.length_cons])
  · have heq : s.pages.filter (fun kv => decide (kv.1 ∉ hash :: visited)) =
        s.pages.filter (fun kv => decide (kv.1 ∉ visited)) := by
      refine List.filter_congr ?_
      intro kv hkv
      have hne : kv.1 ≠ hash := pagesGet_none s.pages hash hget kv hkv
      simp [List.mem_cons, hne]
    rw [heq]
    exact Prod.Lex.right _ (by simp [List.length_cons])
  · exact Prod.Lex.left _ _
      (filter_unvisited_lt s.pages hash visited _ (pagesGet_mem s.pages hash _ hget)
        (by assumption))

/-- `Store::missing_set`: identifiers reachable from `root` that are not
present in the store. -/
def Store.missing_set (s : Store Key V) (root : Key) : List Key :=
  missing_set_loop s [root] [] []

/-! ## Store lemmas -/

theorem pagesGet_filter_ne (l : List (Key × Page Key V)) (key q : Key)
    (hne : key ≠ q) :
    pagesGet (l.filter (fun kv => decide (kv.1 ≠ key))) q = pagesGet l q := by
  induction l with
  | nil => rfl
  | cons kv rest ih =>
    by_cases hk : kv.1 = key
    · rw [List.filter_cons_of_neg (by simp [hk])]
      rw [ih, pagesGet, if_neg (by rw [hk]; exact hne)]
    · rw [List.filter_cons_of_pos (by simp [hk])]
      rw [pagesGet, pagesGet]
      split <;> [rfl; exact ih]

theorem pagesGet_filter_self (l : List (Key × Page Key V)) (key : Key) :
    pagesGet (l.filter (fun kv => decide (kv.1 ≠ key))) key = none := by
  induction l with
  | nil => rfl
  | cons kv rest ih =>
    by_cases hk : kv.1 = key
    · rw [List.filter_cons_of_neg (by simp [hk])]; exact ih
    · rw [List.filter_cons_of_pos (by simp [hk])]
      show pagesGet _ _ = none
      simp only [pagesGet, if_neg hk]
      exact ih

/-- `get` after `remove`. -/
theorem Store.get_remove (s : Store Key V) (key q : Key) :
    (s.remove key).get q = if key = q then none else s.get q := by
  by_cases h : key = q
  · subst h
    rw [if_pos rfl]
    exact pagesGet_filter_self s.pages key
  · rw [if_neg h]
    exact pagesGet_filter_ne s.pages key q h

/-- `get` after `put`. -/
theorem Store.get_put (s : Store Key V) (key q : Key) (p : Page Key V) :
    (s.put key p).get q = if key = q then some p else s.get q := by
  show pagesGet ((key, p) :: (s.remove key).pages) q = _
  simp only [pagesGet]
  by_cases h : key = q
  · rw [if_pos h, if_pos h]
  · rw [if_neg h, if_neg h]
    exact pagesGet_filter_ne s.pages key q h

/-! ## C5: content addressing

Every binding ever created by the MST operations stores a page under its
own `hash_page` value; `StoreHashed` is that invariant, preserved by
every operation. -/

/-- Every page held in the store is stored under its `hash_page` key. -/
def StoreHashed (P : Params Key V) (s : Store Key V) : Prop :=
  ∀ k p, s.get k = some p → k = P.hash_page p

theorem StoreHashed.empty (P : Params Key V) :
    StoreHashed P (Store.new : Store Key V) := by
  intro k p h
  cases h

theorem StoreHashed.put (P : Params Key V) {s : Store Key V}
    (hs : StoreHashed P s) (p : Page Key V) :
    StoreHashed P (s.put (P.hash_page p) p) := by
  intro k q h
  rw [Store.get_put] at h
  split at h
  · rename_i he; cases h; exact he.symm
  · exact hs k q h

theorem StoreHashed.remove (P : Params Key V) {s : Store Key V}
    (hs : StoreHashed P s) (key : Key) :
    StoreHashed P (s.remove key) := by
  intro k q h
  rw [Store.get_remove] at h
  split at h
  · cases h
  · exact hs k q h

theorem StoreHashed.create_and_store (P : Params Key V) {s : Store Key V}
    (hs : StoreHashed P s) (level : Nat) (low : Option Key)
    (list : List (PageData Key V)) :
    StoreHashed P (create_and_store_page P s level low list).1 :=
  hs.put P _

/-! ### Unfolding equations for `split` -/

theorem split_none (P : Params Key V) (s : Store Key V) (k : Key) :
    split P s none k = (s, none, none) := by
  rw [MST.split]

theorem split_default (P : Params Key V) (s : Store Key V) (k : Key) :
    split P s (some P.default) k = (s, none, none) := by
  rw [MST.split]
  simp only [if_pos rfl]
  split
  · rfl
  · rename_i h; exact absurd trivial h

theorem split_absent (P : Params Key V) (s : Store Key V) (nk k : Key)
    (hne : nk ≠ P.default) (hget : s.get nk = none) :
    split P s (some nk) k = (s, none, none) := by
  rw [MST.split]
  simp only [if_neg hne]
  split
  · rfl
  · rename_i pg heq; rw [hget] at heq; cases heq

theorem split_nil (P : Params Key V) (s : Store Key V) (nk k : Key)
    (pg : Page Key V) (hne : nk ≠ P.default) (hget : s.get nk = some pg)
    (hlist : pg.list = []) :
    split P s (some nk) k = (s.remove nk, pg.low, none) := by
  rw [MST.split]
  simp only [if_neg hne]
  split
  · rename_i heq; rw [hget] at heq; cases heq
  · rename_i pg2 heq
    rw [hget] at heq
    cases heq
    split
    · rfl
    · rename_i e more hl; rw [hlist] at hl; cases hl

theorem split_cons_lt (P : Params Key V) (s : Store Key V) (nk k : Key)
    (pg : Page Key V) (e : PageData Key V) (more : List (PageData Key V))
    (hne : nk ≠ P.default) (hget : s.get nk = some pg)
    (hlist : pg.list = e :: more) (hcmp : P.compare_keys k e.key = .lt) :
    split P s (some nk) k =
      ((create_and_store_page P (split P (s.remove nk) pg.low k).1 pg.level
          (split P (s.remove nk) pg.low k).2.2 (e :: more)).1,
       (split P (s.remove nk) pg.low k).2.1,
       some (create_and_store_page P (split P (s.remove nk) pg.low k).1 pg.level
          (split P (s.remove nk) pg.low k).2.2 (e :: more)).2) := by
  rw [MST.split]
  simp only [if_neg hne]
  split
  · rename_i heq; rw [hget] at heq; cases heq
  · rename_i pg2 heq
    rw [hget] at heq
    cases heq
    split
    · rename_i hl; rw [hlist] at hl; cases hl
    · rename_i e2 more2 hl
      rw [hlist] at hl
      cases hl
      split
      · rfl
      · rename_i hcmp2; exact absurd hcmp hcmp2

theorem split_cons_ge (P : Params Key V) (s : Store Key V) (nk k : Key)
    (pg : Page Key V) (e : PageData Key V) (more : List (PageData Key V))
    (hne : nk ≠ P.default) (hget : s.get nk = some pg)
    (hlist : pg.list = e :: more) (hcmp : P.compare_keys k e.key ≠ .lt) :
    split P s (some nk) k =
      ((split_entries P (s.remove nk) pg.level k (e :: more)).1.put
         (P.hash_page ⟨pg.level, pg.low,
            (split_entries P (s.remove nk) pg.level k (e :: more)).2.1⟩)
         ⟨pg.level, pg.low,
            (split_entries P (s.remove nk) pg.level k (e :: more)).2.1⟩,
       some (P.hash_page ⟨pg.level, pg.low,
            (split_entries P (s.remove nk) pg.level k (e :: more)).2.1⟩),
       (split_entries P (s.remove nk) pg.level k (e :: more)).2.2) := by
  rw [MST.split]
  simp only [if_neg hne]
  split
  · rename_i heq; rw [hget] at heq; cases heq
  · rename_i pg2 heq
    rw [hget] at heq
    cases heq
    split
    · rename_i hl; rw [hlist] at hl; cases hl
    · rename_i e2 more2 hl
      rw [hlist] at hl
      cases hl
      split
      · rename_i hcmp2; exact absurd hcmp2 hcmp
      · rfl

theorem split_entries_nil (P : Params Key V) (s : Store Key V) (level : Nat)
    (k : Key) : split_entries P s level k [] = (s, [], none) := by
  rw [MST.split_entries]

theorem split_entries_last (P : Params Key V) (s : Store Key V) (level : Nat)
    (k : Key) (e : PageData Key V) :
    split_entries P s level k [e] =
      ((split P s e.next k).1,
       [⟨e.key, e.value, (split P s e.next k).2.1⟩], (split P s e.next k).2.2) := by
  rw [MST.split_entries]

theorem split_entries_cons_lt (P : Params Key V) (s : Store Key V) (level : Nat)
    (k : Key) (e ne : PageData Key V) (rest : List (PageData Key V))
    (hcmp : P.compare_keys k ne.key = .lt) :
    split_entries P s level k (e :: ne :: rest) =
      ((create_and_store_page P (split P s e.next k).1 level
          (split P s e.next k).2.2 (ne :: rest)).1,
       [⟨e.key, e.value, (split P s e.next k).2.1⟩],
       some (create_and_store_page P (split P s e.next k).1 level
          (split P s e.next k).2.2 (ne :: rest)).2) := by
  rw [MST.split_entries]
  split
  · rfl
  · rename_i hcmp2; exact absurd hcmp hcmp2

theorem split_entries_cons_ge (P : Params Key V) (s : Store Key V) (level : Nat)
    (k : Key) (e ne : PageData Key V) (rest : List (PageData Key V))
    (hcmp : P.compare_keys k ne.key ≠ .lt) :
    split_entries P s level k (e :: ne :: rest) =
      ((split_entries P s level k (ne :: rest)).1,
       e :: (split_entries P s level k (ne :: rest)).2.1,
       (split_entries P s level k (ne :: rest)).2.2) := by
  rw [MST.split_entries]
  split
  · rename_i hcmp2; exact absurd hcmp2 hcmp
  · rfl

theorem split_storeHashed (P : Params Key V) :
    ∀ (s : Store Key V) (node_key_opt : Option Key) (split_key : Key),
      StoreHashed P s → StoreHashed P (split P s node_key_opt split_key).1 := by
  intro s0 node0 key0
  refine split.induct P
    (fun s node k => StoreHashed P s → StoreHashed P (split P s node k).1)
    (fun s level split_key entries => StoreHashed P s →
      StoreHashed P (split_entries P s level split_key entries).1)
    ?_ ?_ ?_ ?_ ?_ ?_ ?_ ?_ ?_ ?_ s0 node0 key0
  · intro s k
    intro hs; rw [split_none]; exact hs
  · intro s k
    intro hs; rw [split_default]; exact hs
  · intro s k nk hne hget
    intro hs; rw [split_absent P s nk k hne hget]; exact hs
  · intro s k nk hne pg hget s1 hsz hlist
    intro hs; rw [split_nil P s nk k pg hne hget hlist]; exact hs.remove P nk
  · intro s k nk hne pg hget s1 hsz e more hlist hcmp ih
    intro hs
    rw [split_cons_lt P s nk k pg e more hne hget hlist hcmp]
    exact (ih (hs.remove P nk)).create_and_store P _ _ _
  · intro s k nk hne pg hget s1 hsz e more hlist hcmp ih
    intro hs
    rw [split_cons_ge P s nk k pg e more hne hget hlist (fun h => hcmp h)]
    exact (ih (hs.remove P nk)).put P _
  · intro s level k hs
    rw [split_entries_nil]; exact hs
  · intro s level k e ih hs
    rw [split_entries_last]; exact ih hs
  · intro s level k e ne rest hcmp ih hs
    rw [split_entries_cons_lt P s level k e ne rest hcmp]
    exact (ih hs).create_and_store P _ _ _
  · intro s level k e ne rest hcmp ih hs
    rw [split_entries_cons_ge P s level k e ne rest (fun h => hcmp h)]
    exact ih hs

theorem insert_after_first_cons (P : Params Key V) (s : Store Key V)
    (e : PageData Key V) (rest : List (PageData Key V)) (ik : Key) (iv : V) :
    insert_after_first P s (e :: rest) ik iv =
      match P.compare_keys e.key ik with
      | .eq => .ok (s, ⟨e.key, P.merge e.value iv, e.next⟩ :: rest)
      | .lt =>
        match rest with
        | [] => .ok ((split P s e.next ik).1,
            [⟨e.key, e.value, (split P s e.next ik).2.1⟩,
             ⟨ik, iv, (split P s e.next ik).2.2⟩])
        | ne :: _ =>
          match P.compare_keys ik ne.key with
          | .lt => .ok ((split P s e.next ik).1,
              ⟨e.key, e.value, (split P s e.next ik).2.1⟩ ::
              ⟨ik, iv, (split P s e.next ik).2.2⟩ :: rest)
          | _ =>
            match insert_after_first P s rest ik iv with
            | .ok res => .ok (res.1, e :: res.2)
            | e2 => e2
      | .gt => .fatal := rfl

theorem insert_after_first_storeHashed (P : Params Key V) :
    ∀ (entries : List (PageData Key V)) (s : Store Key V) (ik : Key) (iv : V)
      (res : Store Key V × List (PageData Key V)),
      StoreHashed P s → insert_after_first P s entries ik iv = .ok res →
      StoreHashed P res.1 := by
  intro entries
  induction entries with
  | nil =>
    intro s ik iv res hs h
    cases h
    exact hs
  | cons e rest ih =>
    intro s ik iv res hs h
    rw [insert_after_first_cons] at h
    cases hcmp : P.compare_keys e.key ik with
    | eq => rw [hcmp] at h; cases h; exact hs
    | gt => rw [hcmp] at h; cases h
    | lt =>
      rw [hcmp] at h
      dsimp only at h
      match rest, h with
      | [], h =>
        cases h
        exact split_storeHashed P s e.next ik hs
      | ne :: rest2, h =>
        dsimp only at h
        cases hcmp2 : P.compare_keys ik ne.key with
        | lt =>
          rw [hcmp2] at h
          cases h
          exact split_storeHashed P s e.next ik hs
        | eq =>
          rw [hcmp2] at h
          dsimp only at h
          cases hrec : insert_after_first P s (ne :: rest2) ik iv with
          | ok res2 =>
            rw [hrec] at h
            cases h
            exact ih s ik iv res2 hs hrec
          | fatal => rw [hrec] at h; cases h
          | stuck => rw [hrec] at h; cases h
          | spin => rw [hrec] at h; cases h
        | gt =>
          rw [hcmp2] at h
          dsimp only at h
          cases hrec : insert_after_first P s (ne :: rest2) ik iv with
          | ok res2 =>
            rw [hrec] at h
            cases h
            exact ih s ik iv res2 hs hrec
          | fatal => rw [hrec] at h; cases h
          | stuck => rw [hrec] at h; cases h
          | spin => rw [hrec] at h; cases h

theorem update_parent_chain_storeHashed (P : Params Key V) :
    ∀ (l : List (Key × UpdateType)) (s : Store Key V) (ck : Key)
      (res : Store Key V × Key),
      StoreHashed P s → update_parent_chain P s ck l = .ok res →
      StoreHashed P res.1 := by
  intro l
  induction l with
  | nil =>
    intro s ck res hs h
    rw [update_parent_chain] at h
    cases h
    exact hs
  | cons pu rest ih =>
    intro s ck res hs h
    match pu with
    | (parent_key, upd) =>
      rw [update_parent_chain] at h
      cases hget : s.get parent_key with
      | none => rw [hget] at h; cases h
      | some parent_page =>
        rw [hget] at h
        match upd with
        | .low =>
          exact ih _ _ res (hs.put P _) h
        | .next idx =>
          cases hidx : parent_page.list[idx]? with
          | none => simp only [hidx] at h; cases h
          | some e =>
            simp only [hidx] at h
            exact ih _ _ res (hs.put P _) h

theorem insert_loop_storeHashed (P : Params Key V) :
    ∀ (fuel : Nat) (s : Store Key V) (level : Nat) (ik : Key) (iv : V)
      (ck : Key) (pu : List (Key × UpdateType)) (res : Store Key V × Key),
      StoreHashed P s → insert_loop P fuel s level ik iv ck pu = .ok res →
      StoreHashed P res.1 := by
  intro fuel
  induction fuel with
  | zero => intro s level ik iv ck pu res hs h; rw [insert_loop] at h; cases h
  | succ fuel ih =>
    intro s level ik iv ck pu res hs h
    rw [insert_loop] at h
    cases hget : s.get ck with
    | none =>
      rw [hget] at h
      exact update_parent_chain_storeHashed P pu _ _ res (hs.put P _) h
    | some current_page =>
      simp only [hget] at h
      by_cases hlt : current_page.level < level
      · rw [if_pos hlt] at h
        exact update_parent_chain_storeHashed P pu _ _ res
          (((split_storeHashed P _ _ ik (hs.put P _)).put P _)) h
      · rw [if_neg hlt] at h
        by_cases heq : current_page.level = level
        · rw [if_pos heq] at h
          rcases hl : current_page.list with _ | ⟨first, more⟩
          · simp only [hl] at h
            exact ih _ _ _ _ _ _ res hs h
          · simp only [hl] at h
            by_cases hcmp : P.compare_keys ik first.key = .lt
            · rw [if_pos hcmp] at h
              exact update_parent_chain_storeHashed P pu _ _ res
                ((split_storeHashed P s current_page.low ik hs).put P _) h
            · rw [if_neg hcmp] at h
              cases haf : insert_after_first P s (first :: more) ik iv with
              | ok res2 =>
                rw [haf] at h
                exact update_parent_chain_storeHashed P pu _ _ res
                  ((insert_after_first_storeHashed P (first :: more) s ik iv res2
                    hs haf).put P _) h
              | fatal => rw [haf] at h; cases h
              | stuck => rw [haf] at h; cases h
              | spin => rw [haf] at h; cases h
        · rw [if_neg heq] at h
          rcases hl : current_page.list with _ | ⟨first, more⟩
          · simp only [hl] at h
            exact ih _ _ _ _ _ _ res hs h
          · simp only [hl] at h
            by_cases hcmp : P.compare_keys ik first.key = .lt
            · rw [if_pos hcmp] at h
              exact ih _ _ _ _ _ _ res hs h
            · rw [if_neg hcmp] at h
              exact ih _ _ _ _ _ _ res hs h

theorem insert_storeHashed (P : Params Key V) (m : MSTree Key V) (ik : Key)
    (iv : V) (res : MSTree Key V × Key) (hs : StoreHashed P m.store)
    (h : insert P m ik iv = .ok res) : StoreHashed P res.1.store := by
  simp only [insert] at h
  by_cases hroot : m.root = P.default ∨ m.store.has m.root = false
  · rw [if_pos hroot] at h
    cases h
    exact hs.put P _
  · rw [if_neg hroot] at h
    cases hloop : insert_loop P (m.store.size + 1) m.store (P.calc_level ik)
        ik iv m.root [] with
    | ok res2 =>
      rw [hloop] at h
      cases h
      exact insert_loop_storeHashed P _ _ _ _ _ _ _ res2 hs hloop
    | fatal => rw [hloop] at h; cases h
    | stuck => rw [hloop] at h; cases h
    | spin => rw [hloop] at h; cases h

theorem insert_fold_storeHashed (P : Params Key V) :
    ∀ (l : List (PageData Key V)) (m : MSTree Key V) (res : MSTree Key V),
      StoreHashed P m.store → insert_fold P m l = .ok res →
      StoreHashed P res.store := by
  intro l
  induction l with
  | nil => intro m res hs h; rw [insert_fold] at h; cases h; exact hs
  | cons e rest ih =>
    intro m res hs h
    rw [insert_fold] at h
    cases hins : insert P m e.key e.value with
    | ok res2 =>
      rw [hins] at h
      exact ih res2.1 res (insert_storeHashed P m e.key e.value res2 hs hins) h
    | fatal => rw [hins] at h; cases h
    | stuck => rw [hins] at h; cases h
    | spin => rw [hins] at h; cases h

theorem add_items_storeHashed (P : Params Key V) (source target : MSTree Key V)
    (res : MSTree Key V) (hs : StoreHashed P target.store)
    (h : add_items_to_mst P source target = .ok res) :
    StoreHashed P res.store := by
  rw [add_items_to_mst] at h
  by_cases hroot : source.root = P.default
  · rw [if_pos hroot] at h; cases h; exact hs
  · rw [if_neg hroot] at h
    cases htrav : mst_order_entries P (source.store.size + 1) source.store
        source.root [] with
    | ok res2 =>
      rw [htrav] at h
      exact insert_fold_storeHashed P res2.1 target res hs h
    | fatal => rw [htrav] at h; cases h
    | stuck => rw [htrav] at h; cases h
    | spin => rw [htrav] at h; cases h

theorem merge_storeHashed (P : Params Key V) (a b : MSTree Key V)
    (res : (MSTree Key V × MSTree Key V) × (Key × Store Key V))
    (h : merge P a b = .ok res) : StoreHashed P res.2.2 := by
  simp only [merge] at h
  cases h1 : (if a.root ≠ P.default then add_items_to_mst P a ⟨P.default, Store.new⟩
      else .ok ⟨P.default, Store.new⟩) with
  | ok m1 =>
    rw [h1] at h
    dsimp only at h
    cases h2 : (if b.root ≠ P.default then add_items_to_mst P b m1 else .ok m1) with
    | ok m2 =>
      rw [h2] at h
      cases h
      have hm1 : StoreHashed P m1.store := by
        by_cases hr : a.root ≠ P.default
        · rw [if_pos hr] at h1
          exact add_items_storeHashed P a _ m1 (StoreHashed.empty P) h1
        · rw [if_neg hr] at h1; cases h1; exact StoreHashed.empty P
      by_cases hr : b.root ≠ P.default
      · rw [if_pos hr] at h2
        exact add_items_storeHashed P b m1 m2 hm1 h2
      · rw [if_neg hr] at h2; cases h2; exact hm1
    | fatal => rw [h2] at h; cases h
    | stuck => rw [h2] at h; cases h
    | spin => rw [h2] at h; cases h
  | fatal => rw [h1] at h; cases h
  | stuck => rw [h1] at h; cases h
  | spin => rw [h1] at h; cases h

/-- The MSTs reachable from an empty MST by sequences of `insert` and
`merge` operations (a merge result is adopted via `with_store`). -/
inductive Reaches (P : Params Key V) : MSTree Key V → Prop where
  | new : Reaches P (MSTree.new P)
  | ins : ∀ (m : MSTree Key V) (k : Key) (v : V) (res : MSTree Key V × Key),
      Reaches P m → insert P m k v = .ok res → Reaches P res.1
  | mrg : ∀ (a b : MSTree Key V)
      (res : (MSTree Key V × MSTree Key V) × (Key × Store Key V)),
      Reaches P a → Reaches P b → merge P a b = .ok res →
      Reaches P ⟨res.2.1, res.2.2⟩

theorem reaches_storeHashed (P : Params Key V) (m : MSTree Key V)
    (hm : Reaches P m) : StoreHashed P m.store := by
  induction hm with
  | new => exact StoreHashed.empty P
  | ins m k v res _ hins ih => exact insert_storeHashed P m k v res ih hins
  | mrg a b res _ _ hmrg _ _ => exact merge_storeHashed P a b res hmrg

/-- Serialization of the entry list as fed to the hasher in `hash_page`:
for each entry, the key bytes, the value bytes (`as_bytes`), and the
`next` key bytes when present. -/
def serialize_entries (kb : Key → List Nat) (vb : V → List Nat) :
    List (PageData Key V) → List Nat
  | [] => []
  | e :: rest => kb e.key ++ vb e.value ++
      (match e.next with
       | some n => kb n
       | none => []) ++ serialize_entries kb vb rest

/-- The canonical serialization hashed by `hash_page`: the level as four
big-endian bytes, the `low` key bytes when present, then the serialized
entries. -/
def serialize_page (kb : Key → List Nat) (vb : V → List Nat)
    (pg : Page Key V) : List Nat :=
  u32be pg.level ++
  (match pg.low with
   | some l => kb l
   | none => []) ++
  serialize_entries kb vb pg.list

/-- C5: after any sequence of `insert` and `merge` operations starting
from an empty MST, every page held in the store sits under the key equal
to the digest of its canonical serialization (4-byte big-endian level,
low bytes if present, then per entry the key bytes, value bytes and next
bytes if present).  `digest` is the abstract SHA-256 and `hP` states that
the parameter bundle's `hash_page` is the source's
`digest ∘ serialization`. -/
theorem reaches_content_addressed (P : Params Key V) (digest : List Nat → Key)
    (kb : Key → List Nat) (vb : V → List Nat)
    (hP : ∀ pg : Page Key V, P.hash_page pg = digest (serialize_page kb vb pg))
    (m : MSTree Key V) (hm : Reaches P m) (k : Key) (pg : Page Key V)
    (hget : m.store.get k = some pg) :
    k = digest (serialize_page kb vb pg) := by
  rw [← hP pg]
  exact reaches_storeHashed P m hm k pg hget

/-! ## Concrete instantiations over `Nat` keys and values, used to
exercise the theorems on executable inputs. -/

/-- An injective encoding of byte lists into `Nat`, standing in for the
digest in concrete instantiations. -/
def encodeList : List Nat → Nat
  | [] => 0
  | n :: rest => Nat.pair n (encodeList rest) + 1

/-- Key bytes of a `Nat` key. -/
def natKeyBytes (k : Nat) : List Nat := [k]

/-- Value bytes of a `Nat` value. -/
def natValBytes (v : Nat) : List Nat := [v]

/-- A concrete parameter bundle whose `hash_page` digests the canonical
serialization, with last-write-wins merge. -/
def natParamsSer : Params Nat Nat where
  compare_keys := fun a b => compare a b
  merge := fun _ y => y
  calc_level := fun k => k % 3
  hash_page := fun pg => encodeList (serialize_page natKeyBytes natValBytes pg)
  default := 0

/-- The tree obtained by inserting `(5, 7)` into the empty tree. -/
def T1 : MSTree Nat Nat :=
  match insert natParamsSer (MSTree.new natParamsSer) 5 7 with
  | .ok res => res.1
  | _ => MSTree.new natParamsSer

theorem reaches_content_addressed_witness :
    T1.store.get
        (encodeList (serialize_page natKeyBytes natValBytes ⟨2, none, [⟨5, 7, none⟩]⟩)) =
      some ⟨2, none, [⟨5, 7, none⟩]⟩ ∧
    encodeList (serialize_page natKeyBytes natValBytes ⟨2, none, [⟨5, 7, none⟩]⟩) =
      encodeList (serialize_page natKeyBytes natValBytes ⟨2, none, [⟨5, 7, none⟩]⟩) :=
  ⟨by decide,
   reaches_content_addressed natParamsSer encodeList natKeyBytes natValBytes
     (fun pg => rfl) T1
     (Reaches.ins _ 5 7
       (T1, encodeList (serialize_page natKeyBytes natValBytes ⟨2, none, [⟨5, 7, none⟩]⟩))
       Reaches.new (by decide))
     _ _ (by decide)⟩

/-- C10: `merge` never touches either input: the receiver and the
argument come back exactly as they went in; the returned root and store
are those of the freshly built MST. -/
theorem merge_frame (P : Params Key V) (a b : MSTree Key V)
    (out : (MSTree Key V × MSTree Key V) × (Key × Store Key V))
    (h : merge P a b = .ok out) : out.1.1 = a ∧ out.1.2 = b := by
  simp only [merge] at h
  cases h1 : (if a.root ≠ P.default then add_items_to_mst P a ⟨P.default, Store.new⟩
      else .ok ⟨P.default, Store.new⟩) with
  | ok m1 =>
    rw [h1] at h
    dsimp only at h
    cases h2 : (if b.root ≠ P.default then add_items_to_mst P b m1 else .ok m1) with
    | ok m2 =>
      rw [h2] at h
      cases h
      exact ⟨rfl, rfl⟩
    | fatal => rw [h2] at h; cases h
    | stuck => rw [h2] at h; cases h
    | spin => rw [h2] at h; cases h
  | fatal => rw [h1] at h; cases h
  | stuck => rw [h1] at h; cases h
  | spin => rw [h1] at h; cases h

/-! ## C9 groundwork: the fatal abort in `insert_after_first` is
unreachable -/

/-- The contract C9 assumes of the caller-supplied `compare_keys`: a
strict total order presented as an `Ordering`-valued comparison. -/
structure LawfulCmp {K : Type} (cmp : K → K → Ordering) : Prop where
  eq_iff : ∀ a b, cmp a b = .eq ↔ a = b
  lt_iff_gt : ∀ a b, cmp a b = .lt ↔ cmp b a = .gt
  lt_trans : ∀ a b c, cmp a b = .lt → cmp b c = .lt → cmp a c = .lt

/-- `insert_after_first` never reaches its fatal arm when the inserted
key does not compare strictly below the first entry key — which is the
only way `insert` invokes it. -/
theorem insert_after_first_ne_fatal (P : Params Key V)
    (hcmp : LawfulCmp P.compare_keys) :
    ∀ (entries : List (PageData Key V)) (s : Store Key V) (ik : Key) (iv : V),
      (∀ e rest, entries = e :: rest → P.compare_keys ik e.key ≠ .lt) →
      insert_after_first P s entries ik iv ≠ .fatal := by
  intro entries
  induction entries with
  | nil => intro s ik iv hpre h; cases h
  | cons e rest ih =>
    intro s ik iv hpre h
    rw [insert_after_first_cons] at h
    have hfirst := hpre e rest rfl
    cases hc : P.compare_keys e.key ik with
    | gt => exact hfirst ((hcmp.lt_iff_gt ik e.key).mpr hc)
    | eq => rw [hc] at h; cases h
    | lt =>
      rw [hc] at h
      dsimp only at h
      match rest, h, ih with
      | [], h, _ => cases h
      | ne :: rest2, h, ih =>
        dsimp only at h
        cases hc2 : P.compare_keys ik ne.key with
        | lt => rw [hc2] at h; cases h
        | eq =>
          rw [hc2] at h
          dsimp only at h
          cases hrec : insert_after_first P s (ne :: rest2) ik iv with
          | ok res2 => rw [hrec] at h; cases h
          | fatal =>
            exact ih s ik iv
              (fun e2 r2 heq => by cases heq; rw [hc2]; intro hx; cases hx) hrec
          | stuck => rw [hrec] at h; cases h
          | spin => rw [hrec] at h; cases h
        | gt =>
          rw [hc2] at h
          dsimp only at h
          cases hrec : insert_after_first P s (ne :: rest2) ik iv with
          | ok res2 => rw [hrec] at h; cases h
          | fatal =>
            exact ih s ik iv
              (fun e2 r2 heq => by cases heq; rw [hc2]; intro hx; cases hx) hrec
          | stuck => rw [hrec] at h; cases h
          | spin => rw [hrec] at h; cases h

theorem update_parent_chain_ne_fatal (P : Params Key V) :
    ∀ (l : List (Key × UpdateType)) (s : Store Key V) (ck : Key),
      update_parent_chain P s ck l ≠ .fatal := by
  intro l
  induction l with
  | nil => intro s ck h; cases h
  | cons pu rest ih =>
    intro s ck h
    obtain ⟨pk, upd⟩ := pu
    rw [update_parent_chain] at h
    cases hget : s.get pk with
    | none => simp only [hget] at h; cases h
    | some pg =>
      simp only [hget] at h
      cases upd with
      | low => exact ih _ _ h
      | next idx =>
        cases hidx : pg.list[idx]? with
        | none => simp only [hidx] at h; cases h
        | some e => simp only [hidx] at h; exact ih _ _ h

theorem insert_loop_ne_fatal (P : Params Key V) (hcmp : LawfulCmp P.compare_keys) :
    ∀ (fuel : Nat) (s : Store Key V) (level : Nat) (ik : Key) (iv : V)
      (ck : Key) (pu : List (Key × UpdateType)),
      insert_loop P fuel s level ik iv ck pu ≠ .fatal := by
  intro fuel
  induction fuel with
  | zero => intro s level ik iv ck pu h; rw [insert_loop] at h; cases h
  | succ fuel ih =>
    intro s level ik iv ck pu h
    rw [insert_loop] at h
    cases hget : s.get ck with
    | none =>
      rw [hget] at h
      exact update_parent_chain_ne_fatal P pu _ _ h
    | some current_page =>
      simp only [hget] at h
      by_cases hlt : current_page.level < level
      · rw [if_pos hlt] at h
        exact update_parent_chain_ne_fatal P pu _ _ h
      · rw [if_neg hlt] at h
        by_cases heq : current_page.level = level
        · rw [if_pos heq] at h
          rcases hl : current_page.list with _ | ⟨first, more⟩
          · simp only [hl] at h
            exact ih _ _ _ _ _ _ h
          · simp only [hl] at h
            by_cases hc : P.compare_keys ik first.key = .lt
            · rw [if_pos hc] at h
              exact update_parent_chain_ne_fatal P pu _ _ h
            · rw [if_neg hc] at h
              cases haf : insert_after_first P s (first :: more) ik iv with
              | ok res2 =>
                rw [haf] at h
                exact update_parent_chain_ne_fatal P pu _ _ h
              | fatal =>
                exact insert_after_first_ne_fatal P hcmp (first :: more) s ik iv
                  (fun e2 r2 heq => by cases heq; exact hc) haf
              | stuck => rw [haf] at h; cases h
              | spin => rw [haf] at h; cases h
        · rw [if_neg heq] at h
          rcases hl : current_page.list with _ | ⟨first, more⟩
          · simp only [hl] at h
            exact ih _ _ _ _ _ _ h
          · simp only [hl] at h
            by_cases hc : P.compare_keys ik first.key = .lt
            · rw [if_pos hc] at h
              exact ih _ _ _ _ _ _ h
            · rw [if_neg hc] at h
              exact ih _ _ _ _ _ _ h

/-- On any store whatsoever, `insert` cannot hit the fatal abort, because
`insert_after_first` is only ever invoked on a list whose first entry key
is at or below the inserted key. -/
theorem insert_ne_fatal (P : Params Key V) (hcmp : LawfulCmp P.compare_keys)
    (m : MSTree Key V) (ik : Key) (iv : V) : insert P m ik iv ≠ .fatal := by
  intro h
  simp only [insert] at h
  by_cases hroot : m.root = P.default ∨ m.store.has m.root = false
  · rw [if_pos hroot] at h; cases h
  · rw [if_neg hroot] at h
    cases hloop : insert_loop P (m.store.size + 1) m.store (P.calc_level ik)
        ik iv m.root [] with
    | ok res => rw [hloop] at h; cases h
    | fatal => exact insert_loop_ne_fatal P hcmp _ _ _ _ _ _ _ hloop
    | stuck => rw [hloop] at h; cases h
    | spin => rw [hloop] at h; cases h

theorem mst_order_go_ne_fatal_of (P : Params Key V) (fuel : Nat) (s : Store Key V)
    (hE : ∀ start visited, mst_order_entries P fuel s start visited ≠ .fatal) :
    ∀ (entries : List (PageData Key V)) (visited : List Key)
      (acc : List (PageData Key V)),
      mst_order_go P fuel s entries visited acc ≠ .fatal := by
  intro entries
  induction entries with
  | nil => intro visited acc h; rw [mst_order_go] at h; cases h
  | cons e rest ih =>
    intro visited acc h
    rw [mst_order_go] at h
    cases hrec : mst_order_entries P fuel s (e.next.getD P.default) visited with
    | ok res => rw [hrec] at h; exact ih _ _ h
    | fatal => exact hE _ _ hrec
    | stuck => rw [hrec] at h; cases h
    | spin => rw [hrec] at h; cases h

theorem mst_order_entries_ne_fatal (P : Params Key V) :
    ∀ (fuel : Nat) (s : Store Key V) (start : Key) (visited : List Key),
      mst_order_entries P fuel s start visited ≠ .fatal := by
  intro fuel
  induction fuel with
  | zero => intro s start visited h; rw [mst_order_entries] at h; cases h
  | succ fuel ih =>
    intro s start visited h
    rw [mst_order_entries] at h
    by_cases hg : start = P.default ∨ start ∈ visited
    · rw [if_pos hg] at h; cases h
    · rw [if_neg hg] at h
      cases hget : s.get start with
      | none => simp only [hget] at h; cases h
      | some page =>
        simp only [hget] at h
        cases hrec : mst_order_entries P fuel s (page.low.getD P.default)
            (start :: visited) with
        | ok res =>
          rw [hrec] at h
          exact mst_order_go_ne_fatal_of P fuel s (fun a b => ih s a b) _ _ _ h
        | fatal => exact ih _ _ _ hrec
        | stuck => rw [hrec] at h; cases h
        | spin => rw [hrec] at h; cases h

theorem insert_fold_ne_fatal (P : Params Key V) (hcmp : LawfulCmp P.compare_keys) :
    ∀ (l : List (PageData Key V)) (m : MSTree Key V),
      insert_fold P m l ≠ .fatal := by
  intro l
  induction l with
  | nil => intro m h; cases h
  | cons e rest ih =>
    intro m h
    rw [insert_fold] at h
    cases hins : insert P m e.key e.value with
    | ok res => rw [hins] at h; exact ih _ h
    | fatal => exact insert_ne_fatal P hcmp m e.key e.value hins
    | stuck => rw [hins] at h; cases h
    | spin => rw [hins] at h; cases h

theorem add_items_ne_fatal (P : Params Key V) (hcmp : LawfulCmp P.compare_keys)
    (source target : MSTree Key V) : add_items_to_mst P source target ≠ .fatal := by
  intro h
  rw [add_items_to_mst] at h
  by_cases hroot : source.root = P.default
  · rw [if_pos hroot] at h; cases h
  · rw [if_neg hroot] at h
    cases htrav : mst_order_entries P (source.store.size + 1) source.store
        source.root [] with
    | ok res => rw [htrav] at h; exact insert_fold_ne_fatal P hcmp _ _ h
    | fatal => exact mst_order_entries_ne_fatal P _ _ _ _ htrav
    | stuck => rw [htrav] at h; cases h
    | spin => rw [htrav] at h; cases h

/-- `merge` never reaches the fatal abort either. -/
theorem merge_ne_fatal (P : Params Key V) (hcmp : LawfulCmp P.compare_keys)
    (a b : MSTree Key V) : merge P a b ≠ .fatal := by
  intro h
  simp only [merge] at h
  cases h1 : (if a.root ≠ P.default then add_items_to_mst P a ⟨P.default, Store.new⟩
      else .ok ⟨P.default, Store.new⟩) with
  | ok m1 =>
    rw [h1] at h
    dsimp only at h
    cases h2 : (if b.root ≠ P.default then add_items_to_mst P b m1 else .ok m1) with
    | ok m2 => rw [h2] at h; cases h
    | fatal =>
      by_cases hr : b.root ≠ P.default
      · rw [if_pos hr] at h2; exact add_items_ne_fatal P hcmp b m1 h2
      · rw [if_neg hr] at h2; cases h2
    | stuck => rw [h2] at h; cases h
    | spin => rw [h2] at h; cases h
  | fatal =>
    by_cases hr : a.root ≠ P.default
    · rw [if_pos hr] at h1; exact add_items_ne_fatal P hcmp a _ h1
    · rw [if_neg hr] at h1; cases h1
  | stuck => rw [h1] at h; cases h
  | spin => rw [h1] at h; cases h

/-! ## C8: `missing_set` soundness and completeness -/

/-- A key reachable from `root` in the store graph: `root` itself, or any
reference of a reachable, present page. -/
inductive ReachableKey (s : Store Key V) (root : Key) : Key → Prop where
  | root : ReachableKey s root root
  | step : ∀ k pg r, ReachableKey s root k → s.get k = some pg →
      r ∈ pg.refs → ReachableKey s root r

/-- Keys reachable from one of the sources `srcs` by following page
references, with sources and interior steps barred from `avoid` — the
residual work described by the DFS stack and visited set. -/
inductive ReachAvoid (s : Store Key V) (srcs avoid : List Key) : Key → Prop where
  | src : ∀ k, k ∈ srcs → k ∉ avoid → ReachAvoid s srcs avoid k
  | step : ∀ k pg r, ReachAvoid s srcs avoid k → s.get k = some pg →
      r ∈ pg.refs → r ∉ avoid → ReachAvoid s srcs avoid r

theorem ReachAvoid.mono {s : Store Key V} {srcs1 srcs2 avoid1 avoid2 : List Key}
    (hs : ∀ k, k ∈ srcs1 → k ∈ srcs2) (ha : ∀ k, k ∈ avoid2 → k ∈ avoid1)
    {k : Key} (h : ReachAvoid s srcs1 avoid1 k) : ReachAvoid s srcs2 avoid2 k := by
  induction h with
  | src k hk hnk => exact .src k (hs k hk) (fun hin => hnk (ha k hin))
  | step k pg r _ hget hr hnr ih => exact .step k pg r ih hget hr (fun hin => hnr (ha r hin))

theorem ReachAvoid.nil_src {s : Store Key V} {avoid : List Key} {k : Key}
    (h : ReachAvoid s [] avoid k) : False := by
  induction h with
  | src k hk _ => cases hk
  | step _ _ _ _ _ _ _ ih => exact ih

/-- Dropping an already-visited head of the stack changes nothing. -/
theorem ReachAvoid.drop_visited {s : Store Key V} {hash : Key}
    {rest avoid : List Key} (hv : hash ∈ avoid) {k : Key}
    (h : ReachAvoid s (hash :: rest) avoid k) : ReachAvoid s rest avoid k := by
  induction h with
  | src k hk hnk =>
    rcases List.mem_cons.mp hk with rfl | hk2
    · exact absurd hv hnk
    · exact .src k hk2 hnk
  | step k pg r _ hget hr hnr ih => exact .step k pg r ih hget hr hnr

/-- Visiting a missing head: every other residually-reachable key remains
reachable once the head moves to the visited set. -/
theorem ReachAvoid.visit_missing {s : Store Key V} {hash : Key}
    {rest avoid : List Key} (hget : s.get hash = none) {k : Key}
    (h : ReachAvoid s (hash :: rest) avoid k) :
    k = hash ∨ ReachAvoid s rest (hash :: avoid) k := by
  induction h with
  | src k hk hnk =>
    rcases List.mem_cons.mp hk with rfl | hk2
    · exact Or.inl rfl
    · by_cases hkh : k = hash
      · exact Or.inl hkh
      · exact Or.inr (.src k hk2 (by simp [List.mem_cons, hkh, hnk]))
  | step k pg r _ hgetk hr hnr ih =>
    rcases ih with rfl | ihr
    · rw [hget] at hgetk; cases hgetk
    · by_cases hrh : r = hash
      · exact Or.inl hrh
      · exact Or.inr (.step k pg r ihr hgetk hr (by simp [List.mem_cons, hrh, hnr]))

/-- Visiting a present head: residual reachability is preserved when the
head's unvisited references are pushed. -/
theorem ReachAvoid.visit_present {s : Store Key V} {hash : Key}
    {rest avoid : List Key} {page : Page Key V} (hget : s.get hash = some page)
    {k : Key}
    (h : ReachAvoid s (hash :: rest) avoid k) :
    k = hash ∨ ReachAvoid s
      ((page.refs.filter (fun r => decide (r ∉ hash :: avoid))).reverse ++ rest)
      (hash :: avoid) k := by
  induction h with
  | src k hk hnk =>
    rcases List.mem_cons.mp hk with rfl | hk2
    · exact Or.inl rfl
    · by_cases hkh : k = hash
      · exact Or.inl hkh
      · refine Or.inr (.src k ?_ (by simp [List.mem_cons, hkh, hnk]))
        exact List.mem_append.mpr (Or.inr hk2)
  | step k pg r _ hgetk hr hnr ih =>
    by_cases hrh : r = hash
    · exact Or.inl hrh
    · rcases ih with rfl | ihr
      · rw [hget] at hgetk
        cases hgetk
        refine Or.inr (.src r ?_ (by simp [List.mem_cons, hrh, hnr]))
        refine List.mem_append.mpr (Or.inl ?_)
        rw [List.mem_reverse, List.mem_filter]
        exact ⟨hr, by simp [List.mem_cons, hrh, hnr]⟩
      · exact Or.inr (.step k pg r ihr hgetk hr (by simp [List.mem_cons, hrh, hnr]))

/-- Converse of `visit_present`: nothing new becomes residually reachable. -/
theorem ReachAvoid.unvisit_present {s : Store Key V} {hash : Key}
    {rest avoid : List Key} {page : Page Key V} (hget : s.get hash = some page)
    (hnv : hash ∉ avoid) {k : Key}
    (h : ReachAvoid s
      ((page.refs.filter (fun r => decide (r ∉ hash :: avoid))).reverse ++ rest)
      (hash :: avoid) k) :
    ReachAvoid s (hash :: rest) avoid k := by
  induction h with
  | src k hk hnk =>
    have hnk2 : k ∉ avoid := fun hin => hnk (List.mem_cons_of_mem _ hin)
    rcases List.mem_append.mp hk with hk1 | hk2
    · rw [List.mem_reverse, List.mem_filter] at hk1
      exact .step hash page k
        (.src hash (List.mem_cons_self hash rest) hnv) hget hk1.1 hnk2
    · exact .src k (List.mem_cons_of_mem _ hk2) hnk2
  | step k pg r _ hgetk hr hnr ih =>
    exact .step k pg r ih hgetk hr
      (fun hin => hnr (List.mem_cons_of_mem _ hin))

/-- The DFS loop computes exactly the accumulated result together with
the residually reachable missing keys. -/
theorem missing_set_loop_spec (s : Store Key V) :
    ∀ (to_visit visited result : List Key) (k : Key),
      k ∈ missing_set_loop s to_visit visited result ↔
        (k ∈ result ∨ (ReachAvoid s to_visit visited k ∧ s.get k = none)) := by
  intro tv0 vis0 res0
  induction tv0, vis0, res0 using missing_set_loop.induct s with
  | case1 visited result =>
    intro k
    rw [missing_set_loop]
    constructor
    · intro hk; exact Or.inl hk
    · rintro (hk | ⟨hra, _⟩)
      · exact hk
      · exact absurd hra ReachAvoid.nil_src
  | case2 visited result hash rest hv ih =>
    intro k
    rw [missing_set_loop, if_pos hv]
    rw [ih k]
    constructor
    · rintro (hk | ⟨hra, hm⟩)
      · exact Or.inl hk
      · exact Or.inr ⟨hra.mono (fun a ha => List.mem_cons_of_mem _ ha) (fun a ha => ha), hm⟩
    · rintro (hk | ⟨hra, hm⟩)
      · exact Or.inl hk
      · exact Or.inr ⟨hra.drop_visited hv, hm⟩
  | case3 visited result hash rest hv hget ih =>
    intro k
    rw [missing_set_loop, if_neg hv]
    split
    · rw [ih k]
      constructor
      · rintro (hk | ⟨hra, hm⟩)
        · rcases List.mem_cons.mp hk with rfl | hk2
          · exact Or.inr ⟨.src k (List.mem_cons_self k rest) hv, hget⟩
          · exact Or.inl hk2
        · refine Or.inr ⟨?_, hm⟩
          exact (hra.mono (fun a ha => List.mem_cons_of_mem _ ha)
            (fun a ha => List.mem_cons_of_mem _ ha))
      · rintro (hk | ⟨hra, hm⟩)
        · exact Or.inl (List.mem_cons_of_mem _ hk)
        · rcases hra.visit_missing hget with rfl | hra2
          · exact Or.inl (List.mem_cons_self k result)
          · exact Or.inr ⟨hra2, hm⟩
    · rename_i pg heq
      rw [hget] at heq
      cases heq
  | case4 visited result hash rest hv page hget ih =>
    intro k
    rw [missing_set_loop, if_neg hv]
    split
    · rename_i heq
      rw [hget] at heq
      cases heq
    · rename_i pg heq
      rw [hget] at heq
      cases heq
      rw [ih k]
      constructor
      · rintro (hk | ⟨hra, hm⟩)
        · exact Or.inl hk
        · exact Or.inr ⟨hra.unvisit_present hget hv, hm⟩
      · rintro (hk | ⟨hra, hm⟩)
        · exact Or.inl hk
        · rcases hra.visit_present hget with rfl | hra2
          · rw [hget] at hm; cases hm
          · exact Or.inr ⟨hra2, hm⟩

theorem reachAvoid_root_iff (s : Store Key V) (root k : Key) :
    ReachAvoid s [root] [] k ↔ ReachableKey s root k := by
  constructor
  · intro h
    induction h with
    | src k hk _ =>
      rcases List.mem_cons.mp hk with rfl | hk2
      · exact .root
      · cases hk2
    | step k pg r _ hget hr _ ih => exact .step k pg r ih hget hr
  · intro h
    induction h with
    | root => exact .src root (List.mem_cons_self root []) (by simp)
    | step k pg r _ hget hr ih => exact .step k pg r ih hget hr (by simp)

/-- C8: `missing_set(root)` contains exactly the identifiers reachable
from `root` but not present in the store; in particular it is empty iff
every reachable identifier is present. -/
theorem missing_set_spec (s : Store Key V) (root : Key) :
    (∀ k, k ∈ s.missing_set root ↔ (ReachableKey s root k ∧ s.get k = none)) ∧
    (s.missing_set root = [] ↔
      ∀ k, ReachableKey s root k → (s.get k).isSome) := by
  have hmem : ∀ k, k ∈ s.missing_set root ↔
      (ReachableKey s root k ∧ s.get k = none) := by
    intro k
    rw [Store.missing_set, missing_set_loop_spec s [root] [] [] k]
    constructor
    · rintro (hk | ⟨hra, hm⟩)
      · cases hk
      · exact ⟨(reachAvoid_root_iff s root k).mp hra, hm⟩
    · rintro ⟨hr, hm⟩
      exact Or.inr ⟨(reachAvoid_root_iff s root k).mpr hr, hm⟩
  refine ⟨hmem, ?_⟩
  constructor
  · intro hnil k hr
    rcases hs : s.get k with _ | pg
    · have : k ∈ s.missing_set root := (hmem k).mpr ⟨hr, hs⟩
      rw [hnil] at this
      cases this
    · rfl
  · intro hall
    rcases hl : s.missing_set root with _ | ⟨k, rest⟩
    · rfl
    · have hk : k ∈ s.missing_set root := by rw [hl]; exact List.mem_cons_self k rest
      obtain ⟨hr, hm⟩ := (hmem k).mp hk
      have := hall k hr
      rw [hm] at this
      cases this

/-! ## The representation relation

`Rep P s node lvl lo hi es` says the subtree rooted at the optional key
`node` is a well-formed MST subtree in store `s` — every page present and
nonempty, entry keys at their page's level, page levels strictly below
`lvl` and strictly decreasing downward, keys strictly inside the open
interval `(lo, hi)` — and that its in-order contents are exactly the
association list `es`.  `RepEnts` is the companion relation for an entry
list of a page at level `lvl`.  This packages the page invariants of the
specification (§3) together with the abstraction map used to prove the
functional-correctness claims. -/

/-- `k` lies strictly below the optional upper bound. -/
def below (P : Params Key V) (hi : Option Key) (k : Key) : Prop :=
  ∀ h, hi = some h → P.compare_keys k h = .lt

/-- `k` lies strictly above the optional lower bound. -/
def above (P : Params Key V) (lo : Option Key) (k : Key) : Prop :=
  ∀ l, lo = some l → P.compare_keys l k = .lt

/-- `k` lies strictly inside the open interval `(lo, hi)`. -/
def inBnd (P : Params Key V) (lo hi : Option Key) (k : Key) : Prop :=
  above P lo k ∧ below P hi k

/-- The upper bound of an entry's `next` subtree: the following entry's
key, or the page's own upper bound for the last entry. -/
def upKey (hi : Option Key) : List (PageData Key V) → Option Key
  | [] => hi
  | ne :: _ => some ne.key

mutual

inductive Rep (P : Params Key V) (s : Store Key V) :
    Option Key → Nat → Option Key → Option Key → List (Key × V) → Prop where
  | empty : ∀ (lvl : Nat) (lo hi : Option Key), Rep P s none lvl lo hi []
  | node : ∀ (nk : Key) (pg : Page Key V) (lvl : Nat) (lo hi : Option Key)
      (lowEs entEs : List (Key × V)) (e0 : PageData Key V)
      (more : List (PageData Key V)),
      nk ≠ P.default →
      s.get nk = some pg →
      pg.level < lvl →
      pg.list = e0 :: more →
      Rep P s pg.low pg.level lo (some e0.key) lowEs →
      RepEnts P s pg.level lo hi (e0 :: more) entEs →
      Rep P s (some nk) lvl lo hi (lowEs ++ entEs)

inductive RepEnts (P : Params Key V) (s : Store Key V) :
    Nat → Option Key → Option Key → List (PageData Key V) → List (Key × V) →
    Prop where
  | nil : ∀ (lvl : Nat) (lo hi : Option Key), RepEnts P s lvl lo hi [] []
  | cons : ∀ (lvl : Nat) (lo hi : Option Key) (e : PageData Key V)
      (rest : List (PageData Key V)) (subEs restEs : List (Key × V)),
      inBnd P lo hi e.key →
      P.calc_level e.key = lvl →
      Rep P s e.next lvl (some e.key) (upKey hi rest) subEs →
      RepEnts P s lvl (some e.key) hi rest restEs →
      RepEnts P s lvl lo hi (e :: rest) ((e.key, e.value) :: (subEs ++ restEs))

end

/-- The whole tree is well-formed and holds the association list `es`:
either the sentinel root with nothing, or a represented root subtree. -/
def WfTree (P : Params Key V) (m : MSTree Key V) (es : List (Key × V)) : Prop :=
  StoreHashed P m.store ∧
  ((m.root = P.default ∧ es = []) ∨
    (∃ B, Rep P m.store (some m.root) B none none es))

/-- Well-behaved page hashing: the digest never produces the sentinel and
never collides (collisions are out of scope per §7). -/
structure HashOK (P : Params Key V) : Prop where
  ne_default : ∀ pg : Page Key V, P.hash_page pg ≠ P.default
  inj : ∀ pg1 pg2 : Page Key V, P.hash_page pg1 = P.hash_page pg2 → pg1 = pg2

/-- Sorted-insert-with-merge on the abstract association list: the
specification of one `insert` at the level of contents. -/
def insertEntry (P : Params Key V) (ik : Key) (iv : V) :
    List (Key × V) → List (Key × V)
  | [] => [(ik, iv)]
  | (k0, v0) :: rest =>
    match P.compare_keys ik k0 with
    | .lt => (ik, iv) :: (k0, v0) :: rest
    | .eq => (k0, P.merge v0 iv) :: rest
    | .gt => (k0, v0) :: insertEntry P ik iv rest

/-- Entries strictly below the pivot (the abstract left part of `split`). -/
def entsBelow (P : Params Key V) (k : Key) (es : List (Key × V)) :
    List (Key × V) :=
  es.filter (fun kv => decide (P.compare_keys kv.1 k = .lt))

/-- Entries at or above the pivot (the abstract right part of `split`). -/
def entsAtOrAbove (P : Params Key V) (k : Key) (es : List (Key × V)) :
    List (Key × V) :=
  es.filter (fun kv => decide (P.compare_keys kv.1 k ≠ .lt))

/-- Joint induction for the mutual relations `Rep`/`RepEnts`. -/
theorem Rep.induction (P : Params Key V) (s : Store Key V)
    (motive1 : Option Key → Nat → Option Key → Option Key → List (Key × V) → Prop)
    (motive2 : Nat → Option Key → Option Key → List (PageData Key V) →
      List (Key × V) → Prop)
    (hempty : ∀ lvl lo hi, motive1 none lvl lo hi [])
    (hnode : ∀ nk pg lvl lo hi lowEs entEs e0 more,
      nk ≠ P.default → s.get nk = some pg → pg.level < lvl →
      pg.list = e0 :: more →
      Rep P s pg.low pg.level lo (some e0.key) lowEs →
      RepEnts P s pg.level lo hi (e0 :: more) entEs →
      motive1 pg.low pg.level lo (some e0.key) lowEs →
      motive2 pg.level lo hi (e0 :: more) entEs →
      motive1 (some nk) lvl lo hi (lowEs ++ entEs))
    (hnil : ∀ lvl lo hi, motive2 lvl lo hi [] [])
    (hcons : ∀ lvl lo hi e rest subEs restEs,
      inBnd P lo hi e.key → P.calc_level e.key = lvl →
      Rep P s e.next lvl (some e.key) (upKey hi rest) subEs →
      RepEnts P s lvl (some e.key) hi rest restEs →
      motive1 e.next lvl (some e.key) (upKey hi rest) subEs →
      motive2 lvl (some e.key) hi rest restEs →
      motive2 lvl lo hi (e :: rest) ((e.key, e.value) :: (subEs ++ restEs))) :
    (∀ n lvl lo hi es, Rep P s n lvl lo hi es → motive1 n lvl lo hi es) ∧
    (∀ lvl lo hi l es, RepEnts P s lvl lo hi l es → motive2 lvl lo hi l es) :=
  ⟨fun _ _ _ _ _ h =>
    Rep.rec (motive_1 := fun a b c d e _ => motive1 a b c d e)
      (motive_2 := fun a b c d e _ => motive2 a b c d e)
      hempty hnode hnil hcons h,
   fun _ _ _ _ _ h =>
    RepEnts.rec (motive_1 := fun a b c d e _ => motive1 a b c d e)
      (motive_2 := fun a b c d e _ => motive2 a b c d e)
      hempty hnode hnil hcons h⟩

/-- A store change that preserves every present binding preserves `Rep`. -/
theorem rep_frame (P : Params Key V) {s s2 : Store Key V}
    (hsub : ∀ q p0, s.get q = some p0 → s2.get q = some p0) :
    (∀ n lvl lo hi es, Rep P s n lvl lo hi es → Rep P s2 n lvl lo hi es) ∧
    (∀ lvl lo hi l es, RepEnts P s lvl lo hi l es → RepEnts P s2 lvl lo hi l es) :=
  Rep.induction P s _ _
    (fun lvl lo hi => .empty lvl lo hi)
    (fun nk pg lvl lo hi lowEs entEs e0 more hne hget hlt hl _ _ ihlow ihents =>
      .node nk pg lvl lo hi lowEs entEs e0 more hne (hsub nk pg hget) hlt hl
        ihlow ihents)
    (fun lvl lo hi => .nil lvl lo hi)
    (fun lvl lo hi e rest subEs restEs hb hcl _ _ ihsub ihrest =>
      .cons lvl lo hi e rest subEs restEs hb hcl ihsub ihrest)

/-- Weakening the level bound upward. -/
theorem Rep.mono_bound {P : Params Key V} {s : Store Key V} {n : Option Key}
    {lvl : Nat} {lo hi : Option Key} {es : List (Key × V)}
    (h : Rep P s n lvl lo hi es) {lvl2 : Nat} (hle : lvl ≤ lvl2) :
    Rep P s n lvl2 lo hi es := by
  cases h with
  | empty => exact .empty _ _ _
  | node nk pg _ _ _ lowEs entEs e0 more hne hget hlt hl hlow hents =>
    exact .node nk pg _ _ _ lowEs entEs e0 more hne hget
      (Nat.lt_of_lt_of_le hlt hle) hl hlow hents

/-- The keys of an association list. -/
def keysOf (es : List (Key × V)) : List Key := es.map Prod.fst

/-- Entry keys of a represented page list appear in the represented
association list. -/
theorem repEnts_list_keys (P : Params Key V) (s : Store Key V) :
    ∀ lvl lo hi l es, RepEnts P s lvl lo hi l es →
      ∀ e, e ∈ l → e.key ∈ keysOf es :=
  (Rep.induction P s (fun _ _ _ _ _ => True)
    (fun lvl lo hi l es => ∀ e, e ∈ l → e.key ∈ keysOf es)
    (fun _ _ _ => trivial)
    (fun _ _ _ _ _ _ _ _ _ _ _ _ _ _ _ _ _ => trivial)
    (fun _ _ _ e he => absurd he (List.not_mem_nil e))
    (fun lvl lo hi e rest subEs restEs _ _ _ _ _ ih e2 he2 => by
      rcases List.mem_cons.mp he2 with rfl | hmem
      · exact List.mem_cons_self _ _
      · refine List.mem_cons_of_mem _ ?_
        simp only [keysOf, List.map_append]
        exact List.mem_append.mpr (Or.inr (ih e2 hmem)))).2

/-- Every key of a represented subtree has `calc_level` strictly below
the subtree's level bound (at most the page level for an entry list). -/
theorem rep_levels (P : Params Key V) (s : Store Key V) :
    (∀ n lvl lo hi es, Rep P s n lvl lo hi es →
      ∀ k, k ∈ keysOf es → P.calc_level k < lvl) ∧
    (∀ lvl lo hi l es, RepEnts P s lvl lo hi l es →
      ∀ k, k ∈ keysOf es → P.calc_level k ≤ lvl) :=
  Rep.induction P s _ _
    (fun _ _ _ k hk => absurd hk (List.not_mem_nil k))
    (fun nk pg lvl lo hi lowEs entEs e0 more _ _ hlt _ _ _ ihlow ihents k hk => by
      simp only [keysOf, List.map_append] at hk
      rcases List.mem_append.mp hk with hk1 | hk2
      · exact Nat.lt_trans (ihlow k hk1) hlt
      · exact Nat.lt_of_le_of_lt (ihents k hk2) hlt)
    (fun _ _ _ k hk => absurd hk (List.not_mem_nil k))
    (fun lvl lo hi e rest subEs restEs _ hcl _ _ ihsub ihrest k hk => by
      rcases List.mem_cons.mp hk with rfl | hmem
      · exact Nat.le_of_eq hcl
      · simp only [keysOf, List.map_append] at hmem
        rcases List.mem_append.mp hmem with hk1 | hk2
        · exact Nat.le_of_lt (ihsub k hk1)
        · exact ihrest k hk2)

/-- Keys of a represented subtree lie strictly inside the bounds, the
represented list is strictly sorted, and a nonempty page list is
represented by a list headed by its first entry with every later key
strictly above it. -/
theorem rep_bounds_sorted (P : Params Key V) (hcmp : LawfulCmp P.compare_keys)
    (s : Store Key V) :
    (∀ n lvl lo hi es, Rep P s n lvl lo hi es →
      (∀ k, k ∈ keysOf es → inBnd P lo hi k) ∧
      es.Pairwise (fun a b => P.compare_keys a.1 b.1 = .lt)) ∧
    (∀ lvl lo hi l es, RepEnts P s lvl lo hi l es →
      ((∀ k, k ∈ keysOf es → inBnd P lo hi k) ∧
       es.Pairwise (fun a b => P.compare_keys a.1 b.1 = .lt)) ∧
      (match l with
       | [] => es = []
       | e :: _ => ∃ tailEs, es = (e.key, e.value) :: tailEs ∧
           ∀ k, k ∈ keysOf tailEs → P.compare_keys e.key k = .lt)) := by
  refine Rep.induction P s _ _ ?_ ?_ ?_ ?_
  · exact fun lvl lo hi =>
      ⟨fun k hk => absurd hk (List.not_mem_nil k), List.Pairwise.nil⟩
  · intro nk pg lvl lo hi lowEs entEs e0 more hne hget hlt hl hlow hents ihlow ihents
    obtain ⟨⟨ihlowB, ihlowS⟩⟩ := And.intro ihlow trivial
    obtain ⟨⟨ihentB, ihentS⟩, ihhead⟩ := ihents
    obtain ⟨tailEs, htail, htailgt⟩ := ihhead
    have he0mem : e0.key ∈ keysOf entEs := by
      rw [htail]; exact List.mem_cons_self _ _
    have he0bnd := ihentB e0.key he0mem
    constructor
    · intro k hk
      simp only [keysOf, List.map_append] at hk
      rcases List.mem_append.mp hk with hk1 | hk2
      · obtain ⟨ha, hb⟩ := ihlowB k hk1
        refine ⟨ha, ?_⟩
        intro h hh
        exact hcmp.lt_trans _ _ _ (hb e0.key rfl) (he0bnd.2 h hh)
      · exact ihentB k hk2
    · rw [List.pairwise_append]
      refine ⟨ihlowS, ihentS, ?_⟩
      intro a ha b hb
      have halt : P.compare_keys a.1 e0.key = .lt :=
        (ihlowB a.1 (List.mem_map_of_mem Prod.fst ha)).2 e0.key rfl
      rw [htail] at hb
      rcases List.mem_cons.mp hb with rfl | hb2
      · exact halt
      · exact hcmp.lt_trans _ _ _ halt
          (htailgt b.1 (List.mem_map_of_mem Prod.fst hb2))
  · exact fun lvl lo hi =>
      ⟨⟨fun k hk => absurd hk (List.not_mem_nil k), List.Pairwise.nil⟩, rfl⟩
  · intro lvl lo hi e rest subEs restEs hb hcl hsb hrest ihsub ihrest
    obtain ⟨ihsubB, ihsubS⟩ := ihsub
    obtain ⟨⟨ihrestB, ihrestS⟩, ihrhead⟩ := ihrest
    have hsubgt : ∀ k, k ∈ keysOf subEs → P.compare_keys e.key k = .lt :=
      fun k hk => (ihsubB k hk).1 e.key rfl
    have hrestgt : ∀ k, k ∈ keysOf restEs → P.compare_keys e.key k = .lt :=
      fun k hk => (ihrestB k hk).1 e.key rfl
    have hsubhi : ∀ k, k ∈ keysOf subEs → below P hi k := by
      intro k hk
      match rest, ihrhead with
      | [], h0 =>
        have := (ihsubB k hk).2
        simpa [upKey] using this
      | ne :: rest2, ⟨tailEs, htail, _⟩ =>
        have hlt2 : P.compare_keys k ne.key = .lt :=
          (ihsubB k hk).2 ne.key rfl
        have hnemem : ne.key ∈ keysOf restEs := by
          rw [htail]; exact List.mem_cons_self _ _
        intro h hh
        exact hcmp.lt_trans _ _ _ hlt2 ((ihrestB ne.key hnemem).2 h hh)
    refine ⟨⟨?_, ?_⟩, ?_⟩
    · intro k hk
      rcases List.mem_cons.mp hk with rfl | hk2
      · exact hb
      · simp only [keysOf, List.map_append] at hk2
        rcases List.mem_append.mp hk2 with hk3 | hk4
        · refine ⟨?_, hsubhi k hk3⟩
          intro l hl
          exact hcmp.lt_trans _ _ _ (hb.1 l hl) (hsubgt k hk3)
        · refine ⟨?_, (ihrestB k hk4).2⟩
          intro l hl
          exact hcmp.lt_trans _ _ _ (hb.1 l hl) (hrestgt k hk4)
    · rw [List.pairwise_cons]
      constructor
      · intro a ha
        simp only [List.mem_append] at ha
        rcases ha with ha1 | ha2
        · exact hsubgt a.1 (List.mem_map_of_mem Prod.fst ha1)
        · exact hrestgt a.1 (List.mem_map_of_mem Prod.fst ha2)
      · rw [List.pairwise_append]
        refine ⟨ihsubS, ihrestS, ?_⟩
        intro a ha b hb2
        match rest, ihrhead with
        | [], h0 =>
          rw [h0] at hb2
          cases hb2
        | ne :: rest2, ⟨tailEs, htail, htgt⟩ =>
          have halt : P.compare_keys a.1 ne.key = .lt :=
            (ihsubB a.1 (List.mem_map_of_mem Prod.fst ha)).2 ne.key rfl
          rw [htail] at hb2
          rcases List.mem_cons.mp hb2 with rfl | hb3
          · exact halt
          · exact hcmp.lt_trans _ _ _ halt
              (htgt b.1 (List.mem_map_of_mem Prod.fst hb3))
    · exact ⟨subEs ++ restEs, rfl, fun k hk => by
        simp only [keysOf, List.map_append] at hk
        rcases List.mem_append.mp hk with hk1 | hk2
        · exact hsubgt k hk1
        · exact hrestgt k hk2⟩

/-- Rebinding a represented subtree to any interval that still contains
all of its keys. -/
theorem rep_rebound (P : Params Key V) (hcmp : LawfulCmp P.compare_keys)
    (s : Store Key V) :
    (∀ n lvl lo hi es, Rep P s n lvl lo hi es →
      ∀ lo2 hi2, (∀ k, k ∈ keysOf es → above P lo2 k) →
        (∀ k, k ∈ keysOf es → below P hi2 k) → Rep P s n lvl lo2 hi2 es) ∧
    (∀ lvl lo hi l es, RepEnts P s lvl lo hi l es →
      ∀ lo2 hi2, (∀ k, k ∈ keysOf es → above P lo2 k) →
        (∀ k, k ∈ keysOf es → below P hi2 k) → RepEnts P s lvl lo2 hi2 l es) := by
  refine Rep.induction P s _ _ ?_ ?_ ?_ ?_
  · exact fun lvl lo hi lo2 hi2 _ _ => .empty lvl lo2 hi2
  · intro nk pg lvl lo hi lowEs entEs e0 more hne hget hlt hl hlow hents ihlow ihents
    intro lo2 hi2 habove hbelow
    have hmemlow : ∀ k, k ∈ keysOf lowEs → k ∈ keysOf (lowEs ++ entEs) := by
      intro k hk; simp only [keysOf, List.map_append]
      exact List.mem_append.mpr (Or.inl hk)
    have hmement : ∀ k, k ∈ keysOf entEs → k ∈ keysOf (lowEs ++ entEs) := by
      intro k hk; simp only [keysOf, List.map_append]
      exact List.mem_append.mpr (Or.inr hk)
    refine .node nk pg lvl lo2 hi2 lowEs entEs e0 more hne hget hlt hl ?_ ?_
    · refine ihlow lo2 (some e0.key) (fun k hk => habove k (hmemlow k hk)) ?_
      intro k hk
      exact ((rep_bounds_sorted P hcmp s).1 _ _ _ _ _ hlow).1 k hk |>.2
    · exact ihents lo2 hi2 (fun k hk => habove k (hmement k hk))
        (fun k hk => hbelow k (hmement k hk))
  · exact fun lvl lo hi lo2 hi2 _ _ => .nil lvl lo2 hi2
  · intro lvl lo hi e rest subEs restEs hb hcl hsb hrest ihsub ihrest
    intro lo2 hi2 habove hbelow
    have hehd : e.key ∈ keysOf ((e.key, e.value) :: (subEs ++ restEs)) :=
      List.mem_cons_self _ _
    have hmemsub : ∀ k, k ∈ keysOf subEs →
        k ∈ keysOf ((e.key, e.value) :: (subEs ++ restEs)) := by
      intro k hk
      refine List.mem_cons_of_mem _ ?_
      simp only [keysOf, List.map_append]
      exact List.mem_append.mpr (Or.inl hk)
    have hmemrest : ∀ k, k ∈ keysOf restEs →
        k ∈ keysOf ((e.key, e.value) :: (subEs ++ restEs)) := by
      intro k hk
      refine List.mem_cons_of_mem _ ?_
      simp only [keysOf, List.map_append]
      exact List.mem_append.mpr (Or.inr hk)
    refine .cons lvl lo2 hi2 e rest subEs restEs
      ⟨habove e.key hehd, hbelow e.key hehd⟩ hcl ?_ ?_
    · rcases rest with _ | ⟨ne, rest2⟩
      · refine ihsub (some e.key) hi2 ?_ (fun k hk => hbelow k (hmemsub k hk))
        intro k hk
        exact ((rep_bounds_sorted P hcmp s).1 _ _ _ _ _ hsb).1 k hk |>.1
      · refine ihsub (some e.key) (some ne.key) ?_ ?_
        · intro k hk
          exact ((rep_bounds_sorted P hcmp s).1 _ _ _ _ _ hsb).1 k hk |>.1
        · intro k hk
          exact ((rep_bounds_sorted P hcmp s).1 _ _ _ _ _ hsb).1 k hk |>.2
    · exact ihrest (some e.key) hi2
        (fun k hk => ((rep_bounds_sorted P hcmp s).2 _ _ _ _ _ hrest).1.1 k hk |>.1)
        (fun k hk => hbelow k (hmemrest k hk))

/-- A page whose every entry key belongs to `keysOf es0` — the pages a
`split` of a subtree representing `es0` may remove or rebuild. -/
def SubPage (es0 : List (Key × V)) (p : Page Key V) : Prop :=
  p.list ≠ [] ∧ ∀ e, e ∈ p.list → e.key ∈ keysOf es0

/-- A store change that touches only `SubPage es0` bindings preserves any
represented subtree whose keys are disjoint from `keysOf es0`. -/
theorem rep_frame_disjoint (P : Params Key V) {s s2 : Store Key V}
    (es0 : List (Key × V))
    (hframe : ∀ q p0, s.get q = some p0 → s2.get q = some p0 ∨ SubPage es0 p0) :
    (∀ n lvl lo hi es, Rep P s n lvl lo hi es →
      (∀ k, k ∈ keysOf es → k ∉ keysOf es0) → Rep P s2 n lvl lo hi es) ∧
    (∀ lvl lo hi l es, RepEnts P s lvl lo hi l es →
      (∀ k, k ∈ keysOf es → k ∉ keysOf es0) → RepEnts P s2 lvl lo hi l es) := by
  refine Rep.induction P s _ _ ?_ ?_ ?_ ?_
  · exact fun lvl lo hi _ => .empty lvl lo hi
  · intro nk pg lvl lo hi lowEs entEs e0 more hne hget hlt hl hlow hents ihlow ihents
    intro hdisj
    have hget2 : s2.get nk = some pg := by
      rcases hframe nk pg hget with h | ⟨_, hsub⟩
      · exact h
      · exfalso
        have he0 : e0.key ∈ keysOf es0 := hsub e0 (by rw [hl]; exact List.mem_cons_self _ _)
        have he0es : e0.key ∈ keysOf (lowEs ++ entEs) := by
          simp only [keysOf, List.map_append]
          exact List.mem_append.mpr (Or.inr (repEnts_list_keys P s _ _ _ _ _ hents e0
            (List.mem_cons_self _ _)))
        exact hdisj e0.key he0es he0
    refine .node nk pg lvl lo hi lowEs entEs e0 more hne hget2 hlt hl ?_ ?_
    · refine ihlow ?_
      intro k hk
      refine hdisj k ?_
      simp only [keysOf, List.map_append]
      exact List.mem_append.mpr (Or.inl hk)
    · refine ihents ?_
      intro k hk
      refine hdisj k ?_
      simp only [keysOf, List.map_append]
      exact List.mem_append.mpr (Or.inr hk)
  · exact fun lvl lo hi _ => .nil lvl lo hi
  · intro lvl lo hi e rest subEs restEs hb hcl hsb hrest ihsub ihrest
    intro hdisj
    refine .cons lvl lo hi e rest subEs restEs hb hcl ?_ ?_
    · refine ihsub ?_
      intro k hk
      refine hdisj k ?_
      refine List.mem_cons_of_mem _ ?_
      simp only [keysOf, List.map_append]
      exact List.mem_append.mpr (Or.inl hk)
    · refine ihrest ?_
      intro k hk
      refine hdisj k ?_
      refine List.mem_cons_of_mem _ ?_
      simp only [keysOf, List.map_append]
      exact List.mem_append.mpr (Or.inr hk)

/-- Under content addressing with an injective digest, a `put` of a
hash-addressed page never changes any present binding. -/
theorem put_frame (P : Params Key V) {s : Store Key V} (hs : StoreHashed P s)
    (hok : HashOK P) (p : Page Key V) :
    ∀ q p0, s.get q = some p0 → (s.put (P.hash_page p) p).get q = some p0 := by
  intro q p0 hq
  rw [Store.get_put]
  split
  · rename_i h
    have hq2 := hs q p0 hq
    have : p = p0 := hok.inj p p0 (by rw [h, hq2])
    rw [this]
  · exact hq

/-- Removing a binding whose page level is at least the subtree bound
cannot touch the subtree: every node inside has a strictly smaller level. -/
theorem rep_remove_frame (P : Params Key V) (s : Store Key V) (nk : Key)
    (pgr : Page Key V) (hget : s.get nk = some pgr) :
    (∀ n lvl lo hi es, Rep P s n lvl lo hi es → lvl ≤ pgr.level →
      Rep P (s.remove nk) n lvl lo hi es) ∧
    (∀ lvl lo hi l es, RepEnts P s lvl lo hi l es → lvl ≤ pgr.level →
      RepEnts P (s.remove nk) lvl lo hi l es) := by
  refine Rep.induction P s _ _ ?_ ?_ ?_ ?_
  · exact fun lvl lo hi _ => .empty lvl lo hi
  · intro nk2 pg lvl lo hi lowEs entEs e0 more hne hget2 hlt hl hlow hents ihlow ihents
    intro hle
    have hne2 : nk2 ≠ nk := by
      intro h
      subst h
      rw [hget] at hget2
      cases hget2
      exact absurd (Nat.lt_of_lt_of_le hlt hle) (Nat.lt_irrefl _)
    refine .node nk2 pg lvl lo hi lowEs entEs e0 more hne ?_ hlt hl
      (ihlow (Nat.le_trans (Nat.le_of_lt hlt) hle))
      (ihents (Nat.le_trans (Nat.le_of_lt hlt) hle))
    rw [Store.get_remove, if_neg (fun h => hne2 h.symm)]
    exact hget2
  · exact fun lvl lo hi _ => .nil lvl lo hi
  · intro lvl lo hi e rest subEs restEs hb hcl hsb hrest ihsub ihrest
    intro hle
    exact .cons lvl lo hi e rest subEs restEs hb hcl (ihsub hle) (ihrest hle)

/-- The entries of a page under a represented subtree all carry keys of
that subtree. -/
theorem rep_node_subpage (P : Params Key V) {s : Store Key V} {nk : Key}
    {pg : Page Key V} {lvl : Nat} {lo hi : Option Key} {es : List (Key × V)}
    (h : Rep P s (some nk) lvl lo hi es) (hget : s.get nk = some pg) :
    SubPage es pg := by
  cases h with
  | node nk pg2 lvl lo hi lowEs entEs e0 more hne hget2 hlt hl hlow hents =>
    rw [hget] at hget2
    cases hget2
    constructor
    · rw [hl]; exact List.cons_ne_nil e0 more
    · intro e he
      rw [hl] at he
      simp only [keysOf, List.map_append]
      exact List.mem_append.mpr
        (Or.inr (repEnts_list_keys P s _ _ _ _ _ hents e he))

/-- The left and right contents of a `split` at pivot `k` as the code
computes them: keys at or below `k` go left, keys strictly above go
right. -/
def entsLE (P : Params Key V) (k : Key) (es : List (Key × V)) :
    List (Key × V) :=
  es.filter (fun kv => decide (P.compare_keys kv.1 k ≠ .gt))

/-- Companion of `entsLE`: the strictly-greater part. -/
def entsGT (P : Params Key V) (k : Key) (es : List (Key × V)) :
    List (Key × V) :=
  es.filter (fun kv => decide (P.compare_keys kv.1 k = .gt))

theorem entsLE_append (P : Params Key V) (k : Key) (a b : List (Key × V)) :
    entsLE P k (a ++ b) = entsLE P k a ++ entsLE P k b := by
  simp [entsLE, List.filter_append]

theorem entsGT_append (P : Params Key V) (k : Key) (a b : List (Key × V)) :
    entsGT P k (a ++ b) = entsGT P k a ++ entsGT P k b := by
  simp [entsGT, List.filter_append]

theorem entsLE_all (P : Params Key V) (k : Key) (es : List (Key × V))
    (h : ∀ kv, kv ∈ es → P.compare_keys kv.1 k ≠ .gt) : entsLE P k es = es := by
  rw [entsLE, List.filter_eq_self]
  intro a ha
  simp [h a ha]

theorem entsLE_none (P : Params Key V) (k : Key) (es : List (Key × V))
    (h : ∀ kv, kv ∈ es → P.compare_keys kv.1 k = .gt) : entsLE P k es = [] := by
  rw [entsLE, List.filter_eq_nil_iff]
  intro a ha
  simp [h a ha]

theorem entsGT_all (P : Params Key V) (k : Key) (es : List (Key × V))
    (h : ∀ kv, kv ∈ es → P.compare_keys kv.1 k = .gt) : entsGT P k es = es := by
  rw [entsGT, List.filter_eq_self]
  intro a ha
  simp [h a ha]

theorem entsGT_none (P : Params Key V) (k : Key) (es : List (Key × V))
    (h : ∀ kv, kv ∈ es → P.compare_keys kv.1 k ≠ .gt) : entsGT P k es = [] := by
  rw [entsGT, List.filter_eq_nil_iff]
  intro a ha
  simp [h a ha]

theorem LawfulCmp.irrefl_lt {K : Type} {cmp : K → K → Ordering}
    (h : LawfulCmp cmp) (a : K) : cmp a a ≠ .lt := by
  intro hlt
  have := (h.lt_iff_gt a a).mp hlt
  rw [hlt] at this
  cases this

theorem LawfulCmp.asym {K : Type} {cmp : K → K → Ordering}
    (h : LawfulCmp cmp) {a b : K} (hab : cmp a b = .lt) : cmp b a ≠ .lt := by
  intro hba
  exact h.irrefl_lt a (h.lt_trans a b a hab hba)

theorem LawfulCmp.lt_of_le_of_lt {K : Type} {cmp : K → K → Ordering}
    (h : LawfulCmp cmp) {a b c : K} (hab : cmp a b ≠ .gt) (hbc : cmp b c = .lt) :
    cmp a c = .lt := by
  cases hy : cmp a b with
  | lt => exact h.lt_trans a b c hy hbc
  | eq => rw [(h.eq_iff a b).mp hy]; exact hbc
  | gt => exact absurd hy hab

theorem LawfulCmp.lt_of_lt_of_le {K : Type} {cmp : K → K → Ordering}
    (h : LawfulCmp cmp) {a b c : K} (hab : cmp a b = .lt) (hbc : cmp b c ≠ .gt) :
    cmp a c = .lt := by
  cases hy : cmp b c with
  | lt => exact h.lt_trans a b c hab hy
  | eq => rw [← (h.eq_iff b c).mp hy]; exact hab
  | gt => exact absurd hy hbc

theorem LawfulCmp.le_trans {K : Type} {cmp : K → K → Ordering}
    (h : LawfulCmp cmp) {a b c : K} (hab : cmp a b ≠ .gt) (hbc : cmp b c ≠ .gt) :
    cmp a c ≠ .gt := by
  cases hy : cmp b c with
  | lt =>
    have hac : cmp a c = .lt := h.lt_of_le_of_lt hab hy
    rw [hac]
    intro hx; cases hx
  | eq => rw [← (h.eq_iff b c).mp hy]; exact hab
  | gt => exact absurd hy hbc

theorem LawfulCmp.le_of_lt {K : Type} {cmp : K → K → Ordering}
    (h : LawfulCmp cmp) {a b : K} (hab : cmp a b = .lt) : cmp a b ≠ .gt := by
  rw [hab]; intro hx; cases hx

theorem LawfulCmp.ge_of_not_lt {K : Type} {cmp : K → K → Ordering}
    (h : LawfulCmp cmp) {a b : K} (hab : cmp a b ≠ .lt) : cmp b a ≠ .gt := by
  intro hx
  exact hab ((h.lt_iff_gt a b).mpr hx)

theorem LawfulCmp.lt_asymm_ne {K : Type} {cmp : K → K → Ordering}
    (h : LawfulCmp cmp) {a b : K} (hab : cmp a b = .lt) : a ≠ b := by
  intro hx
  subst hx
  exact h.irrefl_lt a hab

theorem create_and_store_page_eq (P : Params Key V) (s : Store Key V)
    (level : Nat) (low : Option Key) (list : List (PageData Key V)) :
    create_and_store_page P s level low list =
      (s.put (P.hash_page ⟨level, low, list⟩) ⟨level, low, list⟩,
       P.hash_page ⟨level, low, list⟩) := rfl

theorem entsLE_cons_le (P : Params Key V) (k k0 : Key) (v0 : V)
    (es : List (Key × V)) (h : P.compare_keys k0 k ≠ .gt) :
    entsLE P k ((k0, v0) :: es) = (k0, v0) :: entsLE P k es := by
  simp [entsLE, List.filter_cons, h]

theorem entsGT_cons_le (P : Params Key V) (k k0 : Key) (v0 : V)
    (es : List (Key × V)) (h : P.compare_keys k0 k ≠ .gt) :
    entsGT P k ((k0, v0) :: es) = entsGT P k es := by
  simp [entsGT, List.filter_cons, h]

/-- The entry walk of `split` preserves content addressing of the store. -/
theorem split_entries_storeHashed (P : Params Key V) :
    ∀ (entries : List (PageData Key V)) (s : Store Key V) (level : Nat)
      (k : Key), StoreHashed P s →
      StoreHashed P (split_entries P s level k entries).1 := by
  intro entries
  induction entries with
  | nil =>
    intro s level k hs
    rw [split_entries_nil]
    exact hs
  | cons e rest ih =>
    intro s level k hs
    cases rest with
    | nil =>
      rw [split_entries_last]
      exact split_storeHashed P s e.next k hs
    | cons ne rest2 =>
      cases hc : P.compare_keys k ne.key with
      | lt =>
        rw [split_entries_cons_lt P s level k e ne rest2 hc]
        exact (split_storeHashed P s e.next k hs).create_and_store P _ _ _
      | eq =>
        rw [split_entries_cons_ge P s level k e ne rest2 (by rw [hc]; intro hx; cases hx)]
        exact ih s level k hs
      | gt =>
        rw [split_entries_cons_ge P s level k e ne rest2 (by rw [hc]; intro hx; cases hx)]
        exact ih s level k hs

/-- Simulation of `split`: on a represented subtree it returns the
at-or-below-pivot part on the left and the strictly-above part on the
right, touching only pages of that subtree. -/
theorem split_sim (P : Params Key V) (hcmp : LawfulCmp P.compare_keys)
    (hok : HashOK P) :
    ∀ (s : Store Key V) (node : Option Key) (k : Key) (lvl : Nat)
      (lo hi : Option Key) (es : List (Key × V)),
      StoreHashed P s → Rep P s node lvl lo hi es →
      Rep P (split P s node k).1 (split P s node k).2.1 lvl lo hi (entsLE P k es) ∧
      Rep P (split P s node k).1 (split P s node k).2.2 lvl lo hi (entsGT P k es) ∧
      (∀ q p0, s.get q = some p0 →
        (split P s node k).1.get q = some p0 ∨ SubPage es p0) := by
  intro s0 node0 k0
  refine split.induct P
    (fun s node k =>
      ∀ (lvl : Nat) (lo hi : Option Key) (es : List (Key × V)),
        StoreHashed P s → Rep P s node lvl lo hi es →
        Rep P (split P s node k).1 (split P s node k).2.1 lvl lo hi
          (entsLE P k es) ∧
        Rep P (split P s node k).1 (split P s node k).2.2 lvl lo hi
          (entsGT P k es) ∧
        (∀ q p0, s.get q = some p0 →
          (split P s node k).1.get q = some p0 ∨ SubPage es p0))
    (fun s level k entries =>
      ∀ (lo hi : Option Key) (es : List (Key × V)),
        StoreHashed P s → RepEnts P s level lo hi entries es →
        (∀ e r2, entries = e :: r2 → P.compare_keys k e.key ≠ .lt) →
        RepEnts P (split_entries P s level k entries).1 level lo hi
          (split_entries P s level k entries).2.1 (entsLE P k es) ∧
        (∀ lvl2, level < lvl2 →
          Rep P (split_entries P s level k entries).1
            (split_entries P s level k entries).2.2 lvl2 lo hi (entsGT P k es)) ∧
        (∀ q p0, s.get q = some p0 →
          (split_entries P s level k entries).1.get q = some p0 ∨ SubPage es p0) ∧
        (∀ e r2, entries = e :: r2 →
          ∃ nx tl, (split_entries P s level k entries).2.1 =
            PageData.mk e.key e.value nx :: tl))
    ?_ ?_ ?_ ?_ ?_ ?_ ?_ ?_ ?_ ?_ s0 node0 k0
  · intro s k
    intro lvl lo hi es hs hrep
    rw [split_none]
    cases hrep with
    | empty => exact ⟨.empty _ _ _, .empty _ _ _, fun q p0 hq => Or.inl hq⟩
  · intro s k
    intro lvl lo hi es hs hrep
    cases hrep with
    | node nk2 pg2 _ _ _ lowEs entEs e0b moreb hne2 hget2 hlt2 hl2 hlow hents =>
      exact absurd rfl hne2
  · intro s k nk hne hget
    intro lvl lo hi es hs hrep
    cases hrep with
    | node nk2 pg2 _ _ _ lowEs entEs e0b moreb hne2 hget2 hlt2 hl2 hlow hents =>
      rw [hget] at hget2
      cases hget2
  · intro s k nk hne pg hget s1 hsz hlist
    intro lvl lo hi es hs hrep
    cases hrep with
    | node nk2 pg2 _ _ _ lowEs entEs e0b moreb hne2 hget2 hlt2 hl2 hlow hents =>
      rw [hget] at hget2
      cases hget2
      rw [hlist] at hl2
      cases hl2
  · intro s k nk hne pg hget s1 hsz e more hlist hcmp5 ih
    intro lvl lo hi es hs hrep
    cases hrep with
    | node nk2 pg2 _ _ _ lowEs entEs e0b moreb hne2 hget2 hlt2 hl2 hlow hents =>
    rw [hget] at hget2
    cases hget2
    rw [hlist] at hl2
    cases hl2
    rw [split_cons_lt P s nk k pg e more hne hget hlist hcmp5]
    rw [create_and_store_page_eq]
    have hlowB := ((rep_bounds_sorted P hcmp s).1 _ _ _ _ _ hlow).1
    obtain ⟨⟨hentB, hentS⟩, tailEs, htail, htailgt⟩ :=
      (rep_bounds_sorted P hcmp s).2 _ _ _ _ _ hents
    have hentGT : ∀ kv, kv ∈ entEs → P.compare_keys kv.1 k = .gt := by
      intro kv hkv
      rw [htail] at hkv
      rcases List.mem_cons.mp hkv with rfl | hkv2
      · exact (hcmp.lt_iff_gt k e.key).mp hcmp5
      · refine (hcmp.lt_iff_gt k kv.1).mp ?_
        exact hcmp.lt_trans _ _ _ hcmp5
          (htailgt kv.1 (List.mem_map_of_mem Prod.fst hkv2))
    have hdisj : ∀ k2, k2 ∈ keysOf entEs → k2 ∉ keysOf lowEs := by
      intro k2 hk2 hk2low
      have hlt3 : P.compare_keys k2 e.key = .lt := (hlowB k2 hk2low).2 e.key rfl
      rw [htail] at hk2
      rcases List.mem_cons.mp hk2 with rfl | hk3
      · exact hcmp.irrefl_lt e.key hlt3
      · exact hcmp.asym (htailgt k2 hk3) hlt3
    have hs1 : StoreHashed P (s.remove nk) := hs.remove P nk
    have hlow1 : Rep P (s.remove nk) pg.low pg.level lo (some e.key) lowEs :=
      (rep_remove_frame P s nk pg hget).1 _ _ _ _ _ hlow (Nat.le_refl _)
    have hents1 : RepEnts P (s.remove nk) pg.level lo hi (e :: more) entEs :=
      (rep_remove_frame P s nk pg hget).2 _ _ _ _ _ hents (Nat.le_refl _)
    obtain ⟨ihL, ihR, ihF⟩ := ih pg.level lo (some e.key) lowEs hs1 hlow1
    have hs2 : StoreHashed P (split P (s.remove nk) pg.low k).1 :=
      split_storeHashed P (s.remove nk) pg.low k hs1
    have hents2 : RepEnts P (split P (s.remove nk) pg.low k).1 pg.level lo hi
        (e :: more) entEs :=
      (rep_frame_disjoint P lowEs ihF).2 _ _ _ _ _ hents1 hdisj
    set pgR : Page Key V :=
      ⟨pg.level, (split P (s.remove nk) pg.low k).2.2, e :: more⟩ with hpgR
    have hput : ∀ q p0, (split P (s.remove nk) pg.low k).1.get q = some p0 →
        ((split P (s.remove nk) pg.low k).1.put (P.hash_page pgR) pgR).get q
          = some p0 :=
      put_frame P hs2 hok pgR
    have hgetR : ((split P (s.remove nk) pg.low k).1.put (P.hash_page pgR)
        pgR).get (P.hash_page pgR) = some pgR := by
      rw [Store.get_put, if_pos rfl]
    refine ⟨?_, ?_, ?_⟩
    · have hE1 : entsLE P k (lowEs ++ entEs) = entsLE P k lowEs := by
        rw [entsLE_append, entsLE_none P k entEs hentGT]
        exact List.append_nil _
      rw [hE1]
      have he0mem : e.key ∈ keysOf entEs := by
        rw [htail]; exact List.mem_cons_self _ _
      have he0hi : below P hi e.key := (hentB e.key he0mem).2
      have hLB := ((rep_bounds_sorted P hcmp _).1 _ _ _ _ _ ihL).1
      have ihL2 : Rep P (split P (s.remove nk) pg.low k).1
          (split P (s.remove nk) pg.low k).2.1 lvl lo hi (entsLE P k lowEs) := by
        refine (rep_rebound P hcmp _).1 _ _ _ _ _
          (ihL.mono_bound (Nat.le_of_lt hlt2)) lo hi ?_ ?_
        · intro k2 hk2
          exact (hLB k2 hk2).1
        · intro k2 hk2 h hh
          exact hcmp.lt_trans _ _ _ ((hLB k2 hk2).2 e.key rfl) (he0hi h hh)
      exact (rep_frame P hput).1 _ _ _ _ _ ihL2
    · have hE2 : entsGT P k (lowEs ++ entEs) = entsGT P k lowEs ++ entEs := by
        rw [entsGT_append, entsGT_all P k entEs hentGT]
      rw [hE2]
      refine Rep.node (P.hash_page pgR) pgR lvl lo hi (entsGT P k lowEs) entEs
        e more (hok.ne_default pgR) hgetR hlt2 rfl ?_ ?_
      · exact (rep_frame P hput).1 _ _ _ _ _ ihR
      · exact (rep_frame P hput).2 _ _ _ _ _ hents2
    · intro q p0 hq
      by_cases hqnk : q = nk
      · rw [hqnk] at hq
        rw [hget] at hq
        cases hq
        exact Or.inr (rep_node_subpage P
          (Rep.node nk pg lvl lo hi lowEs entEs e more hne hget hlt2 hlist
            hlow hents) hget)
      · have hq1 : (s.remove nk).get q = some p0 := by
          rw [Store.get_remove, if_neg (fun h => hqnk h.symm)]
          exact hq
        rcases ihF q p0 hq1 with hq2 | hsub
        · exact Or.inl (hput q p0 hq2)
        · refine Or.inr ⟨hsub.1, ?_⟩
          intro e2 he2
          have := hsub.2 e2 he2
          simp only [keysOf, List.map_append]
          exact List.mem_append.mpr (Or.inl this)
  · intro s k nk hne pg hget s1 hsz e more hlist hcmp6 ih
    intro lvl lo hi es hs hrep
    cases hrep with
    | node nk2 pg2 _ _ _ lowEs entEs e0b moreb hne2 hget2 hlt2 hl2 hlow hents =>
    rw [hget] at hget2
    cases hget2
    rw [hlist] at hl2
    cases hl2
    have hcmp6' : P.compare_keys k e.key ≠ .lt := fun hx => hcmp6 hx
    rw [split_cons_ge P s nk k pg e more hne hget hlist hcmp6']
    have hlowB := ((rep_bounds_sorted P hcmp s).1 _ _ _ _ _ hlow).1
    obtain ⟨⟨hentB, hentS⟩, tailEs, htail, htailgt⟩ :=
      (rep_bounds_sorted P hcmp s).2 _ _ _ _ _ hents
    have he0le : P.compare_keys e.key k ≠ .gt := hcmp.ge_of_not_lt hcmp6'
    have hlowLE : ∀ kv, kv ∈ lowEs → P.compare_keys kv.1 k ≠ .gt := by
      intro kv hkv
      refine hcmp.le_of_lt ?_
      exact hcmp.lt_of_lt_of_le
        ((hlowB kv.1 (List.mem_map_of_mem Prod.fst hkv)).2 e.key rfl) he0le
    have hdisj : ∀ k2, k2 ∈ keysOf lowEs → k2 ∉ keysOf entEs := by
      intro k2 hk2 hk2ent
      have hlt3 : P.compare_keys k2 e.key = .lt := (hlowB k2 hk2).2 e.key rfl
      rw [htail] at hk2ent
      rcases List.mem_cons.mp hk2ent with rfl | hk3
      · exact hcmp.irrefl_lt e.key hlt3
      · exact hcmp.asym (htailgt k2 hk3) hlt3
    have hs1 : StoreHashed P (s.remove nk) := hs.remove P nk
    have hlow1 : Rep P (s.remove nk) pg.low pg.level lo (some e.key) lowEs :=
      (rep_remove_frame P s nk pg hget).1 _ _ _ _ _ hlow (Nat.le_refl _)
    have hents1 : RepEnts P (s.remove nk) pg.level lo hi (e :: more) entEs :=
      (rep_remove_frame P s nk pg hget).2 _ _ _ _ _ hents (Nat.le_refl _)
    obtain ⟨ihL, ihR, ihF, ihHd⟩ := ih lo hi entEs hs1 hents1
      (fun e2 r2 heq => by cases heq; exact hcmp6')
    obtain ⟨nx, tl, hhd⟩ := ihHd e more rfl
    rw [hhd] at ihL
    have hs2 : StoreHashed P (split_entries P (s.remove nk) pg.level k
        (e :: more)).1 :=
      split_entries_storeHashed P (e :: more) (s.remove nk) pg.level k hs1
    have hlow2 : Rep P (split_entries P (s.remove nk) pg.level k (e :: more)).1
        pg.low pg.level lo (some e.key) lowEs :=
      (rep_frame_disjoint P entEs ihF).1 _ _ _ _ _ hlow1 hdisj
    set pgL : Page Key V := ⟨pg.level, pg.low,
      (split_entries P (s.remove nk) pg.level k (e :: more)).2.1⟩ with hpgL
    have hput : ∀ q p0,
        (split_entries P (s.remove nk) pg.level k (e :: more)).1.get q = some p0 →
        ((split_entries P (s.remove nk) pg.level k (e :: more)).1.put
          (P.hash_page pgL) pgL).get q = some p0 :=
      put_frame P hs2 hok pgL
    have hgetL : ((split_entries P (s.remove nk) pg.level k (e :: more)).1.put
        (P.hash_page pgL) pgL).get (P.hash_page pgL) = some pgL := by
      rw [Store.get_put, if_pos rfl]
    have hE1 : entsLE P k (lowEs ++ entEs) = lowEs ++ entsLE P k entEs := by
      rw [entsLE_append, entsLE_all P k lowEs hlowLE]
    have hE2 : entsGT P k (lowEs ++ entEs) = entsGT P k entEs := by
      rw [entsGT_append, entsGT_none P k lowEs hlowLE]
      exact List.nil_append _
    refine ⟨?_, ?_, ?_⟩
    · rw [hE1]
      refine Rep.node (P.hash_page pgL) pgL lvl lo hi lowEs (entsLE P k entEs)
        ⟨e.key, e.value, nx⟩ tl (hok.ne_default pgL) hgetL hlt2 hhd ?_ ?_
      · exact (rep_frame P hput).1 _ _ _ _ _ hlow2
      · exact (rep_frame P hput).2 _ _ _ _ _ ihL
    · rw [hE2]
      exact (rep_frame P hput).1 _ _ _ _ _ (ihR lvl hlt2)
    · intro q p0 hq
      by_cases hqnk : q = nk
      · rw [hqnk] at hq
        rw [hget] at hq
        cases hq
        exact Or.inr (rep_node_subpage P
          (Rep.node nk pg lvl lo hi lowEs entEs e more hne hget hlt2 hlist
            hlow hents) hget)
      · have hq1 : (s.remove nk).get q = some p0 := by
          rw [Store.get_remove, if_neg (fun h => hqnk h.symm)]
          exact hq
        rcases ihF q p0 hq1 with hq2 | hsub
        · exact Or.inl (hput q p0 hq2)
        · refine Or.inr ⟨hsub.1, ?_⟩
          intro e2 he2
          have := hsub.2 e2 he2
          simp only [keysOf, List.map_append]
          exact List.mem_append.mpr (Or.inr this)
  · intro s level k lo hi es hs hents hpre
    rw [split_entries_nil]
    cases hents with
    | nil =>
      refine ⟨.nil _ _ _, fun lvl2 _ => .empty _ _ _, fun q p0 hq => Or.inl hq, ?_⟩
      intro e r2 heq
      cases heq
  · intro s level k e ih lo hi es hs hents hpre
    rw [split_entries_last]
    cases hents with
    | cons _ _ _ _ _ subEs restEs hb hcl hsb hrest =>
    cases hrest with
    | nil =>
    have hpre1 : P.compare_keys k e.key ≠ .lt := hpre e [] rfl
    have he0le : P.compare_keys e.key k ≠ .gt := hcmp.ge_of_not_lt hpre1
    obtain ⟨ihL, ihR, ihF⟩ := ih level (some e.key) hi subEs hs hsb
    have hE1 : entsLE P k ((e.key, e.value) :: (subEs ++ [])) =
        (e.key, e.value) :: entsLE P k subEs := by
      rw [entsLE_cons_le P k e.key e.value _ he0le, List.append_nil]
    have hE2 : entsGT P k ((e.key, e.value) :: (subEs ++ [])) =
        entsGT P k subEs := by
      rw [entsGT_cons_le P k e.key e.value _ he0le, List.append_nil]
    refine ⟨?_, ?_, ?_, ?_⟩
    · rw [hE1]
      have hc := RepEnts.cons level lo hi
        ⟨e.key, e.value, (split P s e.next k).2.1⟩ [] (entsLE P k subEs) []
        hb hcl ihL (.nil _ _ _)
      rw [List.append_nil] at hc
      exact hc
    · intro lvl2 hlvl2
      rw [hE2]
      have hGTb := ((rep_bounds_sorted P hcmp _).1 _ _ _ _ _ ihR).1
      refine (rep_rebound P hcmp _).1 _ _ _ _ _
        (ihR.mono_bound (Nat.le_of_lt hlvl2)) lo hi ?_ ?_
      · intro k2 hk2 l hl
        exact hcmp.lt_trans _ _ _ (hb.1 l hl) ((hGTb k2 hk2).1 e.key rfl)
      · intro k2 hk2
        exact (hGTb k2 hk2).2
    · intro q p0 hq
      rcases ihF q p0 hq with h1 | hsub
      · exact Or.inl h1
      · refine Or.inr ⟨hsub.1, ?_⟩
        intro e2 he2
        refine List.mem_cons_of_mem _ ?_
        simp only [keysOf, List.map_append]
        exact List.mem_append.mpr (Or.inl (hsub.2 e2 he2))
    · intro e2 r2 heq
      cases heq
      exact ⟨(split P s e.next k).2.1, [], rfl⟩
  · intro s level k e ne rest hcmp9 ih lo hi es hs hents hpre
    rw [split_entries_cons_lt P s level k e ne rest hcmp9]
    rw [create_and_store_page_eq]
    cases hents with
    | cons _ _ _ _ _ subEs restEs hb hcl hsb hrest =>
    have hpre1 : P.compare_keys k e.key ≠ .lt := hpre e (ne :: rest) rfl
    have he0le : P.compare_keys e.key k ≠ .gt := hcmp.ge_of_not_lt hpre1
    have hsubB := ((rep_bounds_sorted P hcmp s).1 _ _ _ _ _ hsb).1
    obtain ⟨⟨hrestB, hrestS⟩, tailEs, htail, htailgt⟩ :=
      (rep_bounds_sorted P hcmp s).2 _ _ _ _ _ hrest
    have hrestGT : ∀ kv, kv ∈ restEs → P.compare_keys kv.1 k = .gt := by
      intro kv hkv
      rw [htail] at hkv
      rcases List.mem_cons.mp hkv with rfl | hkv2
      · exact (hcmp.lt_iff_gt k ne.key).mp hcmp9
      · refine (hcmp.lt_iff_gt k kv.1).mp ?_
        exact hcmp.lt_trans _ _ _ hcmp9
          (htailgt kv.1 (List.mem_map_of_mem Prod.fst hkv2))
    have hdisj : ∀ k2, k2 ∈ keysOf restEs → k2 ∉ keysOf subEs := by
      intro k2 hk2 hk2sub
      have hlt3 : P.compare_keys k2 ne.key = .lt := (hsubB k2 hk2sub).2 ne.key rfl
      rw [htail] at hk2
      rcases List.mem_cons.mp hk2 with rfl | hk3
      · exact hcmp.irrefl_lt ne.key hlt3
      · exact hcmp.asym (htailgt k2 hk3) hlt3
    obtain ⟨ihL, ihR, ihF⟩ := ih level (some e.key) (some ne.key) subEs hs hsb
    have hs2 : StoreHashed P (split P s e.next k).1 :=
      split_storeHashed P s e.next k hs
    have hrest2 : RepEnts P (split P s e.next k).1 level (some e.key) hi
        (ne :: rest) restEs :=
      (rep_frame_disjoint P subEs ihF).2 _ _ _ _ _ hrest hdisj
    set pgR : Page Key V := ⟨level, (split P s e.next k).2.2, ne :: rest⟩ with hpgR
    have hput : ∀ q p0, (split P s e.next k).1.get q = some p0 →
        ((split P s e.next k).1.put (P.hash_page pgR) pgR).get q = some p0 :=
      put_frame P hs2 hok pgR
    have hgetR : ((split P s e.next k).1.put (P.hash_page pgR) pgR).get
        (P.hash_page pgR) = some pgR := by
      rw [Store.get_put, if_pos rfl]
    have hnehi : below P hi ne.key := by
      have hmem : ne.key ∈ keysOf restEs := by
        rw [htail]; exact List.mem_cons_self _ _
      exact (hrestB ne.key hmem).2
    have hE1 : entsLE P k ((e.key, e.value) :: (subEs ++ restEs)) =
        (e.key, e.value) :: entsLE P k subEs := by
      rw [entsLE_cons_le P k e.key e.value _ he0le, entsLE_append,
        entsLE_none P k restEs hrestGT, List.append_nil]
    have hE2 : entsGT P k ((e.key, e.value) :: (subEs ++ restEs)) =
        entsGT P k subEs ++ restEs := by
      rw [entsGT_cons_le P k e.key e.value _ he0le, entsGT_append,
        entsGT_all P k restEs hrestGT]
    refine ⟨?_, ?_, ?_, ?_⟩
    · rw [hE1]
      have hsubB2 := ((rep_bounds_sorted P hcmp _).1 _ _ _ _ _ ihL).1
      have ihL2 : Rep P (split P s e.next k).1 (split P s e.next k).2.1 level
          (some e.key) hi (entsLE P k subEs) := by
        refine (rep_rebound P hcmp _).1 _ _ _ _ _ ihL (some e.key) hi ?_ ?_
        · intro k2 hk2
          exact (hsubB2 k2 hk2).1
        · intro k2 hk2 h hh
          exact hcmp.lt_trans _ _ _ ((hsubB2 k2 hk2).2 ne.key rfl) (hnehi h hh)
      have ihL3 := (rep_frame P hput).1 _ _ _ _ _ ihL2
      have hc := RepEnts.cons level lo hi
        ⟨e.key, e.value, (split P s e.next k).2.1⟩ [] (entsLE P k subEs) []
        hb hcl ihL3 (.nil _ _ _)
      rw [List.append_nil] at hc
      exact hc
    · intro lvl2 hlvl2
      rw [hE2]
      refine Rep.node (P.hash_page pgR) pgR lvl2 lo hi (entsGT P k subEs) restEs
        ne rest (hok.ne_default pgR) hgetR hlvl2 rfl ?_ ?_
      · have hsubGB := ((rep_bounds_sorted P hcmp _).1 _ _ _ _ _ ihR).1
        have ihR2 : Rep P (split P s e.next k).1 (split P s e.next k).2.2 level
            lo (some ne.key) (entsGT P k subEs) := by
          refine (rep_rebound P hcmp _).1 _ _ _ _ _ ihR lo (some ne.key) ?_ ?_
          · intro k2 hk2 l hl
            exact hcmp.lt_trans _ _ _ (hb.1 l hl) ((hsubGB k2 hk2).1 e.key rfl)
          · intro k2 hk2
            exact (hsubGB k2 hk2).2
        exact (rep_frame P hput).1 _ _ _ _ _ ihR2
      · have hrB2 := ((rep_bounds_sorted P hcmp _).2 _ _ _ _ _ hrest2).1.1
        have ihRe : RepEnts P (split P s e.next k).1 level lo hi (ne :: rest)
            restEs := by
          refine (rep_rebound P hcmp _).2 _ _ _ _ _ hrest2 lo hi ?_ ?_
          · intro k2 hk2 l hl
            exact hcmp.lt_trans _ _ _ (hb.1 l hl) ((hrB2 k2 hk2).1 e.key rfl)
          · intro k2 hk2
            exact (hrB2 k2 hk2).2
        exact (rep_frame P hput).2 _ _ _ _ _ ihRe
    · intro q p0 hq
      rcases ihF q p0 hq with h1 | hsub
      · exact Or.inl (hput q p0 h1)
      · refine Or.inr ⟨hsub.1, ?_⟩
        intro e2 he2
        refine List.mem_cons_of_mem _ ?_
        simp only [keysOf, List.map_append]
        exact List.mem_append.mpr (Or.inl (hsub.2 e2 he2))
    · intro e2 r2 heq
      cases heq
      exact ⟨(split P s e.next k).2.1, [], rfl⟩
  · intro s level k e ne rest hcmp10 ih lo hi es hs hents hpre
    have hcmp10' : P.compare_keys k ne.key ≠ .lt := fun hx => hcmp10 hx
    rw [split_entries_cons_ge P s level k e ne rest hcmp10']
    cases hents with
    | cons _ _ _ _ _ subEs restEs hb hcl hsb hrest =>
    have hpre1 : P.compare_keys k e.key ≠ .lt := hpre e (ne :: rest) rfl
    have he0le : P.compare_keys e.key k ≠ .gt := hcmp.ge_of_not_lt hpre1
    have hnele : P.compare_keys ne.key k ≠ .gt := hcmp.ge_of_not_lt hcmp10'
    have hsubB := ((rep_bounds_sorted P hcmp s).1 _ _ _ _ _ hsb).1
    have hsubLE : ∀ kv, kv ∈ subEs → P.compare_keys kv.1 k ≠ .gt := by
      intro kv hkv
      refine hcmp.le_of_lt ?_
      exact hcmp.lt_of_lt_of_le
        ((hsubB kv.1 (List.mem_map_of_mem Prod.fst hkv)).2 ne.key rfl) hnele
    obtain ⟨⟨hrestB, hrestS⟩, tailEs, htail, htailgt⟩ :=
      (rep_bounds_sorted P hcmp s).2 _ _ _ _ _ hrest
    have hdisj : ∀ k2, k2 ∈ keysOf subEs → k2 ∉ keysOf restEs := by
      intro k2 hk2 hk2r
      have hlt3 : P.compare_keys k2 ne.key = .lt := (hsubB k2 hk2).2 ne.key rfl
      rw [htail] at hk2r
      rcases List.mem_cons.mp hk2r with rfl | hk3
      · exact hcmp.irrefl_lt ne.key hlt3
      · exact hcmp.asym (htailgt k2 hk3) hlt3
    obtain ⟨ihL, ihR, ihF, ihHd⟩ := ih (some e.key) hi restEs hs hrest
      (fun e2 r2 heq => by cases heq; exact hcmp10')
    obtain ⟨nx, tl, hhd⟩ := ihHd ne rest rfl
    have hsb2 : Rep P (split_entries P s level k (ne :: rest)).1 e.next level
        (some e.key) (some ne.key) subEs :=
      (rep_frame_disjoint P restEs ihF).1 _ _ _ _ _ hsb hdisj
    have hE1 : entsLE P k ((e.key, e.value) :: (subEs ++ restEs)) =
        (e.key, e.value) :: (subEs ++ entsLE P k restEs) := by
      rw [entsLE_cons_le P k e.key e.value _ he0le, entsLE_append,
        entsLE_all P k subEs hsubLE]
    have hE2 : entsGT P k ((e.key, e.value) :: (subEs ++ restEs)) =
        entsGT P k restEs := by
      rw [entsGT_cons_le P k e.key e.value _ he0le, entsGT_append,
        entsGT_none P k subEs hsubLE, List.nil_append]
    refine ⟨?_, ?_, ?_, ?_⟩
    · rw [hE1, hhd]
      rw [hhd] at ihL
      exact RepEnts.cons level lo hi e (PageData.mk ne.key ne.value nx :: tl)
        subEs (entsLE P k restEs) hb hcl hsb2 ihL
    · intro lvl2 hlvl2
      rw [hE2]
      have hGB := ((rep_bounds_sorted P hcmp _).1 _ _ _ _ _ (ihR lvl2 hlvl2)).1
      refine (rep_rebound P hcmp _).1 _ _ _ _ _ (ihR lvl2 hlvl2) lo hi ?_ ?_
      · intro k2 hk2 l hl
        exact hcmp.lt_trans _ _ _ (hb.1 l hl) ((hGB k2 hk2).1 e.key rfl)
      · intro k2 hk2
        exact (hGB k2 hk2).2
    · intro q p0 hq
      rcases ihF q p0 hq with h1 | hsub
      · exact Or.inl h1
      · refine Or.inr ⟨hsub.1, ?_⟩
        intro e2 he2
        refine List.mem_cons_of_mem _ ?_
        simp only [keysOf, List.map_append]
        exact List.mem_append.mpr (Or.inr (hsub.2 e2 he2))
    · intro e2 r2 heq
      cases heq
      exact ⟨e.next, (split_entries P s level k (ne :: rest)).2.1, rfl⟩

/-! ## `insertEntry` decomposition lemmas -/

/-- On a sorted list none of whose keys equals `ik`, the sorted insert is
the `≤ k` prefix, the new pair, then the `> k` suffix. -/
theorem insertEntry_eq_split (P : Params Key V) (hcmp : LawfulCmp P.compare_keys)
    (ik : Key) (iv : V) :
    ∀ es : List (Key × V),
      (∀ k2, k2 ∈ keysOf es → P.compare_keys ik k2 ≠ .eq) →
      es.Pairwise (fun a b => P.compare_keys a.1 b.1 = .lt) →
      insertEntry P ik iv es = entsLE P ik es ++ (ik, iv) :: entsGT P ik es := by
  intro es
  induction es with
  | nil => intro _ _; rfl
  | cons kv rest ih =>
    intro hne hsort
    obtain ⟨k0, v0⟩ := kv
    have hk0 : P.compare_keys ik k0 ≠ .eq :=
      hne k0 (List.mem_cons_self _ _)
    cases hc : P.compare_keys ik k0 with
    | eq => exact absurd hc hk0
    | lt =>
      have hgt0 : P.compare_keys k0 ik = .gt := (hcmp.lt_iff_gt ik k0).mp hc
      have hall : ∀ kv2, kv2 ∈ (k0, v0) :: rest →
          P.compare_keys kv2.1 ik = .gt := by
        intro kv2 hkv2
        rcases List.mem_cons.mp hkv2 with rfl | hmem
        · exact hgt0
        · refine (hcmp.lt_iff_gt ik kv2.1).mp ?_
          exact hcmp.lt_trans _ _ _ hc
            ((List.pairwise_cons.mp hsort).1 kv2 hmem)
      rw [entsLE_none P ik _ hall, entsGT_all P ik _ hall]
      simp only [insertEntry, hc, List.nil_append]
    | gt =>
      have hle0 : P.compare_keys k0 ik ≠ .gt :=
        hcmp.le_of_lt ((hcmp.lt_iff_gt k0 ik).mpr hc)
      simp only [insertEntry, hc]
      rw [entsLE_cons_le P ik k0 v0 rest hle0, entsGT_cons_le P ik k0 v0 rest hle0]
      rw [ih (fun k2 hk2 => hne k2 (List.mem_cons_of_mem _ hk2))
        (List.pairwise_cons.mp hsort).2]
      rfl

/-- Inserting a key strictly above every key of the prefix skips the
prefix. -/
theorem insertEntry_append_right (P : Params Key V)
    (hcmp : LawfulCmp P.compare_keys) (ik : Key) (iv : V) :
    ∀ (A B : List (Key × V)),
      (∀ k2, k2 ∈ keysOf A → P.compare_keys ik k2 = .gt) →
      insertEntry P ik iv (A ++ B) = A ++ insertEntry P ik iv B := by
  intro A
  induction A with
  | nil => intro B _; rfl
  | cons kv rest ih =>
    intro B hgt
    obtain ⟨k0, v0⟩ := kv
    have h0 : P.compare_keys ik k0 = .gt := hgt k0 (List.mem_cons_self _ _)
    simp only [List.cons_append, insertEntry, h0, List.append_eq]
    rw [ih B (fun k2 hk2 => hgt k2 (List.mem_cons_of_mem _ hk2))]

/-- Keys of a represented subtree below the bound `lvl` never collide
with a key whose level is `lvl` or more. -/
theorem rep_keys_ne (P : Params Key V) {s : Store Key V} {n : Option Key}
    {lvl : Nat} {lo hi : Option Key} {es : List (Key × V)}
    (h : Rep P s n lvl lo hi es) {ik : Key} (hik : lvl ≤ P.calc_level ik) :
    ∀ k2, k2 ∈ keysOf es → k2 ≠ ik := by
  intro k2 hk2 heq
  subst heq
  have := rep_levels P s |>.1 _ _ _ _ _ h k2 hk2
  omega

/-- Each key of a represented page list either is one of the page's own
entry keys or lies strictly below the level bound. -/
theorem repEnts_key_class (P : Params Key V) (s : Store Key V) :
    ∀ lvl lo hi l es, RepEnts P s lvl lo hi l es →
      ∀ k2, k2 ∈ keysOf es →
        (∃ e : PageData Key V, e ∈ l ∧ e.key = k2) ∨ P.calc_level k2 < lvl :=
  (Rep.induction P s (fun _ _ _ _ _ => True)
    (fun lvl lo hi l es => ∀ k2, k2 ∈ keysOf es →
      (∃ e : PageData Key V, e ∈ l ∧ e.key = k2) ∨ P.calc_level k2 < lvl)
    (fun _ _ _ => trivial)
    (fun _ _ _ _ _ _ _ _ _ _ _ _ _ _ _ _ _ => trivial)
    (fun _ _ _ k2 hk2 => absurd hk2 (List.not_mem_nil k2))
    (fun lvl lo hi e rest subEs restEs hb hcl hsb hrest _ ihrest => by
      intro k2 hk2
      rcases List.mem_cons.mp hk2 with rfl | htail
      · exact Or.inl ⟨e, List.mem_cons_self _ _, rfl⟩
      · simp only [keysOf, List.map_append] at htail
        rcases List.mem_append.mp htail with h1 | h2
        · exact Or.inr ((rep_levels P s).1 _ _ _ _ _ hsb k2 h1)
        · rcases ihrest k2 h2 with ⟨e2, he2, hk⟩ | hlt
          · exact Or.inl ⟨e2, List.mem_cons_of_mem _ he2, hk⟩
          · exact Or.inr hlt)).2

/-- No key of a represented page list compares equal to a fresh key at
the page's level that differs from each entry key. -/
theorem repEnts_keys_ne (P : Params Key V) (hcmp : LawfulCmp P.compare_keys)
    {s : Store Key V} {lvl : Nat} {lo hi : Option Key}
    {l : List (PageData Key V)} {es : List (Key × V)}
    (h : RepEnts P s lvl lo hi l es) {ik : Key} (hik : P.calc_level ik = lvl)
    (hmem : ∀ e : PageData Key V, e ∈ l → e.key ≠ ik) :
    ∀ k2, k2 ∈ keysOf es → P.compare_keys ik k2 ≠ .eq := by
  intro k2 hk2 heq
  have hkeq : ik = k2 := (hcmp.eq_iff ik k2).mp heq
  subst hkeq
  rcases repEnts_key_class P s _ _ _ _ _ h ik hk2 with ⟨e, he, hk⟩ | hlt
  · exact hmem e he hk
  · omega


/-! ## Simulation of `insert_after_first` -/

/-- Keys kept by `entsLE` compare strictly below the pivot whenever no
key of the list compares equal to it. -/
theorem entsLE_strict (P : Params Key V) (hcmp : LawfulCmp P.compare_keys)
    (ik : Key) (es : List (Key × V))
    (hne : ∀ k2, k2 ∈ keysOf es → P.compare_keys ik k2 ≠ .eq) :
    ∀ k2, k2 ∈ keysOf (entsLE P ik es) → P.compare_keys k2 ik = .lt := by
  intro k2 hk2
  simp only [keysOf, entsLE, List.mem_map] at hk2
  obtain ⟨kv, hkv, hfst⟩ := hk2
  obtain ⟨hmem, hp⟩ := List.mem_filter.mp hkv
  subst hfst
  simp only [decide_eq_true_eq] at hp
  have hne2 : P.compare_keys ik kv.1 ≠ .eq :=
    hne kv.1 (List.mem_map_of_mem Prod.fst hmem)
  cases hx : P.compare_keys kv.1 ik with
  | lt => rfl
  | gt => exact absurd hx hp
  | eq =>
    exact absurd ((hcmp.eq_iff ik kv.1).mpr ((hcmp.eq_iff kv.1 ik).mp hx).symm) hne2

/-- Keys kept by `entsGT` compare strictly above the pivot. -/
theorem entsGT_strict (P : Params Key V) (hcmp : LawfulCmp P.compare_keys)
    (ik : Key) (es : List (Key × V)) :
    ∀ k2, k2 ∈ keysOf (entsGT P ik es) → P.compare_keys ik k2 = .lt := by
  intro k2 hk2
  simp only [keysOf, entsGT, List.mem_map] at hk2
  obtain ⟨kv, hkv, hfst⟩ := hk2
  obtain ⟨hmem, hp⟩ := List.mem_filter.mp hkv
  subst hfst
  simp only [decide_eq_true_eq] at hp
  exact (hcmp.lt_iff_gt ik kv.1).mpr hp

/-- Simulation of `insert_after_first`: on a represented nonempty entry
list whose first key is at or below the inserted key, it succeeds and
returns a list representing the sorted insert, touching only pages under
those entries, and keeping the first key in place. -/
theorem insert_after_first_sim (P : Params Key V)
    (hcmp : LawfulCmp P.compare_keys) (hok : HashOK P) :
    ∀ (entries : List (PageData Key V)) (s : Store Key V) (lvl : Nat)
      (lo hi : Option Key) (entEs : List (Key × V)) (ik : Key) (iv : V),
      StoreHashed P s →
      RepEnts P s lvl lo hi entries entEs →
      P.calc_level ik = lvl →
      inBnd P lo hi ik →
      (∀ e r2, entries = e :: r2 → P.compare_keys ik e.key ≠ .lt) →
      entries ≠ [] →
      ∃ s2 nl, insert_after_first P s entries ik iv = .ok (s2, nl) ∧
        StoreHashed P s2 ∧
        RepEnts P s2 lvl lo hi nl (insertEntry P ik iv entEs) ∧
        (∀ q p0, s.get q = some p0 → s2.get q = some p0 ∨ SubPage entEs p0) ∧
        (∀ e r2, entries = e :: r2 →
          ∃ v2 nx tl, nl = PageData.mk e.key v2 nx :: tl) := by
  intro entries
  induction entries with
  | nil =>
    intro s lvl lo hi entEs ik iv _ _ _ _ _ hne
    exact absurd rfl hne
  | cons e rest ih =>
    intro s lvl lo hi entEs ik iv hs hents hik hikb hpre _
    cases hents with
    | cons _ _ _ _ _ subEs restEs hb hcl hsb hrest =>
    have hpre1 : P.compare_keys ik e.key ≠ .lt := hpre e rest rfl
    have hsubLvl : ∀ k2, k2 ∈ keysOf subEs → P.calc_level k2 < lvl :=
      fun k2 hk2 => (rep_levels P s).1 _ _ _ _ _ hsb k2 hk2
    have hsubNe : ∀ k2, k2 ∈ keysOf subEs → P.compare_keys ik k2 ≠ .eq := by
      intro k2 hk2 hx
      have := hsubLvl k2 hk2
      rw [← (hcmp.eq_iff ik k2).mp hx, hik] at this
      omega
    have hsubSort : subEs.Pairwise (fun a b => P.compare_keys a.1 b.1 = .lt) :=
      ((rep_bounds_sorted P hcmp s).1 _ _ _ _ _ hsb).2
    have hsubB := ((rep_bounds_sorted P hcmp s).1 _ _ _ _ _ hsb).1
    cases hc : P.compare_keys e.key ik with
    | gt =>
      exact absurd ((hcmp.lt_iff_gt ik e.key).mpr hc) hpre1
    | eq =>
      refine ⟨s, ⟨e.key, P.merge e.value iv, e.next⟩ :: rest,
        by rw [insert_after_first_cons, hc], hs, ?_, fun q p0 hq => Or.inl hq,
        fun e2 r2 heq => by cases heq; exact ⟨P.merge e.value iv, e.next, rest, rfl⟩⟩
      have hikeq : P.compare_keys ik e.key = .eq :=
        (hcmp.eq_iff ik e.key).mpr ((hcmp.eq_iff e.key ik).mp hc).symm
      simp only [insertEntry, hikeq]
      exact RepEnts.cons lvl lo hi ⟨e.key, P.merge e.value iv, e.next⟩ rest
        subEs restEs hb hcl hsb hrest
    | lt =>
      have hgtik : P.compare_keys ik e.key = .gt := (hcmp.lt_iff_gt e.key ik).mp hc
      have hL := (split_sim P hcmp hok s e.next ik lvl (some e.key)
        (upKey hi rest) subEs hs hsb).1
      have hR := (split_sim P hcmp hok s e.next ik lvl (some e.key)
        (upKey hi rest) subEs hs hsb).2.1
      have hF := (split_sim P hcmp hok s e.next ik lvl (some e.key)
        (upKey hi rest) subEs hs hsb).2.2
      have hs2 : StoreHashed P (split P s e.next ik).1 :=
        split_storeHashed P s e.next ik hs
      have hLB := ((rep_bounds_sorted P hcmp _).1 _ _ _ _ _ hL).1
      have hRB := ((rep_bounds_sorted P hcmp _).1 _ _ _ _ _ hR).1
      have hLlt : ∀ k2, k2 ∈ keysOf (entsLE P ik subEs) →
          P.compare_keys k2 ik = .lt := entsLE_strict P hcmp ik subEs hsubNe
      have hRgt : ∀ k2, k2 ∈ keysOf (entsGT P ik subEs) →
          P.compare_keys ik k2 = .lt := entsGT_strict P hcmp ik subEs
      have hIE : insertEntry P ik iv subEs =
          entsLE P ik subEs ++ (ik, iv) :: entsGT P ik subEs :=
        insertEntry_eq_split P hcmp ik iv subEs hsubNe hsubSort
      have hLrb : Rep P (split P s e.next ik).1 (split P s e.next ik).2.1
          lvl (some e.key) (some ik) (entsLE P ik subEs) := by
        refine (rep_rebound P hcmp _).1 _ _ _ _ _ hL (some e.key) (some ik)
          (fun k2 hk2 => (hLB k2 hk2).1) ?_
        intro k2 hk2 h2 hh2
        cases hh2
        exact hLlt k2 hk2
      cases rest with
      | nil =>
        cases hrest with
        | nil =>
        refine ⟨(split P s e.next ik).1,
          [⟨e.key, e.value, (split P s e.next ik).2.1⟩,
           ⟨ik, iv, (split P s e.next ik).2.2⟩],
          by rw [insert_after_first_cons, hc], hs2, ?_, ?_,
          fun e2 r2 heq => by
            cases heq
            exact ⟨e.value, (split P s e.next ik).2.1,
              [⟨ik, iv, (split P s e.next ik).2.2⟩], rfl⟩⟩
        · simp only [insertEntry, hgtik, List.append_nil, hIE]
          have hRrb : Rep P (split P s e.next ik).1 (split P s e.next ik).2.2
              lvl (some ik) hi (entsGT P ik subEs) := by
            refine (rep_rebound P hcmp _).1 _ _ _ _ _ hR (some ik) hi
              ?_ (fun k2 hk2 => (hRB k2 hk2).2)
            intro k2 hk2 h2 hh2
            cases hh2
            exact hRgt k2 hk2
          have h2 := RepEnts.cons lvl (some e.key) hi
            ⟨ik, iv, (split P s e.next ik).2.2⟩ [] (entsGT P ik subEs) []
            ⟨(fun h2 hh2 => by cases hh2; exact hc), hikb.2⟩ hik hRrb (.nil _ _ _)
          rw [List.append_nil] at h2
          exact RepEnts.cons lvl lo hi ⟨e.key, e.value, (split P s e.next ik).2.1⟩
            [⟨ik, iv, (split P s e.next ik).2.2⟩] (entsLE P ik subEs)
            ((ik, iv) :: entsGT P ik subEs) hb hcl hLrb h2
        · intro q p0 hq
          rcases hF q p0 hq with h1 | hsub
          · exact Or.inl h1
          · refine Or.inr ⟨hsub.1, ?_⟩
            intro e2 he2
            refine List.mem_cons_of_mem _ ?_
            simp only [keysOf, List.map_append]
            exact List.mem_append.mpr (Or.inl (hsub.2 e2 he2))
      | cons ne rest2 =>
        have hrB := ((rep_bounds_sorted P hcmp s).2 _ _ _ _ _ hrest).1.1
        have hrS := ((rep_bounds_sorted P hcmp s).2 _ _ _ _ _ hrest).1.2
        obtain ⟨tailEs, htail, htailgt⟩ :=
          ((rep_bounds_sorted P hcmp s).2 _ _ _ _ _ hrest).2
        cases hc2 : P.compare_keys ik ne.key with
        | lt =>
          have hrestGT : ∀ k2, k2 ∈ keysOf restEs →
              P.compare_keys ik k2 = .lt := by
            intro k2 hk2
            rw [htail] at hk2
            rcases List.mem_cons.mp hk2 with rfl | hk3
            · exact hc2
            · exact hcmp.lt_trans _ _ _ hc2 (htailgt k2 hk3)
          have hrestNE : ∀ k2, k2 ∈ keysOf restEs →
              P.compare_keys ik k2 ≠ .eq := by
            intro k2 hk2 hx
            rw [hrestGT k2 hk2] at hx
            cases hx
          have hdisj : ∀ k2, k2 ∈ keysOf restEs → k2 ∉ keysOf subEs := by
            intro k2 hk2 hk2sub
            have hlt3 : P.compare_keys k2 ne.key = .lt :=
              (hsubB k2 hk2sub).2 ne.key rfl
            rw [htail] at hk2
            rcases List.mem_cons.mp hk2 with rfl | hk3
            · exact hcmp.irrefl_lt ne.key hlt3
            · exact hcmp.asym (htailgt k2 hk3) hlt3
          refine ⟨(split P s e.next ik).1,
            ⟨e.key, e.value, (split P s e.next ik).2.1⟩ ::
            ⟨ik, iv, (split P s e.next ik).2.2⟩ :: ne :: rest2,
            by rw [insert_after_first_cons, hc]; dsimp only; rw [hc2], hs2, ?_, ?_,
            fun e2 r2 heq => by
              cases heq
              exact ⟨e.value, (split P s e.next ik).2.1,
                ⟨ik, iv, (split P s e.next ik).2.2⟩ :: ne :: rest2, rfl⟩⟩
          · have hsort2 : (subEs ++ restEs).Pairwise
                (fun a b => P.compare_keys a.1 b.1 = .lt) := by
              rw [List.pairwise_append]
              refine ⟨hsubSort, hrS, ?_⟩
              intro a ha b hb2
              have halt : P.compare_keys a.1 ne.key = .lt :=
                (hsubB a.1 (List.mem_map_of_mem Prod.fst ha)).2 ne.key rfl
              rw [htail] at hb2
              rcases List.mem_cons.mp hb2 with rfl | hb3
              · exact halt
              · exact hcmp.lt_trans _ _ _ halt
                  (htailgt b.1 (List.mem_map_of_mem Prod.fst hb3))
            have hneAll : ∀ k2, k2 ∈ keysOf (subEs ++ restEs) →
                P.compare_keys ik k2 ≠ .eq := by
              intro k2 hk2
              simp only [keysOf, List.map_append] at hk2
              rcases List.mem_append.mp hk2 with h1 | h2
              · exact hsubNe k2 h1
              · exact hrestNE k2 h2
            have hIE2 := insertEntry_eq_split P hcmp ik iv (subEs ++ restEs)
              hneAll hsort2
            rw [entsLE_append, entsGT_append,
              entsLE_none P ik restEs (fun kv hkv =>
                (hcmp.lt_iff_gt ik kv.1).mp
                  (hrestGT kv.1 (List.mem_map_of_mem Prod.fst hkv))),
              entsGT_all P ik restEs (fun kv hkv =>
                (hcmp.lt_iff_gt ik kv.1).mp
                  (hrestGT kv.1 (List.mem_map_of_mem Prod.fst hkv))),
              List.append_nil] at hIE2
            simp only [insertEntry, hgtik, hIE2]
            have hRrb : Rep P (split P s e.next ik).1 (split P s e.next ik).2.2
                lvl (some ik) (some ne.key) (entsGT P ik subEs) := by
              refine (rep_rebound P hcmp _).1 _ _ _ _ _ hR (some ik) (some ne.key)
                ?_ (fun k2 hk2 => (hRB k2 hk2).2)
              intro k2 hk2 h2 hh2
              cases hh2
              exact hRgt k2 hk2
            have hrest2 : RepEnts P (split P s e.next ik).1 lvl (some ik) hi
                (ne :: rest2) restEs := by
              refine (rep_rebound P hcmp _).2 _ _ _ _ _
                ((rep_frame_disjoint P subEs hF).2 _ _ _ _ _ hrest hdisj)
                (some ik) hi ?_ ?_
              · intro k2 hk2 h2 hh2
                cases hh2
                exact hrestGT k2 hk2
              · intro k2 hk2
                exact (hrB k2 hk2).2
            have h2 := RepEnts.cons lvl (some e.key) hi
              ⟨ik, iv, (split P s e.next ik).2.2⟩ (ne :: rest2)
              (entsGT P ik subEs) restEs
              ⟨(fun h2 hh2 => by cases hh2; exact hc), hikb.2⟩ hik hRrb hrest2
            exact RepEnts.cons lvl lo hi
              ⟨e.key, e.value, (split P s e.next ik).2.1⟩
              (⟨ik, iv, (split P s e.next ik).2.2⟩ :: ne :: rest2)
              (entsLE P ik subEs) ((ik, iv) :: (entsGT P ik subEs ++ restEs))
              hb hcl hLrb h2
          · intro q p0 hq
            rcases hF q p0 hq with h1 | hsub
            · exact Or.inl h1
            · refine Or.inr ⟨hsub.1, ?_⟩
              intro e2 he2
              refine List.mem_cons_of_mem _ ?_
              simp only [keysOf, List.map_append]
              exact List.mem_append.mpr (Or.inl (hsub.2 e2 he2))
        | eq =>
          have hneik : P.compare_keys ne.key ik ≠ .gt := by
            rw [(hcmp.eq_iff ne.key ik).mpr ((hcmp.eq_iff ik ne.key).mp hc2).symm]
            intro hx; cases hx
          obtain ⟨s2, nl2, heq2, hs2r, hrep2, hframe2, hhd2⟩ :=
            ih s lvl (some e.key) hi restEs ik iv hs hrest hik
              ⟨fun h2 hh2 => by cases hh2; exact hc, hikb.2⟩
              (fun e2 r2 heq => by cases heq; rw [hc2]; intro hx; cases hx)
              (List.cons_ne_nil ne rest2)
          obtain ⟨v2, nx, tl, hhd⟩ := hhd2 ne rest2 rfl
          have hsubGTik : ∀ k2, k2 ∈ keysOf subEs → P.compare_keys ik k2 = .gt := by
            intro k2 hk2
            refine (hcmp.lt_iff_gt k2 ik).mp ?_
            exact hcmp.lt_of_lt_of_le ((hsubB k2 hk2).2 ne.key rfl) hneik
          have hdisj2 : ∀ k2, k2 ∈ keysOf subEs → k2 ∉ keysOf restEs := by
            intro k2 hk2 hk2r
            have hlt3 : P.compare_keys k2 ne.key = .lt :=
              (hsubB k2 hk2).2 ne.key rfl
            rw [htail] at hk2r
            rcases List.mem_cons.mp hk2r with rfl | hk3
            · exact hcmp.irrefl_lt ne.key hlt3
            · exact hcmp.asym (htailgt k2 hk3) hlt3
          refine ⟨s2, e :: nl2,
            by rw [insert_after_first_cons, hc]; dsimp only; rw [hc2, heq2], hs2r,
            ?_, ?_, fun e2 r2 heq => by cases heq; exact ⟨e.value, e.next, nl2, rfl⟩⟩
          · simp only [insertEntry, hgtik,
              insertEntry_append_right P hcmp ik iv subEs restEs hsubGTik]
            have hsb2 : Rep P s2 e.next lvl (some e.key) (upKey hi nl2) subEs := by
              rw [hhd]
              exact (rep_frame_disjoint P restEs hframe2).1 _ _ _ _ _ hsb hdisj2
            exact RepEnts.cons lvl lo hi e nl2 subEs
              (insertEntry P ik iv restEs) hb hcl hsb2 hrep2
          · intro q p0 hq
            rcases hframe2 q p0 hq with h1 | hsub
            · exact Or.inl h1
            · refine Or.inr ⟨hsub.1, ?_⟩
              intro e2 he2
              refine List.mem_cons_of_mem _ ?_
              simp only [keysOf, List.map_append]
              exact List.mem_append.mpr (Or.inr (hsub.2 e2 he2))
        | gt =>
          have hneik : P.compare_keys ne.key ik ≠ .gt :=
            hcmp.le_of_lt ((hcmp.lt_iff_gt ne.key ik).mpr hc2)
          obtain ⟨s2, nl2, heq2, hs2r, hrep2, hframe2, hhd2⟩ :=
            ih s lvl (some e.key) hi restEs ik iv hs hrest hik
              ⟨fun h2 hh2 => by cases hh2; exact hc, hikb.2⟩
              (fun e2 r2 heq => by cases heq; rw [hc2]; intro hx; cases hx)
              (List.cons_ne_nil ne rest2)
          obtain ⟨v2, nx, tl, hhd⟩ := hhd2 ne rest2 rfl
          have hsubGTik : ∀ k2, k2 ∈ keysOf subEs → P.compare_keys ik k2 = .gt := by
            intro k2 hk2
            refine (hcmp.lt_iff_gt k2 ik).mp ?_
            exact hcmp.lt_of_lt_of_le ((hsubB k2 hk2).2 ne.key rfl) hneik
          have hdisj2 : ∀ k2, k2 ∈ keysOf subEs → k2 ∉ keysOf restEs := by
            intro k2 hk2 hk2r
            have hlt3 : P.compare_keys k2 ne.key = .lt :=
              (hsubB k2 hk2).2 ne.key rfl
            rw [htail] at hk2r
            rcases List.mem_cons.mp hk2r with rfl | hk3
            · exact hcmp.irrefl_lt ne.key hlt3
            · exact hcmp.asym (htailgt k2 hk3) hlt3
          refine ⟨s2, e :: nl2,
            by rw [insert_after_first_cons, hc]; dsimp only; rw [hc2, heq2], hs2r,
            ?_, ?_, fun e2 r2 heq => by cases heq; exact ⟨e.value, e.next, nl2, rfl⟩⟩
          · simp only [insertEntry, hgtik,
              insertEntry_append_right P hcmp ik iv subEs restEs hsubGTik]
            have hsb2 : Rep P s2 e.next lvl (some e.key) (upKey hi nl2) subEs := by
              rw [hhd]
              exact (rep_frame_disjoint P restEs hframe2).1 _ _ _ _ _ hsb hdisj2
            exact RepEnts.cons lvl lo hi e nl2 subEs
              (insertEntry P ik iv restEs) hb hcl hsb2 hrep2
          · intro q p0 hq
            rcases hframe2 q p0 hq with h1 | hsub
            · exact Or.inl h1
            · refine Or.inr ⟨hsub.1, ?_⟩
              intro e2 he2
              refine List.mem_cons_of_mem _ ?_
              simp only [keysOf, List.map_append]
              exact List.mem_append.mpr (Or.inr (hsub.2 e2 he2))

/-! ## The parent-trail replay contract -/

/-- One unfolding step of `update_parent_chain`. -/
theorem update_parent_chain_cons (P : Params Key V) (s : Store Key V)
    (ck pk : Key) (upd : UpdateType) (pu : List (Key × UpdateType)) :
    update_parent_chain P s ck ((pk, upd) :: pu) =
      match s.get pk with
      | none => .stuck
      | some pg =>
        match upd with
        | .low => update_parent_chain P
            (s.put (P.hash_page ⟨pg.level, some ck, pg.list⟩)
              ⟨pg.level, some ck, pg.list⟩)
            (P.hash_page ⟨pg.level, some ck, pg.list⟩) pu
        | .next idx =>
          match pg.list[idx]? with
          | none => .stuck
          | some e => update_parent_chain P
              (s.put (P.hash_page ⟨pg.level, pg.low,
                  pg.list.set idx ⟨e.key, e.value, some ck⟩⟩)
                ⟨pg.level, pg.low, pg.list.set idx ⟨e.key, e.value, some ck⟩⟩)
              (P.hash_page ⟨pg.level, pg.low,
                  pg.list.set idx ⟨e.key, e.value, some ck⟩⟩) pu := rfl

/-- Setting an entry without changing its key leaves `upKey` unchanged. -/
theorem upKey_set (hi : Option Key) :
    ∀ (l : List (PageData Key V)) (j : Nat) (e x : PageData Key V),
      l[j]? = some e → x.key = e.key → upKey hi (l.set j x) = upKey hi l := by
  intro l
  cases l with
  | nil => intro j e x hj _; cases hj
  | cons hd tl =>
    intro j e x hj hk
    cases j with
    | zero =>
      rw [List.getElem?_cons_zero] at hj
      cases hj
      rw [List.set_cons_zero]
      show some x.key = some hd.key
      rw [hk]
    | succ n =>
      rw [List.set_cons_succ]
      rfl

/-- Setting an entry at any position keeps the head key of a nonempty
list. -/
theorem list_set_head_key (entry : PageData Key V)
    (rest : List (PageData Key V)) (idx : Nat) (e x : PageData Key V)
    (hidx : (entry :: rest)[idx]? = some e) (hk : x.key = e.key) :
    ∃ hd2 tl2, (entry :: rest).set idx x = hd2 :: tl2 ∧ hd2.key = entry.key := by
  cases idx with
  | zero =>
    rw [List.getElem?_cons_zero] at hidx
    cases hidx
    exact ⟨x, rest, List.set_cons_zero _ _ _, hk⟩
  | succ n =>
    exact ⟨entry, rest.set n x, List.set_cons_succ _ _ _ _, rfl⟩

/-- The sentinel key is never bound in a content-addressed store with a
well-behaved digest. -/
theorem storeHashed_default_none (P : Params Key V) {s : Store Key V}
    (hs : StoreHashed P s) (hok : HashOK P) : s.get P.default = none := by
  cases hx : s.get P.default with
  | none => rfl
  | some p => exact absurd (hs P.default p hx).symm (hok.ne_default p)

/-- Inserting a key below every key of the suffix leaves the suffix
untouched. -/
theorem insertEntry_append_left (P : Params Key V) (ik : Key) (iv : V) :
    ∀ (A B : List (Key × V)),
      (∀ k2, k2 ∈ keysOf B → P.compare_keys ik k2 = .lt) →
      insertEntry P ik iv (A ++ B) = insertEntry P ik iv A ++ B := by
  intro A
  induction A with
  | nil =>
    intro B hlt
    cases B with
    | nil => rfl
    | cons b bs =>
      rw [List.nil_append]
      simp only [insertEntry, hlt b.1 (List.mem_cons_self _ _)]
      rfl
  | cons kv rest ih =>
    intro B hlt
    obtain ⟨k0, v0⟩ := kv
    cases hc : P.compare_keys ik k0 with
    | lt => simp only [List.cons_append, insertEntry, hc, List.append_eq]
    | eq => simp only [List.cons_append, insertEntry, hc, List.append_eq]
    | gt =>
      simp only [List.cons_append, insertEntry, hc, List.append_eq]
      rw [ih B hlt]

/-- The number of stored pages of level strictly below `n`. -/
def countLT (s : Store Key V) (n : Nat) : Nat :=
  (s.pages.filter (fun kv => decide (kv.2.level < n))).length

theorem length_filter_lt_of_mem {α : Type} (p q : α → Bool) :
    ∀ (l : List α) (a : α), a ∈ l → p a = false → q a = true →
      (∀ x, p x = true → q x = true) →
      (l.filter p).length < (l.filter q).length := by
  intro l
  induction l with
  | nil => intro a ha; cases ha
  | cons hd tl ih =>
    intro a ha hpa hqa himp
    rcases List.mem_cons.mp ha with rfl | hmem
    · rw [List.filter_cons_of_neg (by simp [hpa]), List.filter_cons_of_pos hqa]
      exact Nat.lt_succ_of_le (length_filter_mono p q tl himp)
    · by_cases hp : p hd = true
      · rw [List.filter_cons_of_pos hp, List.filter_cons_of_pos (himp hd hp)]
        exact Nat.succ_lt_succ (ih a hmem hpa hqa himp)
      · rw [List.filter_cons_of_neg (by simpa using hp)]
        by_cases hq : q hd = true
        · rw [List.filter_cons_of_pos hq]
          exact Nat.lt_succ_of_lt (ih a hmem hpa hqa himp)
        · rw [List.filter_cons_of_neg (by simpa using hq)]
          exact ih a hmem hpa hqa himp

theorem countLT_le_size (s : Store Key V) (n : Nat) : countLT s n ≤ s.size :=
  List.length_filter_le _ _

theorem countLT_get_lt (s : Store Key V) (ck : Key) (pg : Page Key V)
    (hget : s.get ck = some pg) {n : Nat} (hlt : pg.level < n) :
    countLT s pg.level < countLT s n := by
  refine length_filter_lt_of_mem _ _ s.pages (ck, pg) (pagesGet_mem s.pages ck pg hget)
    (by simp) (by simp [hlt]) ?_
  intro x hx
  simp only [decide_eq_true_eq] at hx ⊢
  omega

/-- The replay contract of a recorded parent trail: placing any
represented subtree into the slot and replaying the recorded updates
yields a well-formed root holding the surrounding entries around the
subtree's contents.  `sBase` is the store at recording time; the replay
store may differ from it only on pages all of whose entry keys lie
strictly inside the slot interval. -/
def TrailSem (P : Params Key V) (sBase : Store Key V) (B : Nat)
    (pu : List (Key × UpdateType)) (slvl : Nat) (slo shi : Option Key)
    (pre post : List (Key × V)) : Prop :=
  ∀ (s2 : Store Key V) (ck2 : Key) (mid2 D0 : List (Key × V)),
    StoreHashed P s2 →
    (∀ q p0, sBase.get q = some p0 → s2.get q = some p0 ∨ SubPage D0 p0) →
    (∀ d, d ∈ keysOf D0 → above P slo d ∧ below P shi d) →
    Rep P s2 (some ck2) slvl slo shi mid2 →
    ∃ s3 rk, update_parent_chain P s2 ck2 pu = .ok (s3, rk) ∧
      StoreHashed P s3 ∧
      Rep P s3 (some rk) B none none (pre ++ mid2 ++ post) ∧
      (∀ q p0, s2.get q = some p0 → s3.get q = some p0)

theorem trailSem_nil (P : Params Key V) (sBase : Store Key V) (B slvl : Nat)
    (hle : slvl ≤ B) : TrailSem P sBase B [] slvl none none [] [] := by
  intro s2 ck2 mid2 D0 hs2 hframe hD hrep
  refine ⟨s2, ck2, rfl, hs2, ?_, fun q p0 hq => hq⟩
  rw [List.nil_append, List.append_nil]
  exact hrep.mono_bound hle

theorem trailSem_low (P : Params Key V) (hcmp : LawfulCmp P.compare_keys)
    (hok : HashOK P) (sBase : Store Key V) (B : Nat)
    (pu : List (Key × UpdateType)) (plvl : Nat) (lo hi : Option Key)
    (pre post : List (Key × V)) (pk : Key) (pg : Page Key V)
    (e0 : PageData Key V) (more : List (PageData Key V))
    (entEs : List (Key × V))
    (htrail : TrailSem P sBase B pu plvl lo hi pre post)
    (hget : sBase.get pk = some pg)
    (hlist : pg.list = e0 :: more)
    (hlvl : pg.level < plvl)
    (hents : RepEnts P sBase pg.level lo hi (e0 :: more) entEs) :
    TrailSem P sBase B ((pk, .low) :: pu) pg.level lo (some e0.key)
      pre (entEs ++ post) := by
  intro s2 ck2 mid2 D0 hs2 hframe hD hrep
  have hentB := ((rep_bounds_sorted P hcmp sBase).2 _ _ _ _ _ hents).1.1
  obtain ⟨tailEs, htail, htailgt⟩ :=
    ((rep_bounds_sorted P hcmp sBase).2 _ _ _ _ _ hents).2
  have he0hi : below P hi e0.key := by
    have hmem : e0.key ∈ keysOf entEs := by
      rw [htail]; exact List.mem_cons_self _ _
    exact (hentB e0.key hmem).2
  have hDlt : ∀ d, d ∈ keysOf D0 → P.compare_keys d e0.key = .lt :=
    fun d hd => (hD d hd).2 e0.key rfl
  have hget2 : s2.get pk = some pg := by
    rcases hframe pk pg hget with h1 | ⟨hne0, hsubp⟩
    · exact h1
    · exfalso
      have he0 : e0 ∈ pg.list := by rw [hlist]; exact List.mem_cons_self _ _
      exact hcmp.irrefl_lt e0.key (hDlt e0.key (hsubp e0 he0))
  have hdisj : ∀ k2, k2 ∈ keysOf entEs → k2 ∉ keysOf D0 := by
    intro k2 hk2 hk2d
    have hlt2 : P.compare_keys k2 e0.key = .lt := hDlt k2 hk2d
    rw [htail] at hk2
    rcases List.mem_cons.mp hk2 with rfl | hk3
    · exact hcmp.irrefl_lt e0.key hlt2
    · exact hcmp.asym (htailgt k2 hk3) hlt2
  have hents2 : RepEnts P s2 pg.level lo hi (e0 :: more) entEs :=
    (rep_frame_disjoint P D0 hframe).2 _ _ _ _ _ hents hdisj
  set np : Page Key V := ⟨pg.level, some ck2, pg.list⟩ with hnp
  have hput := put_frame P hs2 hok np
  have hgetNp : (s2.put (P.hash_page np) np).get (P.hash_page np) = some np := by
    rw [Store.get_put, if_pos rfl]
  have hnode : Rep P (s2.put (P.hash_page np) np) (some (P.hash_page np)) plvl
      lo hi (mid2 ++ entEs) := by
    refine Rep.node (P.hash_page np) np plvl lo hi mid2 entEs e0 more
      (hok.ne_default np) hgetNp hlvl hlist ?_ ?_
    · exact (rep_frame P hput).1 _ _ _ _ _ hrep
    · exact (rep_frame P hput).2 _ _ _ _ _ hents2
  obtain ⟨s3, rk, hup, hs3, hrep3, hpres⟩ := htrail (s2.put (P.hash_page np) np)
    (P.hash_page np) (mid2 ++ entEs) D0 (hs2.put P np)
    (fun q p0 hq => (hframe q p0 hq).imp_left (hput q p0))
    (fun d hd => ⟨(hD d hd).1,
      fun h hh => hcmp.lt_trans _ _ _ (hDlt d hd) (he0hi h hh)⟩)
    hnode
  refine ⟨s3, rk, ?_, hs3, ?_, ?_⟩
  · rw [update_parent_chain_cons, hget2]
    exact hup
  · have : pre ++ (mid2 ++ entEs) ++ post = pre ++ mid2 ++ (entEs ++ post) := by
      simp [List.append_assoc]
    rw [← this]
    exact hrep3
  · intro q p0 hq
    exact hpres q p0 (hput q p0 hq)

/-! ## The descend arm of the insert loop -/

theorem descend_target_shift (P : Params Key V) (ik : Key) :
    ∀ (rest : List (PageData Key V)) (i : Nat) (entry : PageData Key V),
      descend_target P ik (i + 1) entry rest =
        ((descend_target P ik i entry rest).1 + 1,
         (descend_target P ik i entry rest).2) := by
  intro rest
  induction rest with
  | nil => intro i entry; rfl
  | cons ne rest2 ih =>
    intro i entry
    cases hc : P.compare_keys ik ne.key with
    | lt => simp only [descend_target, hc]
    | eq =>
      simp only [descend_target, hc]
      exact ih (i + 1) ne
    | gt =>
      simp only [descend_target, hc]
      exact ih (i + 1) ne

/-- Decomposition of a represented entry list at the `descend_target`
scan position: the scan lands on an entry `e` whose key is the largest
at or below the inserted key; the represented contents split as
`A ++ midO ++ C` around `e`'s subtree, and rebuilding the list with a
new subtree in that slot represents `A ++ mid2 ++ C`. -/
theorem descend_slot (P : Params Key V) (hcmp : LawfulCmp P.compare_keys)
    (s : Store Key V) (ik : Key) :
    ∀ (rest : List (PageData Key V)) (entry : PageData Key V) (lvl : Nat)
      (lo hi : Option Key) (entEs : List (Key × V)),
      RepEnts P s lvl lo hi (entry :: rest) entEs →
      P.compare_keys ik entry.key ≠ .lt →
      (∀ e2 : PageData Key V, e2 ∈ entry :: rest → e2.key ≠ ik) →
      below P hi ik →
      ∃ (e : PageData Key V) (A C midO : List (Key × V)),
        (entry :: rest)[(descend_target P ik 0 entry rest).1]? = some e ∧
        (descend_target P ik 0 entry rest).2 = e.next ∧
        P.compare_keys e.key ik = .lt ∧
        P.compare_keys entry.key e.key ≠ .gt ∧
        entEs = A ++ midO ++ C ∧
        Rep P s e.next lvl (some e.key)
          (upKey hi ((entry :: rest).drop
            ((descend_target P ik 0 entry rest).1 + 1))) midO ∧
        above P (some e.key) ik ∧
        below P (upKey hi ((entry :: rest).drop
          ((descend_target P ik 0 entry rest).1 + 1))) ik ∧
        (∀ k2, k2 ∈ keysOf A → P.compare_keys ik k2 = .gt) ∧
        (∀ k2, k2 ∈ keysOf C → P.compare_keys ik k2 = .lt) ∧
        (∀ (s2 : Store Key V) (ck2 : Key) (mid2 D0 : List (Key × V)),
          (∀ q p0, s.get q = some p0 → s2.get q = some p0 ∨ SubPage D0 p0) →
          (∀ d, d ∈ keysOf D0 → above P (some e.key) d ∧
            below P (upKey hi ((entry :: rest).drop
              ((descend_target P ik 0 entry rest).1 + 1))) d) →
          Rep P s2 (some ck2) lvl (some e.key)
            (upKey hi ((entry :: rest).drop
              ((descend_target P ik 0 entry rest).1 + 1))) mid2 →
          RepEnts P s2 lvl lo hi
            ((entry :: rest).set (descend_target P ik 0 entry rest).1
              ⟨e.key, e.value, some ck2⟩) (A ++ mid2 ++ C)) := by
  intro rest
  induction rest with
  | nil =>
    intro entry lvl lo hi entEs hents hpre hne hik
    cases hents with
    | cons _ _ _ _ _ subEs restEs hb hcl hsb hrest =>
    cases hrest with
    | nil =>
    have hlt : P.compare_keys entry.key ik = .lt := by
      cases hx : P.compare_keys entry.key ik with
      | lt => rfl
      | eq =>
        exact absurd ((hcmp.eq_iff entry.key ik).mp hx)
          (hne entry (List.mem_cons_self _ _))
      | gt => exact absurd ((hcmp.lt_iff_gt ik entry.key).mpr hx) hpre
    refine ⟨entry, [(entry.key, entry.value)], [], subEs, rfl, rfl, hlt, ?_, rfl,
      hsb, ?_, hik, ?_, ?_, ?_⟩
    · rw [(hcmp.eq_iff entry.key entry.key).mpr rfl]
      intro hx; cases hx
    · intro l hl
      cases hl
      exact hlt
    · intro k2 hk2
      rcases List.mem_cons.mp hk2 with rfl | h2
      · exact (hcmp.lt_iff_gt entry.key ik).mp hlt
      · cases h2
    · intro k2 hk2
      cases hk2
    · intro s2 ck2 mid2 D0 hframe hD hrep
      have hc := RepEnts.cons lvl lo hi ⟨entry.key, entry.value, some ck2⟩ []
        mid2 [] hb hcl hrep (.nil _ _ _)
      rw [List.append_nil] at hc
      show RepEnts P s2 lvl lo hi [⟨entry.key, entry.value, some ck2⟩]
        ([(entry.key, entry.value)] ++ mid2 ++ [])
      rw [List.append_nil]
      exact hc
  | cons ne rest2 ih =>
    intro entry lvl lo hi entEs hents hpre hne hik
    cases hents with
    | cons _ _ _ _ _ subEs restEs hb hcl hsb hrest =>
    have hlt : P.compare_keys entry.key ik = .lt := by
      cases hx : P.compare_keys entry.key ik with
      | lt => rfl
      | eq =>
        exact absurd ((hcmp.eq_iff entry.key ik).mp hx)
          (hne entry (List.mem_cons_self _ _))
      | gt => exact absurd ((hcmp.lt_iff_gt ik entry.key).mpr hx) hpre
    have hsubB := ((rep_bounds_sorted P hcmp s).1 _ _ _ _ _ hsb).1
    have hrB := ((rep_bounds_sorted P hcmp s).2 _ _ _ _ _ hrest).1.1
    obtain ⟨tailEs, htail, htailgt⟩ :=
      ((rep_bounds_sorted P hcmp s).2 _ _ _ _ _ hrest).2
    cases hc : P.compare_keys ik ne.key with
    | lt =>
      simp only [descend_target, hc]
      have hrestGT : ∀ k2, k2 ∈ keysOf restEs → P.compare_keys ik k2 = .lt := by
        intro k2 hk2
        rw [htail] at hk2
        rcases List.mem_cons.mp hk2 with rfl | hk3
        · exact hc
        · exact hcmp.lt_trans _ _ _ hc (htailgt k2 hk3)
      refine ⟨entry, [(entry.key, entry.value)], restEs, subEs, rfl, rfl, hlt, ?_,
        rfl, hsb, ?_, ?_, ?_, hrestGT, ?_⟩
      · rw [(hcmp.eq_iff entry.key entry.key).mpr rfl]
        intro hx; cases hx
      · intro l hl
        cases hl
        exact hlt
      · intro h hh
        cases hh
        exact hc
      · intro k2 hk2
        rcases List.mem_cons.mp hk2 with rfl | h2
        · exact (hcmp.lt_iff_gt entry.key ik).mp hlt
        · cases h2
      · intro s2 ck2 mid2 D0 hframe hD hrep
        have hdisj : ∀ k2, k2 ∈ keysOf restEs → k2 ∉ keysOf D0 := by
          intro k2 hk2 hk2d
          have hd2 : P.compare_keys k2 ne.key = .lt := (hD k2 hk2d).2 ne.key rfl
          rw [htail] at hk2
          rcases List.mem_cons.mp hk2 with rfl | hk3
          · exact hcmp.irrefl_lt ne.key hd2
          · exact hcmp.asym (htailgt k2 hk3) hd2
        exact RepEnts.cons lvl lo hi ⟨entry.key, entry.value, some ck2⟩
          (ne :: rest2) mid2 restEs hb hcl hrep
          ((rep_frame_disjoint P D0 hframe).2 _ _ _ _ _ hrest hdisj)
    | eq =>
      exact absurd ((hcmp.eq_iff ik ne.key).mp hc).symm
        (hne ne (List.mem_cons_of_mem _ (List.mem_cons_self _ _)))
    | gt =>
      have hpre2 : P.compare_keys ik ne.key ≠ .lt := by
        rw [hc]; intro hx; cases hx
      have hne2 : ∀ e2 : PageData Key V, e2 ∈ ne :: rest2 → e2.key ≠ ik :=
        fun e2 he2 => hne e2 (List.mem_cons_of_mem _ he2)
      obtain ⟨e, A2, C2, midO, c1, c2, c3, c4, c5, c6, c7, c8, c9, c10, c11⟩ :=
        ih ne lvl (some entry.key) hi restEs hrest hpre2 hne2 hik
      have hentrylt : P.compare_keys entry.key ne.key = .lt := by
        have hmem : ne.key ∈ keysOf restEs := by
          rw [htail]; exact List.mem_cons_self _ _
        exact (hrB ne.key hmem).1 entry.key rfl
    
      have hshift : descend_target P ik 1 ne rest2 =
          ((descend_target P ik 0 ne rest2).1 + 1,
           (descend_target P ik 0 ne rest2).2) :=
        descend_target_shift P ik rest2 0 ne
      simp only [descend_target, hc]
      rw [hshift]
      dsimp only
      have hheadle : P.compare_keys entry.key e.key ≠ .gt :=
        hcmp.le_of_lt (hcmp.lt_of_lt_of_le hentrylt c4)
      have hsubLTe : ∀ k2, k2 ∈ keysOf subEs → P.compare_keys k2 e.key = .lt := by
        intro k2 hk2
        exact hcmp.lt_of_lt_of_le ((hsubB k2 hk2).2 ne.key rfl) c4
      refine ⟨e, (entry.key, entry.value) :: (subEs ++ A2), C2, midO, ?_, c2, c3,
        hheadle, ?_, c6, c7, c8, ?_, c10, ?_⟩
      · rw [List.getElem?_cons_succ]
        exact c1
      · rw [c5]
        simp [List.append_assoc]
      · intro k2 hk2
        rcases List.mem_cons.mp hk2 with rfl | h2
        · exact (hcmp.lt_iff_gt entry.key ik).mp hlt
        · simp only [keysOf, List.map_append] at h2
          rcases List.mem_append.mp h2 with h3 | h4
          · exact (hcmp.lt_iff_gt k2 ik).mp
              (hcmp.lt_trans _ _ _ (hsubLTe k2 h3) c3)
          · exact c9 k2 h4
      · intro s2 ck2 mid2 D0 hframe hD hrep
        rw [List.set_cons_succ]
        have hinner := c11 s2 ck2 mid2 D0 hframe hD hrep
        have hdisj : ∀ k2, k2 ∈ keysOf subEs → k2 ∉ keysOf D0 := by
          intro k2 hk2 hk2d
          have hd2 : P.compare_keys e.key k2 = .lt := (hD k2 hk2d).1 e.key rfl
          exact hcmp.asym hd2 (hsubLTe k2 hk2)
        have hsub2 : Rep P s2 entry.next lvl (some entry.key)
            (upKey hi ((ne :: rest2).set (descend_target P ik 0 ne rest2).1
              ⟨e.key, e.value, some ck2⟩)) subEs := by
          rw [upKey_set hi (ne :: rest2) _ e ⟨e.key, e.value, some ck2⟩ c1 rfl]
          exact (rep_frame_disjoint P D0 hframe).1 _ _ _ _ _ hsb hdisj
        have hbuilt := RepEnts.cons lvl lo hi entry
          ((ne :: rest2).set (descend_target P ik 0 ne rest2).1
            ⟨e.key, e.value, some ck2⟩)
          subEs (A2 ++ mid2 ++ C2) hb hcl hsub2 hinner
        have heq : ((entry.key, entry.value) :: (subEs ++ A2)) ++ mid2 ++ C2 =
            (entry.key, entry.value) :: (subEs ++ (A2 ++ mid2 ++ C2)) := by
          simp [List.append_assoc]
        rw [heq]
        exact hbuilt

/-- Extending a trail with a `.next idx` record: the slot becomes the
subtree under the entry `e` at `idx`, with the parent's other contents
moving into the context. -/
theorem trailSem_next (P : Params Key V) (hcmp : LawfulCmp P.compare_keys)
    (hok : HashOK P) (sBase : Store Key V) (B : Nat)
    (pu : List (Key × UpdateType)) (plvl : Nat) (lo hi : Option Key)
    (pre post : List (Key × V)) (pk : Key) (pg : Page Key V)
    (entry : PageData Key V) (rest : List (PageData Key V)) (idx : Nat)
    (e : PageData Key V) (lowEs A C : List (Key × V))
    (htrail : TrailSem P sBase B pu plvl lo hi pre post)
    (hget : sBase.get pk = some pg)
    (hlvl : pg.level < plvl)
    (hlist : pg.list = entry :: rest)
    (hlow : Rep P sBase pg.low pg.level lo (some entry.key) lowEs)
    (hidx : (entry :: rest)[idx]? = some e)
    (hheadle : P.compare_keys entry.key e.key ≠ .gt)
    (hmono : ∀ k2, above P (some e.key) k2 →
      below P (upKey hi ((entry :: rest).drop (idx + 1))) k2 →
      above P lo k2 ∧ below P hi k2)
    (hsubst : ∀ (s2 : Store Key V) (ck2 : Key) (mid2 D0 : List (Key × V)),
      (∀ q p0, sBase.get q = some p0 → s2.get q = some p0 ∨ SubPage D0 p0) →
      (∀ d, d ∈ keysOf D0 → above P (some e.key) d ∧
        below P (upKey hi ((entry :: rest).drop (idx + 1))) d) →
      Rep P s2 (some ck2) pg.level (some e.key)
        (upKey hi ((entry :: rest).drop (idx + 1))) mid2 →
      RepEnts P s2 pg.level lo hi
        ((entry :: rest).set idx ⟨e.key, e.value, some ck2⟩) (A ++ mid2 ++ C)) :
    TrailSem P sBase B ((pk, .next idx) :: pu) pg.level (some e.key)
      (upKey hi ((entry :: rest).drop (idx + 1))) (pre ++ (lowEs ++ A))
      (C ++ post) := by
  intro s2 ck2 mid2 D0 hs2 hframe hD hrep
  have hlowB := ((rep_bounds_sorted P hcmp sBase).1 _ _ _ _ _ hlow).1
  have hDgt : ∀ d, d ∈ keysOf D0 → P.compare_keys e.key d = .lt :=
    fun d hd => (hD d hd).1 e.key rfl
  have hget2 : s2.get pk = some pg := by
    rcases hframe pk pg hget with h1 | ⟨hne0, hsubp⟩
    · exact h1
    · exfalso
      have hentry : entry ∈ pg.list := by rw [hlist]; exact List.mem_cons_self _ _
      have hlt2 : P.compare_keys e.key entry.key = .lt :=
        hDgt entry.key (hsubp entry hentry)
      exact hcmp.irrefl_lt e.key (hcmp.lt_of_lt_of_le hlt2 hheadle)
  have hdisjLow : ∀ k2, k2 ∈ keysOf lowEs → k2 ∉ keysOf D0 := by
    intro k2 hk2 hk2d
    have h1 : P.compare_keys k2 entry.key = .lt := (hlowB k2 hk2).2 entry.key rfl
    have h2 : P.compare_keys e.key k2 = .lt := hDgt k2 hk2d
    exact hcmp.irrefl_lt e.key
      (hcmp.lt_trans _ _ _ h2 (hcmp.lt_of_lt_of_le h1 hheadle))
  have hlow2 : Rep P s2 pg.low pg.level lo (some entry.key) lowEs :=
    (rep_frame_disjoint P D0 hframe).1 _ _ _ _ _ hlow hdisjLow
  have hents2 : RepEnts P s2 pg.level lo hi
      ((entry :: rest).set idx ⟨e.key, e.value, some ck2⟩) (A ++ mid2 ++ C) :=
    hsubst s2 ck2 mid2 D0 hframe hD hrep
  obtain ⟨hd2, tl2, hsetlist, hhdkey⟩ :=
    list_set_head_key entry rest idx e ⟨e.key, e.value, some ck2⟩ hidx rfl
  set np : Page Key V := ⟨pg.level, pg.low,
    pg.list.set idx ⟨e.key, e.value, some ck2⟩⟩ with hnp
  have hput := put_frame P hs2 hok np
  have hgetNp : (s2.put (P.hash_page np) np).get (P.hash_page np) = some np := by
    rw [Store.get_put, if_pos rfl]
  have hnplist : np.list = hd2 :: tl2 := by
    show pg.list.set idx ⟨e.key, e.value, some ck2⟩ = hd2 :: tl2
    rw [hlist]
    exact hsetlist
  rw [hsetlist] at hents2
  have hnode : Rep P (s2.put (P.hash_page np) np) (some (P.hash_page np)) plvl
      lo hi (lowEs ++ (A ++ mid2 ++ C)) := by
    refine Rep.node (P.hash_page np) np plvl lo hi lowEs (A ++ mid2 ++ C) hd2 tl2
      (hok.ne_default np) hgetNp hlvl hnplist ?_ ?_
    · rw [hhdkey]
      exact (rep_frame P hput).1 _ _ _ _ _ hlow2
    · exact (rep_frame P hput).2 _ _ _ _ _ hents2
  obtain ⟨s3, rk, hup, hs3, hrep3, hpres⟩ := htrail (s2.put (P.hash_page np) np)
    (P.hash_page np) (lowEs ++ (A ++ mid2 ++ C)) D0 (hs2.put P np)
    (fun q p0 hq => (hframe q p0 hq).imp_left (hput q p0))
    (fun d hd => hmono d (hD d hd).1 (hD d hd).2)
    hnode
  refine ⟨s3, rk, ?_, hs3, ?_, ?_⟩
  · have hpgidx : pg.list[idx]? = some e := by
      rw [hlist]
      exact hidx
    rw [update_parent_chain_cons, hget2]
    dsimp only
    rw [hpgidx]
    exact hup
  · have heq : pre ++ (lowEs ++ (A ++ mid2 ++ C)) ++ post =
        (pre ++ (lowEs ++ A)) ++ mid2 ++ (C ++ post) := by
      simp [List.append_assoc]
    rw [← heq]
    exact hrep3
  · intro q p0 hq
    exact hpres q p0 (hput q p0 hq)

/-! ## Simulation of the insert loop -/

/-- Every entry of a represented page list carries a key at exactly the
list's level. -/
theorem repEnts_entry_level (P : Params Key V) (s : Store Key V) :
    ∀ lvl lo hi l es, RepEnts P s lvl lo hi l es →
      ∀ e : PageData Key V, e ∈ l → P.calc_level e.key = lvl :=
  (Rep.induction P s (fun _ _ _ _ _ => True)
    (fun lvl lo hi l es => ∀ e : PageData Key V, e ∈ l → P.calc_level e.key = lvl)
    (fun _ _ _ => trivial)
    (fun _ _ _ _ _ _ _ _ _ _ _ _ _ _ _ _ _ => trivial)
    (fun _ _ _ e he => absurd he (List.not_mem_nil e))
    (fun lvl lo hi e rest subEs restEs hb hcl _ _ _ ih e2 he2 => by
      rcases List.mem_cons.mp he2 with rfl | hmem
      · exact hcl
      · exact ih e2 hmem)).2

/-- Simulation of the main loop of `insert`: under the trail replay
contract, with the current pointer holding a represented (possibly
empty) slot whose level bound strictly exceeds the inserted key's level,
the loop succeeds and the final root represents the context around the
sorted insert into the slot's contents. -/
theorem insert_loop_sim (P : Params Key V) (hcmp : LawfulCmp P.compare_keys)
    (hok : HashOK P) :
    ∀ (fuel : Nat) (s : Store Key V) (L : Nat) (ik : Key) (iv : V) (ck : Key)
      (pu : List (Key × UpdateType)) (B slvl : Nat) (slo shi : Option Key)
      (pre post mid : List (Key × V)),
      StoreHashed P s →
      TrailSem P s B pu slvl slo shi pre post →
      (Rep P s (some ck) slvl slo shi mid ∨ (mid = [] ∧ ck = P.default)) →
      P.calc_level ik = L →
      L < slvl →
      inBnd P slo shi ik →
      countLT s slvl < fuel →
      ∃ s3 rk, insert_loop P fuel s L ik iv ck pu = .ok (s3, rk) ∧
        StoreHashed P s3 ∧
        Rep P s3 (some rk) B none none (pre ++ insertEntry P ik iv mid ++ post) := by
  intro fuel
  induction fuel with
  | zero =>
    intro s L ik iv ck pu B slvl slo shi pre post mid _ _ _ _ _ _ hfuel
    omega
  | succ fuel ihf =>
    intro s L ik iv ck pu B slvl slo shi pre post mid hs htrail hslot hik hLlt
      hikb hfuel
    rcases hslot with hrep | ⟨hmidnil, hckdef⟩
    · -- the slot holds a represented node
      cases hrep with
      | node _ pg _ _ _ lowEs entEs first more hckne hget hlt2 hlist hlow hents =>
      have hentB := ((rep_bounds_sorted P hcmp s).2 _ _ _ _ _ hents).1.1
      obtain ⟨tailEs, htail, htailgt⟩ :=
        ((rep_bounds_sorted P hcmp s).2 _ _ _ _ _ hents).2
      have hfirstB : inBnd P slo shi first.key := by
        refine hentB first.key ?_
        rw [htail]
        exact List.mem_cons_self _ _
      have hlowB := ((rep_bounds_sorted P hcmp s).1 _ _ _ _ _ hlow).1
      have hlowS := ((rep_bounds_sorted P hcmp s).1 _ _ _ _ _ hlow).2
      have hlowLvl : ∀ k2, k2 ∈ keysOf lowEs → P.calc_level k2 < pg.level :=
        fun k2 hk2 => (rep_levels P s).1 _ _ _ _ _ hlow k2 hk2
      simp only [insert_loop]
      rw [hget]
      dsimp only
      rcases Nat.lt_trichotomy pg.level L with hBlt | hBeq | hBgt
      · -- Arm: the slot page sits below the sought level
        rw [if_pos hBlt]
        have hput1 := put_frame P hs hok pg
        have hs1 : StoreHashed P (s.put (P.hash_page pg) pg) := hs.put P pg
        have hrepL : Rep P (s.put (P.hash_page pg) pg) (some (P.hash_page pg))
            L slo shi (lowEs ++ entEs) := by
          refine Rep.node (P.hash_page pg) pg L slo shi lowEs entEs first more
            (hok.ne_default pg) ?_ hBlt hlist ?_ ?_
          · rw [Store.get_put, if_pos rfl]
          · exact (rep_frame P hput1).1 _ _ _ _ _ hlow
          · exact (rep_frame P hput1).2 _ _ _ _ _ hents
        have hL := (split_sim P hcmp hok (s.put (P.hash_page pg) pg)
          (some (P.hash_page pg)) ik L slo shi (lowEs ++ entEs) hs1 hrepL).1
        have hR := (split_sim P hcmp hok (s.put (P.hash_page pg) pg)
          (some (P.hash_page pg)) ik L slo shi (lowEs ++ entEs) hs1 hrepL).2.1
        have hF := (split_sim P hcmp hok (s.put (P.hash_page pg) pg)
          (some (P.hash_page pg)) ik L slo shi (lowEs ++ entEs) hs1 hrepL).2.2
        have hsSplit : StoreHashed P (split P (s.put (P.hash_page pg) pg)
            (some (P.hash_page pg)) ik).1 := split_storeHashed P _ _ _ hs1
        have hmidNe : ∀ k2, k2 ∈ keysOf (lowEs ++ entEs) →
            P.compare_keys ik k2 ≠ .eq := by
          intro k2 hk2 hx
          have := (rep_levels P _).1 _ _ _ _ _ hrepL k2 hk2
          rw [← (hcmp.eq_iff ik k2).mp hx, hik] at this
          omega
        have hmidB := ((rep_bounds_sorted P hcmp _).1 _ _ _ _ _ hrepL).1
        have hmidSort := ((rep_bounds_sorted P hcmp _).1 _ _ _ _ _ hrepL).2
        have hIE := insertEntry_eq_split P hcmp ik iv (lowEs ++ entEs)
          hmidNe hmidSort
        have hLB := ((rep_bounds_sorted P hcmp _).1 _ _ _ _ _ hL).1
        have hRB := ((rep_bounds_sorted P hcmp _).1 _ _ _ _ _ hR).1
        have hLrb : Rep P (split P (s.put (P.hash_page pg) pg)
            (some (P.hash_page pg)) ik).1
            (split P (s.put (P.hash_page pg) pg) (some (P.hash_page pg)) ik).2.1
            L slo (some ik) (entsLE P ik (lowEs ++ entEs)) := by
          refine (rep_rebound P hcmp _).1 _ _ _ _ _ hL slo (some ik)
            (fun k2 hk2 => (hLB k2 hk2).1) ?_
          intro k2 hk2 h2 hh2
          cases hh2
          exact entsLE_strict P hcmp ik (lowEs ++ entEs) hmidNe k2 hk2
        have hRrb : Rep P (split P (s.put (P.hash_page pg) pg)
            (some (P.hash_page pg)) ik).1
            (split P (s.put (P.hash_page pg) pg) (some (P.hash_page pg)) ik).2.2
            L (some ik) shi (entsGT P ik (lowEs ++ entEs)) := by
          refine (rep_rebound P hcmp _).1 _ _ _ _ _ hR (some ik) shi
            ?_ (fun k2 hk2 => (hRB k2 hk2).2)
          intro k2 hk2 h2 hh2
          cases hh2
          exact entsGT_strict P hcmp ik (lowEs ++ entEs) k2 hk2
        set pgN : Page Key V := ⟨L,
          (split P (s.put (P.hash_page pg) pg) (some (P.hash_page pg)) ik).2.1,
          [⟨ik, iv, (split P (s.put (P.hash_page pg) pg)
            (some (P.hash_page pg)) ik).2.2⟩]⟩ with hpgN
        have hput2 := put_frame P hsSplit hok pgN
        have hgetN : ((split P (s.put (P.hash_page pg) pg)
            (some (P.hash_page pg)) ik).1.put (P.hash_page pgN) pgN).get
            (P.hash_page pgN) = some pgN := by
          rw [Store.get_put, if_pos rfl]
        have hnode : Rep P ((split P (s.put (P.hash_page pg) pg)
            (some (P.hash_page pg)) ik).1.put (P.hash_page pgN) pgN)
            (some (P.hash_page pgN)) slvl slo shi
            (insertEntry P ik iv (lowEs ++ entEs)) := by
          rw [hIE]
          have hsingle := RepEnts.cons L slo shi
            ⟨ik, iv, (split P (s.put (P.hash_page pg) pg)
              (some (P.hash_page pg)) ik).2.2⟩
            [] (entsGT P ik (lowEs ++ entEs)) [] hikb hik
            ((rep_frame P hput2).1 _ _ _ _ _ hRrb) (.nil _ _ _)
          rw [List.append_nil] at hsingle
          exact Rep.node (P.hash_page pgN) pgN slvl slo shi
            (entsLE P ik (lowEs ++ entEs))
            ((ik, iv) :: entsGT P ik (lowEs ++ entEs))
            ⟨ik, iv, (split P (s.put (P.hash_page pg) pg)
              (some (P.hash_page pg)) ik).2.2⟩ []
            (hok.ne_default pgN) hgetN hLlt rfl
            ((rep_frame P hput2).1 _ _ _ _ _ hLrb) hsingle
        obtain ⟨s3, rk, hup, hs3, hrep3, _⟩ := htrail
          ((split P (s.put (P.hash_page pg) pg) (some (P.hash_page pg)) ik).1.put
            (P.hash_page pgN) pgN)
          (P.hash_page pgN) (insertEntry P ik iv (lowEs ++ entEs))
          (lowEs ++ entEs) (hsSplit.put P pgN)
          (fun q p0 hq => (hF q p0 (hput1 q p0 hq)).imp_left (hput2 q p0))
          (fun d hd => hmidB d hd)
          hnode
        exact ⟨s3, rk, hup, hs3, hrep3⟩
      · -- Arm: the slot page sits exactly at the sought level
        rw [if_neg (by omega), if_pos hBeq, hlist]
        dsimp only
        by_cases hcl1 : P.compare_keys ik first.key = .lt
        · -- prepend the new entry, splitting the low subtree
          rw [if_pos hcl1]
          have hL := (split_sim P hcmp hok s pg.low ik pg.level slo
            (some first.key) lowEs hs hlow).1
          have hR := (split_sim P hcmp hok s pg.low ik pg.level slo
            (some first.key) lowEs hs hlow).2.1
          have hF := (split_sim P hcmp hok s pg.low ik pg.level slo
            (some first.key) lowEs hs hlow).2.2
          have hsSplit : StoreHashed P (split P s pg.low ik).1 :=
            split_storeHashed P s pg.low ik hs
          have hlowNe : ∀ k2, k2 ∈ keysOf lowEs →
              P.compare_keys ik k2 ≠ .eq := by
            intro k2 hk2 hx
            have := hlowLvl k2 hk2
            rw [← (hcmp.eq_iff ik k2).mp hx, hik] at this
            omega
          have hIEl := insertEntry_eq_split P hcmp ik iv lowEs hlowNe hlowS
          have hentGTik : ∀ k2, k2 ∈ keysOf entEs →
              P.compare_keys ik k2 = .lt := by
            intro k2 hk2
            rw [htail] at hk2
            rcases List.mem_cons.mp hk2 with rfl | hk3
            · exact hcl1
            · exact hcmp.lt_trans _ _ _ hcl1 (htailgt k2 hk3)
          have hdisj : ∀ k2, k2 ∈ keysOf entEs → k2 ∉ keysOf lowEs := by
            intro k2 hk2 hk2l
            have hlt3 : P.compare_keys k2 first.key = .lt :=
              (hlowB k2 hk2l).2 first.key rfl
            rw [htail] at hk2
            rcases List.mem_cons.mp hk2 with rfl | hk3
            · exact hcmp.irrefl_lt first.key hlt3
            · exact hcmp.asym (htailgt k2 hk3) hlt3
          have hLB := ((rep_bounds_sorted P hcmp _).1 _ _ _ _ _ hL).1
          have hRB := ((rep_bounds_sorted P hcmp _).1 _ _ _ _ _ hR).1
          have hLrb : Rep P (split P s pg.low ik).1 (split P s pg.low ik).2.1
              pg.level slo (some ik) (entsLE P ik lowEs) := by
            refine (rep_rebound P hcmp _).1 _ _ _ _ _ hL slo (some ik)
              (fun k2 hk2 => (hLB k2 hk2).1) ?_
            intro k2 hk2 h2 hh2
            cases hh2
            exact entsLE_strict P hcmp ik lowEs hlowNe k2 hk2
          have hRrb : Rep P (split P s pg.low ik).1 (split P s pg.low ik).2.2
              pg.level (some ik) (some first.key) (entsGT P ik lowEs) := by
            refine (rep_rebound P hcmp _).1 _ _ _ _ _ hR (some ik)
              (some first.key) ?_ (fun k2 hk2 => (hRB k2 hk2).2)
            intro k2 hk2 h2 hh2
            cases hh2
            exact entsGT_strict P hcmp ik lowEs k2 hk2
          set pgN : Page Key V := ⟨pg.level, (split P s pg.low ik).2.1,
            ⟨ik, iv, (split P s pg.low ik).2.2⟩ :: first :: more⟩ with hpgN
          have hput2 := put_frame P hsSplit hok pgN
          have hgetN : ((split P s pg.low ik).1.put (P.hash_page pgN) pgN).get
              (P.hash_page pgN) = some pgN := by
            rw [Store.get_put, if_pos rfl]
          have hents4 : RepEnts P ((split P s pg.low ik).1.put
              (P.hash_page pgN) pgN) pg.level (some ik) shi
              (first :: more) entEs := by
            refine (rep_frame P hput2).2 _ _ _ _ _ ?_
            refine (rep_rebound P hcmp _).2 _ _ _ _ _
              ((rep_frame_disjoint P lowEs hF).2 _ _ _ _ _ hents hdisj)
              (some ik) shi ?_ ?_
            · intro k2 hk2 h2 hh2
              cases hh2
              exact hentGTik k2 hk2
            · intro k2 hk2
              exact (hentB k2 hk2).2
          have hnode : Rep P ((split P s pg.low ik).1.put (P.hash_page pgN) pgN)
              (some (P.hash_page pgN)) slvl slo shi
              (insertEntry P ik iv (lowEs ++ entEs)) := by
            have hmidIE : insertEntry P ik iv (lowEs ++ entEs) =
                entsLE P ik lowEs ++ ((ik, iv) :: (entsGT P ik lowEs ++ entEs)) := by
              rw [insertEntry_append_left P ik iv lowEs entEs hentGTik, hIEl]
              simp [List.append_assoc]
            rw [hmidIE]
            refine Rep.node (P.hash_page pgN) pgN slvl slo shi
              (entsLE P ik lowEs) ((ik, iv) :: (entsGT P ik lowEs ++ entEs))
              ⟨ik, iv, (split P s pg.low ik).2.2⟩ (first :: more)
              (hok.ne_default pgN) hgetN hlt2 rfl
              ((rep_frame P hput2).1 _ _ _ _ _ hLrb) ?_
            refine RepEnts.cons pg.level slo shi
              ⟨ik, iv, (split P s pg.low ik).2.2⟩ (first :: more)
              (entsGT P ik lowEs) entEs hikb (by rw [hBeq]; exact hik)
              ((rep_frame P hput2).1 _ _ _ _ _ hRrb) hents4
          obtain ⟨s3, rk, hup, hs3, hrep3, _⟩ := htrail
            ((split P s pg.low ik).1.put (P.hash_page pgN) pgN)
            (P.hash_page pgN) (insertEntry P ik iv (lowEs ++ entEs)) lowEs
            (hsSplit.put P pgN)
            (fun q p0 hq => (hF q p0 hq).imp_left (hput2 q p0))
            (fun d hd => ⟨(hlowB d hd).1, fun h hh => hcmp.lt_trans _ _ _
              ((hlowB d hd).2 first.key rfl) (hfirstB.2 h hh)⟩)
            hnode
          exact ⟨s3, rk, hup, hs3, hrep3⟩
        · -- merge into the entry run via insert_after_first
          rw [if_neg hcl1]
          obtain ⟨siaf, nl, hiafeq, hsiaf, hrepnl, hfr, hhd⟩ :=
            insert_after_first_sim P hcmp hok (first :: more) s pg.level slo shi
              entEs ik iv hs hents (by rw [hBeq]; exact hik) hikb
              (fun e r2 heq => by cases heq; exact hcl1)
              (List.cons_ne_nil _ _)
          obtain ⟨v2, nx, tl, hhd2⟩ := hhd first more rfl
          rw [hiafeq]
          dsimp only
          set pgN : Page Key V := ⟨pg.level, pg.low, nl⟩ with hpgN
          have hput2 := put_frame P hsiaf hok pgN
          have hgetN : (siaf.put (P.hash_page pgN) pgN).get (P.hash_page pgN)
              = some pgN := by
            rw [Store.get_put, if_pos rfl]
          have hdisj2 : ∀ k2, k2 ∈ keysOf lowEs → k2 ∉ keysOf entEs := by
            intro k2 hk2 hk2e
            have hlt3 : P.compare_keys k2 first.key = .lt :=
              (hlowB k2 hk2).2 first.key rfl
            rw [htail] at hk2e
            rcases List.mem_cons.mp hk2e with rfl | hk3
            · exact hcmp.irrefl_lt first.key hlt3
            · exact hcmp.asym (htailgt k2 hk3) hlt3
          have hlow4 : Rep P (siaf.put (P.hash_page pgN) pgN) pg.low pg.level
              slo (some first.key) lowEs :=
            (rep_frame P hput2).1 _ _ _ _ _
              ((rep_frame_disjoint P entEs hfr).1 _ _ _ _ _ hlow hdisj2)
          have hnode : Rep P (siaf.put (P.hash_page pgN) pgN)
              (some (P.hash_page pgN)) slvl slo shi
              (insertEntry P ik iv (lowEs ++ entEs)) := by
            have hlowGTik : ∀ k2, k2 ∈ keysOf lowEs →
                P.compare_keys ik k2 = .gt := by
              intro k2 hk2
              refine (hcmp.lt_iff_gt k2 ik).mp ?_
              exact hcmp.lt_of_lt_of_le ((hlowB k2 hk2).2 first.key rfl)
                (hcmp.ge_of_not_lt hcl1)
            rw [insertEntry_append_right P hcmp ik iv lowEs entEs hlowGTik]
            rw [hhd2] at hrepnl
            exact Rep.node (P.hash_page pgN) pgN slvl slo shi lowEs
              (insertEntry P ik iv entEs) ⟨first.key, v2, nx⟩ tl
              (hok.ne_default pgN) hgetN hlt2 hhd2 hlow4
              ((rep_frame P hput2).2 _ _ _ _ _ hrepnl)
          obtain ⟨s3, rk, hup, hs3, hrep3, _⟩ := htrail
            (siaf.put (P.hash_page pgN) pgN) (P.hash_page pgN)
            (insertEntry P ik iv (lowEs ++ entEs)) entEs
            (hsiaf.put P pgN)
            (fun q p0 hq => (hfr q p0 hq).imp_left (hput2 q p0))
            (fun d hd => hentB d hd)
            hnode
          exact ⟨s3, rk, hup, hs3, hrep3⟩
      · -- Arm: descend
        rw [if_neg (by omega), if_neg (by omega), hlist]
        dsimp only
        by_cases hcl1 : P.compare_keys ik first.key = .lt
        · -- descend into the low subtree
          rw [if_pos hcl1]
          have htrail2 := trailSem_low P hcmp hok s B pu slvl slo shi pre post
            ck pg first more entEs htrail hget hlist hlt2 hents
          have hfuel2 : countLT s pg.level < fuel := by
            have := countLT_get_lt s ck pg hget hlt2
            omega
          have hslot2 : Rep P s (some (pg.low.getD P.default)) pg.level slo
              (some first.key) lowEs ∨
              (lowEs = [] ∧ pg.low.getD P.default = P.default) := by
            cases hpl : pg.low with
            | some l =>
              rw [hpl] at hlow
              exact Or.inl hlow
            | none =>
              rw [hpl] at hlow
              cases hlow with
              | empty => exact Or.inr ⟨rfl, rfl⟩
          obtain ⟨s3, rk, heq3, hs3, hrep3⟩ := ihf s L ik iv
            (pg.low.getD P.default) ((ck, .low) :: pu) B pg.level slo
            (some first.key) pre (entEs ++ post) lowEs hs htrail2 hslot2 hik
            hBgt ⟨hikb.1, fun h hh => by cases hh; exact hcl1⟩ hfuel2
          refine ⟨s3, rk, heq3, hs3, ?_⟩
          have hentGTik : ∀ k2, k2 ∈ keysOf entEs →
              P.compare_keys ik k2 = .lt := by
            intro k2 hk2
            rw [htail] at hk2
            rcases List.mem_cons.mp hk2 with rfl | hk3
            · exact hcl1
            · exact hcmp.lt_trans _ _ _ hcl1 (htailgt k2 hk3)
          have hlisteq : pre ++ insertEntry P ik iv (lowEs ++ entEs) ++ post =
              pre ++ insertEntry P ik iv lowEs ++ (entEs ++ post) := by
            rw [insertEntry_append_left P ik iv lowEs entEs hentGTik]
            simp [List.append_assoc]
          rw [hlisteq]
          exact hrep3
        · -- descend into an entry subtree
          rw [if_neg hcl1]
          have hnekeys : ∀ e2 : PageData Key V, e2 ∈ first :: more →
              e2.key ≠ ik := by
            intro e2 he2 heq
            have hl2 := repEnts_entry_level P s _ _ _ _ _ hents e2 he2
            rw [heq, hik] at hl2
            omega
          obtain ⟨e, A, C, midO, c1, c2, c3, c4, c5, c6, c7, c8, c9, c10, c11⟩ :=
            descend_slot P hcmp s ik more first pg.level slo shi entEs hents
              hcl1 hnekeys hikb.2
          have hfirstlt : P.compare_keys first.key ik = .lt := by
            cases hx : P.compare_keys first.key ik with
            | lt => rfl
            | eq =>
              exact absurd ((hcmp.eq_iff first.key ik).mp hx)
                (hnekeys first (List.mem_cons_self _ _))
            | gt => exact absurd ((hcmp.lt_iff_gt ik first.key).mpr hx) hcl1
          have hSHIbelow : ∀ k2, below P (upKey shi ((first :: more).drop
              ((descend_target P ik 0 first more).1 + 1))) k2 →
              below P shi k2 := by
            intro k2 hk2
            cases hdrop : (first :: more).drop
                ((descend_target P ik 0 first more).1 + 1) with
            | nil =>
              rw [hdrop] at hk2
              exact hk2
            | cons ne2 dr2 =>
              rw [hdrop] at hk2
              have hne2mem : ne2 ∈ first :: more :=
                List.drop_subset _ _ (by rw [hdrop]; exact List.mem_cons_self _ _)
              have hne2key : ne2.key ∈ keysOf entEs :=
                repEnts_list_keys P s _ _ _ _ _ hents ne2 hne2mem
              intro h hh
              exact hcmp.lt_trans _ _ _ (hk2 ne2.key rfl)
                ((hentB ne2.key hne2key).2 h hh)
          have hmono : ∀ k2, above P (some e.key) k2 →
              below P (upKey shi ((first :: more).drop
                ((descend_target P ik 0 first more).1 + 1))) k2 →
              above P slo k2 ∧ below P shi k2 := by
            intro k2 hk2a hk2b
            refine ⟨?_, hSHIbelow k2 hk2b⟩
            intro l hl
            exact hcmp.lt_trans _ _ _
              (hcmp.lt_of_lt_of_le (hfirstB.1 l hl) c4) (hk2a e.key rfl)
          have htrail2 := trailSem_next P hcmp hok s B pu slvl slo shi pre post
            ck pg first more (descend_target P ik 0 first more).1 e lowEs A C
            htrail hget hlt2 hlist hlow c1 c4 hmono c11
          have hfuel2 : countLT s pg.level < fuel := by
            have := countLT_get_lt s ck pg hget hlt2
            omega
          have hslot2 : Rep P s (some (e.next.getD P.default)) pg.level
              (some e.key) (upKey shi ((first :: more).drop
                ((descend_target P ik 0 first more).1 + 1))) midO ∨
              (midO = [] ∧ e.next.getD P.default = P.default) := by
            cases hen : e.next with
            | some l =>
              rw [hen] at c6
              exact Or.inl c6
            | none =>
              rw [hen] at c6
              cases c6 with
              | empty => exact Or.inr ⟨rfl, rfl⟩
          obtain ⟨s3, rk, heq3, hs3, hrep3⟩ := ihf s L ik iv
            (e.next.getD P.default)
            ((ck, .next (descend_target P ik 0 first more).1) :: pu) B pg.level
            (some e.key)
            (upKey shi ((first :: more).drop
              ((descend_target P ik 0 first more).1 + 1)))
            (pre ++ (lowEs ++ A)) (C ++ post) midO hs htrail2 hslot2 hik hBgt
            ⟨c7, c8⟩ hfuel2
          have hLA : ∀ k2, k2 ∈ keysOf (lowEs ++ A) →
              P.compare_keys ik k2 = .gt := by
            intro k2 hk2
            simp only [keysOf, List.map_append] at hk2
            rcases List.mem_append.mp hk2 with h1 | h2
            · refine (hcmp.lt_iff_gt k2 ik).mp ?_
              exact hcmp.lt_trans _ _ _ ((hlowB k2 h1).2 first.key rfl) hfirstlt
            · exact c9 k2 h2
          refine ⟨s3, rk, ?_, hs3, ?_⟩
          · rw [c2]
            exact heq3
          · have hmogeq : (lowEs ++ entEs : List (Key × V)) =
                (lowEs ++ A) ++ (midO ++ C) := by
              rw [c5]
              simp [List.append_assoc]
            have hlisteq : pre ++ insertEntry P ik iv (lowEs ++ entEs) ++ post =
                (pre ++ (lowEs ++ A)) ++ insertEntry P ik iv midO ++
                  (C ++ post) := by
              rw [hmogeq, insertEntry_append_right P hcmp ik iv (lowEs ++ A)
                (midO ++ C) hLA, insertEntry_append_left P ik iv midO C c10]
              simp [List.append_assoc]
            rw [hlisteq]
            exact hrep3
    · -- the slot is empty: create a fresh single-entry page
      have hnone : s.get ck = none := by
        rw [hckdef]
        exact storeHashed_default_none P hs hok
      simp only [insert_loop]
      rw [hnone]
      dsimp only
      set pg1 : Page Key V := ⟨L, none, [⟨ik, iv, none⟩]⟩ with hpg1
      have hput := put_frame P hs hok pg1
      have hget1 : (s.put (P.hash_page pg1) pg1).get (P.hash_page pg1)
          = some pg1 := by
        rw [Store.get_put, if_pos rfl]
      have hnode : Rep P (s.put (P.hash_page pg1) pg1) (some (P.hash_page pg1))
          slvl slo shi [(ik, iv)] := by
        have hsingle : RepEnts P (s.put (P.hash_page pg1) pg1) L slo shi
            [⟨ik, iv, none⟩] ((ik, iv) :: ([] ++ [])) :=
          RepEnts.cons L slo shi ⟨ik, iv, none⟩ [] [] []
            hikb hik (.empty _ _ _) (.nil _ _ _)
        rw [List.append_nil] at hsingle
        exact Rep.node (P.hash_page pg1) pg1 slvl slo shi [] [(ik, iv)]
          ⟨ik, iv, none⟩ [] (hok.ne_default pg1) hget1 hLlt rfl
          (.empty _ _ _) hsingle
      obtain ⟨s3, rk, hup, hs3, hrep3, _⟩ := htrail (s.put (P.hash_page pg1) pg1)
        (P.hash_page pg1) [(ik, iv)] [] (hs.put P pg1)
        (fun q p0 hq => Or.inl (hput q p0 hq))
        (fun d hd => absurd hd (List.not_mem_nil d))
        hnode
      rw [hmidnil]
      exact ⟨s3, rk, hup, hs3, hrep3⟩

/-- Simulation of `insert`: on a well-formed tree it succeeds, the
returned root is the new tree's root, and the new tree is well-formed
holding the sorted insert (with merge on an existing key) of the old
contents. -/
theorem insert_sim (P : Params Key V) (hcmp : LawfulCmp P.compare_keys)
    (hok : HashOK P) (m : MSTree Key V) (es : List (Key × V)) (ik : Key)
    (iv : V) (hwf : WfTree P m es) :
    ∃ m2 rk, insert P m ik iv = .ok (m2, rk) ∧ m2.root = rk ∧
      WfTree P m2 (insertEntry P ik iv es) := by
  obtain ⟨hs, hroot⟩ := hwf
  rcases hroot with ⟨hdef, hesnil⟩ | ⟨B0, hrep⟩
  · -- empty tree: create the first page
    rw [insert]
    dsimp only
    rw [if_pos (Or.inl hdef)]
    subst hesnil
    set pg1 : Page Key V := ⟨P.calc_level ik, none, [⟨ik, iv, none⟩]⟩ with hpg1
    refine ⟨⟨P.hash_page pg1, m.store.put (P.hash_page pg1) pg1⟩,
      P.hash_page pg1, rfl, rfl, ?_, Or.inr ⟨P.calc_level ik + 1, ?_⟩⟩
    · exact hs.put P pg1
    · have hget1 : (m.store.put (P.hash_page pg1) pg1).get (P.hash_page pg1)
          = some pg1 := by
        rw [Store.get_put, if_pos rfl]
      have hsingle : RepEnts P (m.store.put (P.hash_page pg1) pg1)
          (P.calc_level ik) none none [⟨ik, iv, none⟩]
          ((ik, iv) :: ([] ++ [])) :=
        RepEnts.cons (P.calc_level ik) none none ⟨ik, iv, none⟩ [] [] []
          ⟨(fun l hl => nomatch hl), (fun h hh => nomatch hh)⟩ rfl
          (.empty _ _ _) (.nil _ _ _)
      rw [List.append_nil] at hsingle
      exact Rep.node (P.hash_page pg1) pg1 (P.calc_level ik + 1) none none
        [] [(ik, iv)] ⟨ik, iv, none⟩ [] (hok.ne_default pg1) hget1
        (Nat.lt_succ_self _) rfl (.empty _ _ _) hsingle
  · -- nonempty tree: run the loop from the root
    have hroot_ne : m.root ≠ P.default := by
      cases hrep with
      | node _ _ _ _ _ _ _ _ _ hne _ _ _ _ _ => exact hne
    have hroot_has : m.store.has m.root = true := by
      cases hrep with
      | node _ pg _ _ _ _ _ _ _ _ hget _ _ _ _ =>
        rw [Store.has, hget]
        rfl
    rw [insert]
    dsimp only
    rw [if_neg (by
      intro hor
      rcases hor with h1 | h2
      · exact hroot_ne h1
      · rw [hroot_has] at h2
        cases h2)]
    set B : Nat := max B0 (P.calc_level ik + 1) with hB
    have hrepB : Rep P m.store (some m.root) B none none es :=
      hrep.mono_bound (Nat.le_max_left _ _)
    have hLltB : P.calc_level ik < B :=
      Nat.lt_of_lt_of_le (Nat.lt_succ_self _) (Nat.le_max_right _ _)
    obtain ⟨s3, rk, heq3, hs3, hrep3⟩ := insert_loop_sim P hcmp hok
      (m.store.size + 1) m.store (P.calc_level ik) ik iv m.root [] B B
      none none [] [] es hs
      (trailSem_nil P m.store B B (Nat.le_refl B))
      (Or.inl hrepB) rfl hLltB
      ⟨(fun l hl => nomatch hl), (fun h hh => nomatch hh)⟩
      (Nat.lt_succ_of_le (countLT_le_size m.store B))
    rw [heq3]
    refine ⟨⟨rk, s3⟩, rk, rfl, rfl, hs3, Or.inr ⟨B, ?_⟩⟩
    rw [List.nil_append, List.append_nil] at hrep3
    exact hrep3

/-! ## Simulation of `get_value` and C3 -/

/-- Association lookup by the comparison function. -/
def lookupEs (P : Params Key V) (k : Key) : List (Key × V) → Option V
  | [] => none
  | (k0, v0) :: rest =>
    match P.compare_keys k k0 with
    | .eq => some v0
    | _ => lookupEs P k rest

theorem lookupEs_append (P : Params Key V) (k : Key) :
    ∀ A B : List (Key × V), lookupEs P k (A ++ B) =
      match lookupEs P k A with
      | some v => some v
      | none => lookupEs P k B := by
  intro A
  induction A with
  | nil => intro B; rfl
  | cons kv rest ih =>
    intro B
    obtain ⟨k0, v0⟩ := kv
    cases hc : P.compare_keys k k0 with
    | eq => simp only [List.cons_append, lookupEs, hc]
    | lt => simp only [List.cons_append, lookupEs, hc]; exact ih B
    | gt => simp only [List.cons_append, lookupEs, hc]; exact ih B

theorem lookupEs_none (P : Params Key V) (k : Key) :
    ∀ es : List (Key × V),
      (∀ k2, k2 ∈ keysOf es → P.compare_keys k k2 ≠ .eq) →
      lookupEs P k es = none := by
  intro es
  induction es with
  | nil => intro _; rfl
  | cons kv rest ih =>
    intro h
    obtain ⟨k0, v0⟩ := kv
    cases hc : P.compare_keys k k0 with
    | eq => exact absurd hc (h k0 (List.mem_cons_self _ _))
    | lt =>
      simp only [lookupEs, hc]
      exact ih (fun k2 hk2 => h k2 (List.mem_cons_of_mem _ hk2))
    | gt =>
      simp only [lookupEs, hc]
      exact ih (fun k2 hk2 => h k2 (List.mem_cons_of_mem _ hk2))

theorem lookupEs_cons_ne (P : Params Key V) (k k0 : Key) (v0 : V)
    (rest : List (Key × V)) (h : P.compare_keys k k0 ≠ .eq) :
    lookupEs P k ((k0, v0) :: rest) = lookupEs P k rest := by
  cases hc : P.compare_keys k k0 with
  | eq => exact absurd hc h
  | lt => simp only [lookupEs, hc]
  | gt => simp only [lookupEs, hc]

theorem lookupEs_append_right_none (P : Params Key V) (k : Key)
    (A B : List (Key × V)) (h : lookupEs P k B = none) :
    lookupEs P k (A ++ B) = lookupEs P k A := by
  rw [lookupEs_append]
  cases hA : lookupEs P k A with
  | some v => rfl
  | none => exact h

theorem lookupEs_append_left_none (P : Params Key V) (k : Key)
    (A B : List (Key × V)) (h : lookupEs P k A = none) :
    lookupEs P k (A ++ B) = lookupEs P k B := by
  rw [lookupEs_append, h]

theorem scan_entries_cons (P : Params Key V) (k : Key) (fb : Option Key)
    (e : PageData Key V) (rest : List (PageData Key V)) :
    scan_entries P k fb (e :: rest) =
      match P.compare_keys k e.key with
      | .eq => .found e.value
      | .lt => .descend fb
      | .gt =>
        match rest with
        | [] => .descend e.next
        | _ => scan_entries P k e.next rest := rfl

/-- Simulation of the entry scan of `get_value_from_node`: on a
represented page the scan either finds the value bound to the search
key or descends into the unique subtree whose interval may hold it. -/
theorem scan_entries_sim (P : Params Key V) (hcmp : LawfulCmp P.compare_keys)
    (s : Store Key V) (k : Key) :
    ∀ (l : List (PageData Key V)) (e0 : PageData Key V)
      (rest0 : List (PageData Key V)) (fb : Option Key) (lvl : Nat)
      (lo hi : Option Key) (fbEs entEs : List (Key × V)),
      l = e0 :: rest0 →
      Rep P s fb lvl lo (some e0.key) fbEs →
      RepEnts P s lvl lo hi l entEs →
      (match scan_entries P k fb l with
       | .found v => lookupEs P k (fbEs ++ entEs) = some v
       | .descend nx => ∃ lo2 hi2 subEs, Rep P s nx lvl lo2 hi2 subEs ∧
           lookupEs P k (fbEs ++ entEs) = lookupEs P k subEs
       | .exhausted => False) := by
  intro l
  induction l with
  | nil =>
    intro e0 rest0 fb lvl lo hi fbEs entEs heq
    cases heq
  | cons e rest ih =>
    intro e0 rest0 fb lvl lo hi fbEs entEs heq hfb hents
    cases heq
    cases hents with
    | cons _ _ _ _ _ subEs restEs hb hcl hsb hrest =>
    have hfbB := ((rep_bounds_sorted P hcmp s).1 _ _ _ _ _ hfb).1
    have hrB := ((rep_bounds_sorted P hcmp s).2 _ _ _ _ _ hrest).1.1
    cases hc : P.compare_keys k e.key with
    | eq =>
      rw [scan_entries_cons, hc]
      dsimp only
      have hfbnone : lookupEs P k fbEs = none := by
        refine lookupEs_none P k fbEs ?_
        intro k2 hk2 hx
        have h1 : P.compare_keys k2 e.key = .lt := (hfbB k2 hk2).2 e.key rfl
        rw [← (hcmp.eq_iff k k2).mp hx] at h1
        rw [hc] at h1
        cases h1
      rw [lookupEs_append_left_none P k fbEs _ hfbnone]
      simp only [lookupEs, hc]
    | lt =>
      rw [scan_entries_cons, hc]
      dsimp only
      refine ⟨lo, some e.key, fbEs, hfb, ?_⟩
      refine lookupEs_append_right_none P k fbEs _ ?_
      refine lookupEs_none P k _ ?_
      intro k2 hk2 hx
      have hkeq : k = k2 := (hcmp.eq_iff k k2).mp hx
      subst hkeq
      rcases List.mem_cons.mp hk2 with rfl | hk3
      · exact hcmp.irrefl_lt _ hc
      · simp only [keysOf, List.map_append] at hk3
        rcases List.mem_append.mp hk3 with h1 | h2
        · have := (((rep_bounds_sorted P hcmp s).1 _ _ _ _ _ hsb).1 _ h1).1 e.key rfl
          exact hcmp.irrefl_lt _ (hcmp.lt_trans _ _ _ hc this)
        · have := (hrB _ h2).1 e.key rfl
          exact hcmp.irrefl_lt _ (hcmp.lt_trans _ _ _ hc this)
    | gt =>
      have helk : P.compare_keys e.key k = .lt := (hcmp.lt_iff_gt e.key k).mpr hc
      have hfbnone : lookupEs P k fbEs = none := by
        refine lookupEs_none P k fbEs ?_
        intro k2 hk2 hx
        have h1 : P.compare_keys k2 e.key = .lt := (hfbB k2 hk2).2 e.key rfl
        rw [← (hcmp.eq_iff k k2).mp hx] at h1
        exact hcmp.irrefl_lt k (hcmp.lt_trans _ _ _ h1 helk)
      have hcne : P.compare_keys k e.key ≠ .eq := by
        rw [hc]; intro hx; cases hx
      cases rest with
      | nil =>
        cases hrest with
        | nil =>
        rw [scan_entries_cons, hc]
        dsimp only
        refine ⟨some e.key, upKey hi ([] : List (PageData Key V)), subEs, hsb, ?_⟩
        rw [lookupEs_append_left_none P k fbEs _ hfbnone,
          lookupEs_cons_ne P k e.key e.value _ hcne, List.append_nil]
      | cons ne rest2 =>
        rw [scan_entries_cons, hc]
        dsimp only
        have hIH := ih ne rest2 e.next lvl (some e.key) hi subEs restEs rfl
          hsb hrest
        have htrans : lookupEs P k (fbEs ++
            ((e.key, e.value) :: (subEs ++ restEs))) =
            lookupEs P k (subEs ++ restEs) := by
          rw [lookupEs_append_left_none P k fbEs _ hfbnone,
            lookupEs_cons_ne P k e.key e.value _ hcne]
        cases hscan : scan_entries P k e.next (ne :: rest2) with
        | found v =>
          rw [hscan] at hIH
          rw [htrans]
          exact hIH
        | descend nx =>
          rw [hscan] at hIH
          obtain ⟨lo2, hi2, subEs2, hrep2, heq2⟩ := hIH
          exact ⟨lo2, hi2, subEs2, hrep2, by rw [htrans]; exact heq2⟩
        | exhausted =>
          rw [hscan] at hIH
          exact hIH.elim

/-- Simulation of `get_value_from_node`: on a represented subtree it
returns exactly the association lookup of the represented contents. -/
theorem get_value_from_node_sim (P : Params Key V)
    (hcmp : LawfulCmp P.compare_keys) :
    ∀ (fuel : Nat) (s : Store Key V) (ck : Key) (lvl : Nat)
      (lo hi : Option Key) (es : List (Key × V)) (k : Key),
      Rep P s (some ck) lvl lo hi es →
      countLT s lvl < fuel →
      get_value_from_node P fuel s ck k = .ok (lookupEs P k es) := by
  intro fuel
  induction fuel with
  | zero =>
    intro s ck lvl lo hi es k _ hfuel
    omega
  | succ fuel ihf =>
    intro s ck lvl lo hi es k hrep hfuel
    cases hrep with
    | node _ pg _ _ _ lowEs entEs first more hckne hget hlt2 hlist hlow hents =>
    simp only [get_value_from_node]
    rw [if_neg hckne, hget]
    dsimp only
    rw [hlist]
    dsimp only
    have hscan := scan_entries_sim P hcmp s k (first :: more) first more pg.low
      pg.level lo hi lowEs entEs rfl hlow hents
    cases hscan2 : scan_entries P k pg.low (first :: more) with
    | found v =>
      rw [hscan2] at hscan
      have hfound : lookupEs P k (lowEs ++ entEs) = some v := hscan
      rw [hfound]
    | exhausted =>
      rw [hscan2] at hscan
      exact False.elim hscan
    | descend nx =>
      rw [hscan2] at hscan
      obtain ⟨lo2, hi2, subEs, hrep2, heq2⟩ := hscan
      cases nx with
      | none =>
        cases hrep2 with
        | empty =>
          rw [heq2]
          rfl
      | some l =>
        dsimp only
        have hfuel2 : countLT s pg.level < fuel := by
          have := countLT_get_lt s _ pg hget hlt2
          omega
        rw [ihf s l pg.level lo2 hi2 subEs k hrep2 hfuel2, heq2]

/-- A well-formed tree's contents are strictly sorted by `compare_keys`. -/
theorem wfTree_sorted (P : Params Key V) (hcmp : LawfulCmp P.compare_keys)
    (m : MSTree Key V) (es : List (Key × V)) (hwf : WfTree P m es) :
    es.Pairwise (fun a b => P.compare_keys a.1 b.1 = .lt) := by
  obtain ⟨_, hroot⟩ := hwf
  rcases hroot with ⟨_, hesnil⟩ | ⟨B, hrep⟩
  · rw [hesnil]; exact List.Pairwise.nil
  · exact ((rep_bounds_sorted P hcmp m.store).1 _ _ _ _ _ hrep).2

/-- Simulation of `get_value`: on a well-formed tree it returns exactly
the association lookup of the tree's contents. -/
theorem get_value_sim (P : Params Key V) (hcmp : LawfulCmp P.compare_keys)
    (m : MSTree Key V) (es : List (Key × V)) (k : Key)
    (hwf : WfTree P m es) :
    get_value P m k = .ok (lookupEs P k es) := by
  obtain ⟨_, hroot⟩ := hwf
  rcases hroot with ⟨hdef, hesnil⟩ | ⟨B, hrep⟩
  · rw [hesnil]
    simp only [get_value, get_value_from_node]
    rw [if_pos hdef]
    rfl
  · have hfuel : countLT m.store B < m.store.size + 1 :=
      Nat.lt_succ_of_le (countLT_le_size m.store B)
    exact get_value_from_node_sim P hcmp (m.store.size + 1) m.store m.root B
      none none es k hrep hfuel

/-- Looking up the inserted key after `insertEntry` yields the merged
value when the key was present, and the new value otherwise. -/
theorem lookupEs_insertEntry_self (P : Params Key V)
    (hcmp : LawfulCmp P.compare_keys) (ik : Key) (iv : V) :
    ∀ es : List (Key × V),
      es.Pairwise (fun a b => P.compare_keys a.1 b.1 = .lt) →
      lookupEs P ik (insertEntry P ik iv es) =
        some (match lookupEs P ik es with
          | some prev => P.merge prev iv
          | none => iv) := by
  have hrefl : P.compare_keys ik ik = .eq := (hcmp.eq_iff ik ik).mpr rfl
  intro es
  induction es with
  | nil =>
    intro _
    simp only [insertEntry, lookupEs, hrefl]
  | cons kv rest ih =>
    intro hsorted
    obtain ⟨k0, v0⟩ := kv
    have hhd := List.pairwise_cons.mp hsorted
    cases hc : P.compare_keys ik k0 with
    | lt =>
      have hrestnone : lookupEs P ik rest = none := by
        refine lookupEs_none P ik rest ?_
        intro k2 hk2 hx
        obtain ⟨⟨k2b, v2⟩, hmem, hk2b⟩ := List.mem_map.mp hk2
        have h1 : P.compare_keys k0 k2b = .lt := hhd.1 _ hmem
        have hk2b2 : k2b = k2 := hk2b
        rw [hk2b2] at h1
        have h2 : P.compare_keys ik k2 = .lt := hcmp.lt_trans _ _ _ hc h1
        rw [hx] at h2
        cases h2
      simp only [insertEntry, hc, lookupEs, hrefl, hrestnone]
    | eq =>
      simp only [insertEntry, hc, lookupEs]
    | gt =>
      simp only [insertEntry, hc, lookupEs]
      exact ih hhd.2

/-! ## Reachability structure of represented subtrees -/

theorem reachableKey_trans (s : Store Key V) (n r0 r : Key)
    (h0 : ReachableKey s r0 r) (pg : Page Key V) (hget : s.get n = some pg)
    (hr0 : r0 ∈ pg.refs) : ReachableKey s n r := by
  induction h0 with
  | root => exact .step n pg r0 .root hget hr0
  | step k pg2 r2 _ hget2 hr2 ih => exact .step k pg2 r2 ih hget2 hr2

theorem reachableKey_unfold (s : Store Key V) (n r : Key)
    (h : ReachableKey s n r) :
    r = n ∨ ∃ pg r0, s.get n = some pg ∧ r0 ∈ pg.refs ∧
      ReachableKey s r0 r := by
  induction h with
  | root => exact Or.inl rfl
  | step k pg r2 hk hget hr2 ih =>
    rcases ih with rfl | ⟨pg0, r0, hget0, href0, hreach0⟩
    · exact Or.inr ⟨pg, r2, hget, hr2, .root⟩
    · exact Or.inr ⟨pg0, r0, hget0, href0, .step k pg r2 hreach0 hget hr2⟩

theorem refs_low (pg : Page Key V) (r : Key) (h : pg.low = some r) :
    r ∈ pg.refs := by
  simp only [Page.refs, h]
  exact List.mem_append.mpr (Or.inl (List.mem_singleton.mpr rfl))

theorem refs_next (pg : Page Key V) (e : PageData Key V) (r : Key)
    (he : e ∈ pg.list) (h : e.next = some r) : r ∈ pg.refs := by
  simp only [Page.refs]
  exact List.mem_append.mpr (Or.inr (List.mem_filterMap.mpr ⟨e, he, h⟩))

theorem refs_cases (pg : Page Key V) (r : Key) (hr : r ∈ pg.refs) :
    pg.low = some r ∨ ∃ e, e ∈ pg.list ∧ e.next = some r := by
  simp only [Page.refs] at hr
  rcases List.mem_append.mp hr with h1 | h2
  · cases hlc : pg.low with
    | none => rw [hlc] at h1; cases h1
    | some lw =>
      rw [hlc] at h1
      simp only [List.mem_singleton] at h1
      subst h1
      exact Or.inl rfl
  · obtain ⟨e, he, hnext⟩ := List.mem_filterMap.mp h2
    exact Or.inr ⟨e, he, hnext⟩

theorem reachableKey_node_iff (s : Store Key V) (n : Key) (pg : Page Key V)
    (hget : s.get n = some pg) (r : Key) :
    ReachableKey s n r ↔ (r = n ∨
      (∃ lw, pg.low = some lw ∧ ReachableKey s lw r) ∨
      (∃ e nx, e ∈ pg.list ∧ e.next = some nx ∧ ReachableKey s nx r)) := by
  constructor
  · intro h
    rcases reachableKey_unfold s n r h with rfl | ⟨pg2, r0, hget2, href, hreach⟩
    · exact Or.inl rfl
    · rw [hget] at hget2
      cases hget2
      rcases refs_cases pg r0 href with hlow | ⟨e, he, hnext⟩
      · exact Or.inr (Or.inl ⟨r0, hlow, hreach⟩)
      · exact Or.inr (Or.inr ⟨e, r0, he, hnext, hreach⟩)
  · intro h
    rcases h with rfl | ⟨lw, hlow, hreach⟩ | ⟨e, nx, he, hnext, hreach⟩
    · exact .root
    · exact reachableKey_trans s n lw r hreach pg hget (refs_low pg lw hlow)
    · exact reachableKey_trans s n nx r hreach pg hget (refs_next pg e nx he hnext)

theorem repEnts_entry_keys (P : Params Key V) (s : Store Key V) :
    ∀ (l : List (PageData Key V)) (lvl : Nat) (lo hi : Option Key)
      (es : List (Key × V)), RepEnts P s lvl lo hi l es →
      ∀ e, e ∈ l → e.key ∈ keysOf es := by
  intro l
  induction l with
  | nil => intro lvl lo hi es _ e he; cases he
  | cons e0 rest ih =>
    intro lvl lo hi es h e he
    cases h with
    | cons _ _ _ _ _ subEs restEs hb hcl hsb hrest =>
    rcases List.mem_cons.mp he with rfl | hmem
    · simp only [keysOf, List.map_cons]
      exact List.mem_cons_self _ _
    · have h2 := ih lvl (some e0.key) hi restEs hrest e hmem
      simp only [keysOf, List.map_cons, List.map_append] at h2 ⊢
      exact List.mem_cons_of_mem _ (List.mem_append.mpr (Or.inr h2))

theorem repEnts_next_sub (P : Params Key V) (s : Store Key V) :
    ∀ (l : List (PageData Key V)) (lvl : Nat) (lo hi : Option Key)
      (es : List (Key × V)), RepEnts P s lvl lo hi l es →
      ∀ e, e ∈ l → ∀ r, e.next = some r →
        ∃ hi2 es2, Rep P s (some r) lvl (some e.key) hi2 es2 ∧
          ∀ k, k ∈ keysOf es2 → k ∈ keysOf es := by
  intro l
  induction l with
  | nil => intro lvl lo hi es _ e he; cases he
  | cons e0 rest ih =>
    intro lvl lo hi es h e he r hr
    cases h with
    | cons _ _ _ _ _ subEs restEs hb hcl hsb hrest =>
    rcases List.mem_cons.mp he with rfl | hmem
    · rw [hr] at hsb
      refine ⟨upKey hi rest, subEs, hsb, ?_⟩
      intro k hk
      simp only [keysOf, List.map_cons, List.map_append]
      exact List.mem_cons_of_mem _ (List.mem_append.mpr (Or.inl hk))
    · obtain ⟨hi2, es2, hrep2, hsub⟩ :=
        ih lvl (some e0.key) hi restEs hrest e hmem r hr
      refine ⟨hi2, es2, hrep2, ?_⟩
      intro k hk
      have h2 := hsub k hk
      simp only [keysOf, List.map_cons, List.map_append] at h2 ⊢
      exact List.mem_cons_of_mem _ (List.mem_append.mpr (Or.inr h2))

theorem rep_refs_sub (P : Params Key V) (s : Store Key V)
    (n : Key) (lvl : Nat) (lo hi : Option Key) (es : List (Key × V))
    (hrep : Rep P s (some n) lvl lo hi es) (pg : Page Key V)
    (hget : s.get n = some pg) (r : Key) (hr : r ∈ pg.refs) :
    ∃ lo2 hi2 es2, Rep P s (some r) pg.level lo2 hi2 es2 ∧
      ∀ k, k ∈ keysOf es2 → k ∈ keysOf es := by
  cases hrep with
  | node _ pg2 _ _ _ lowEs entEs e0 more hne hget2 hlt hlist hlow hents =>
  rw [hget] at hget2
  cases hget2
  rcases refs_cases pg r hr with hlow2 | ⟨e, he, hnext⟩
  · rw [hlow2] at hlow
    refine ⟨lo, some e0.key, lowEs, hlow, ?_⟩
    intro k hk
    simp only [keysOf, List.map_append]
    exact List.mem_append.mpr (Or.inl hk)
  · rw [hlist] at he
    obtain ⟨hi2, es2, hrep2, hsub⟩ :=
      repEnts_next_sub P s (e0 :: more) pg.level lo hi entEs hents e he r hnext
    refine ⟨some e.key, hi2, es2, hrep2, ?_⟩
    intro k hk
    simp only [keysOf, List.map_append]
    exact List.mem_append.mpr (Or.inr (hsub k hk))

theorem rep_reach (P : Params Key V) (s : Store Key V)
    (n : Key) (lvl : Nat) (lo hi : Option Key) (es : List (Key × V))
    (hrep : Rep P s (some n) lvl lo hi es) (r : Key)
    (hreach : ReachableKey s n r) :
    ∃ lvl2 lo2 hi2 es2, Rep P s (some r) lvl2 lo2 hi2 es2 ∧
      ∀ k, k ∈ keysOf es2 → k ∈ keysOf es := by
  induction hreach with
  | root => exact ⟨lvl, lo, hi, es, hrep, fun k hk => hk⟩
  | step k pg r2 _ hget hr2 ih =>
    obtain ⟨lvl2, lo2, hi2, es2, hrep2, hsub⟩ := ih
    obtain ⟨lo3, hi3, es3, hrep3, hsub3⟩ :=
      rep_refs_sub P s k lvl2 lo2 hi2 es2 hrep2 pg hget r2 hr2
    exact ⟨pg.level, lo3, hi3, es3, hrep3, fun k2 hk2 => hsub k2 (hsub3 k2 hk2)⟩

theorem rep_reach_head (P : Params Key V) (s : Store Key V)
    (n : Key) (lvl : Nat) (lo hi : Option Key) (es : List (Key × V))
    (hrep : Rep P s (some n) lvl lo hi es) (r : Key)
    (hreach : ReachableKey s n r) :
    ∃ pg2, s.get r = some pg2 ∧ pg2.list ≠ [] ∧
      ∀ e, e ∈ pg2.list → e.key ∈ keysOf es := by
  obtain ⟨lvl2, lo2, hi2, es2, hrep2, hsub⟩ :=
    rep_reach P s n lvl lo hi es hrep r hreach
  cases hrep2 with
  | node _ pg2 _ _ _ lowEs entEs e1 more hne hget hlt hlist hlow hents =>
  refine ⟨pg2, hget, by rw [hlist]; exact List.cons_ne_nil _ _, ?_⟩
  intro e he
  rw [hlist] at he
  have h1 := repEnts_entry_keys P s (e1 :: more) pg2.level lo2 hi2 entEs hents e he
  refine hsub _ ?_
  simp only [keysOf, List.map_append]
  exact List.mem_append.mpr (Or.inr h1)

theorem reach_ne_self (P : Params Key V) (hcmp : LawfulCmp P.compare_keys)
    (s : Store Key V) {n n0 : Key} {pg : Page Key V}
    (hget : s.get n = some pg) (e0 : PageData Key V) (he0 : e0 ∈ pg.list)
    {lvl : Nat} {lo2 hi2 : Option Key} {esA : List (Key × V)}
    (hrepA : Rep P s (some n0) lvl lo2 hi2 esA)
    (hkey : ∀ k, k ∈ keysOf esA → P.compare_keys k e0.key ≠ .eq)
    (hreach : ReachableKey s n0 n) : False := by
  obtain ⟨pg2, hget2, _, hmem⟩ :=
    rep_reach_head P s n0 lvl lo2 hi2 esA hrepA n hreach
  rw [hget] at hget2
  cases hget2
  exact hkey e0.key (hmem e0 he0) ((hcmp.eq_iff _ _).mpr rfl)

theorem reach_disjoint (P : Params Key V) (s : Store Key V)
    {nA nB : Key} {lvlA lvlB : Nat} {loA loB hiA hiB : Option Key}
    {esA esB : List (Key × V)}
    (hA : Rep P s (some nA) lvlA loA hiA esA)
    (hB : Rep P s (some nB) lvlB loB hiB esB)
    (hdis : ∀ k, k ∈ keysOf esA → k ∈ keysOf esB → False)
    (r : Key) (hrA : ReachableKey s nA r) (hrB : ReachableKey s nB r) :
    False := by
  obtain ⟨pgA, hgetA, hneA, hmemA⟩ :=
    rep_reach_head P s nA lvlA loA hiA esA hA r hrA
  obtain ⟨pgB, hgetB, hneB, hmemB⟩ :=
    rep_reach_head P s nB lvlB loB hiB esB hB r hrB
  rw [hgetA] at hgetB
  cases hgetB
  cases hlA : pgA.list with
  | nil => exact hneA hlA
  | cons eA tlA =>
    have h1 : eA ∈ pgA.list := by rw [hlA]; exact List.mem_cons_self _ _
    exact hdis eA.key (hmemA eA h1) (hmemB eA h1)

/-! ## Simulation of the MST-order traversal

On a represented subtree whose pages have not been visited yet, the
traversal succeeds, collects exactly the represented entries in order,
and marks exactly the subtree's pages as visited. -/

theorem mst_order_go_sim (P : Params Key V) (hcmp : LawfulCmp P.compare_keys)
    (s : Store Key V) (fuel : Nat)
    (hE : ∀ (nO : Option Key) (lvl : Nat) (lo hi : Option Key)
      (es : List (Key × V)) (visited : List Key),
      Rep P s nO lvl lo hi es →
      (∀ n0 r, nO = some n0 → ReachableKey s n0 r → r ∉ visited) →
      countLT s lvl < fuel →
      ∃ pds visited2,
        mst_order_entries P fuel s (nO.getD P.default) visited =
          .ok (pds, visited2) ∧
        pds.map (fun e => (e.key, e.value)) = es ∧
        (∀ r, r ∈ visited2 ↔
          (r ∈ visited ∨ ∃ n0, nO = some n0 ∧ ReachableKey s n0 r))) :
    ∀ (l : List (PageData Key V)) (lvl : Nat) (lo hi : Option Key)
      (es : List (Key × V)) (visited : List Key) (acc : List (PageData Key V)),
      RepEnts P s lvl lo hi l es →
      (∀ e n0 r, e ∈ l → e.next = some n0 → ReachableKey s n0 r →
        r ∉ visited) →
      countLT s lvl < fuel →
      ∃ pds visited2,
        mst_order_go P fuel s l visited acc = .ok (acc ++ pds, visited2) ∧
        pds.map (fun e => (e.key, e.value)) = es ∧
        (∀ r, r ∈ visited2 ↔
          (r ∈ visited ∨ ∃ e n0, e ∈ l ∧ e.next = some n0 ∧
            ReachableKey s n0 r)) := by
  intro l
  induction l with
  | nil =>
    intro lvl lo hi es visited acc hents hvis hfuel
    cases hents
    refine ⟨[], visited, ?_, rfl, ?_⟩
    · rw [mst_order_go, List.append_nil]
    · intro r
      constructor
      · exact fun h => Or.inl h
      · rintro (h | ⟨e, n0, he, _, _⟩)
        · exact h
        · cases he
  | cons e rest ih =>
    intro lvl lo hi es visited acc hents hvis hfuel
    cases hents with
    | cons _ _ _ _ _ subEs restEs hb hcl hsb hrest =>
    obtain ⟨pdsS, visitedS, hcallS, hmapS, hiffS⟩ :=
      hE e.next lvl (some e.key) (upKey hi rest) subEs visited hsb
        (fun n0 r hn0 hr => hvis e n0 r (List.mem_cons_self _ _) hn0 hr) hfuel
    have hpreR : ∀ e2 n0 r, e2 ∈ rest → e2.next = some n0 →
        ReachableKey s n0 r → r ∉ visitedS := by
      intro e2 n0 r he2 hn0 hr hinS
      rcases (hiffS r).mp hinS with hinV | ⟨n0h, hn0h, hrh⟩
      · exact hvis e2 n0 r (List.mem_cons_of_mem _ he2) hn0 hr hinV
      · cases rest with
        | nil => cases he2
        | cons ne rest2 =>
          obtain ⟨hi3, es3, hrep3, hsub3⟩ :=
            repEnts_next_sub P s (ne :: rest2) lvl (some e.key) hi restEs
              hrest e2 he2 n0 hn0
          rw [hn0h] at hsb
          obtain ⟨tailEs, htailEq, htailGt⟩ :=
            ((rep_bounds_sorted P hcmp s).2 _ _ _ _ _ hrest).2
          refine reach_disjoint P s hsb hrep3 ?_ r hrh hr
          intro k hkA hkB
          have h1 : P.compare_keys k ne.key = .lt :=
            (((rep_bounds_sorted P hcmp s).1 _ _ _ _ _ hsb).1 k hkA).2
              ne.key rfl
          have h2 := hsub3 k hkB
          rw [htailEq] at h2
          simp only [keysOf, List.map_cons] at h2
          rcases List.mem_cons.mp h2 with h3 | h4
          · rw [h3] at h1
            exact hcmp.irrefl_lt _ h1
          · exact hcmp.irrefl_lt _
              (hcmp.lt_trans _ _ _ h1 (htailGt _ h4))
    obtain ⟨pdsR, visitedR, hcallR, hmapR, hiffR⟩ :=
      ih lvl (some e.key) hi restEs visitedS (acc ++ e :: pdsS) hrest hpreR hfuel
    refine ⟨e :: (pdsS ++ pdsR), visitedR, ?_, ?_, ?_⟩
    · rw [mst_order_go]
      rw [hcallS]
      dsimp only
      rw [hcallR, List.append_assoc, List.cons_append]
    · simp only [List.map_cons, List.map_append, hmapS, hmapR]
    · intro r
      rw [hiffR r, hiffS r]
      constructor
      · rintro ((hA | ⟨n0, hn0, hr⟩) | ⟨e2, n0, he2, hn0, hr⟩)
        · exact Or.inl hA
        · exact Or.inr ⟨e, n0, List.mem_cons_self _ _, hn0, hr⟩
        · exact Or.inr ⟨e2, n0, List.mem_cons_of_mem _ he2, hn0, hr⟩
      · rintro (hA | ⟨e2, n0, he2, hn0, hr⟩)
        · exact Or.inl (Or.inl hA)
        · rcases List.mem_cons.mp he2 with rfl | hm
          · exact Or.inl (Or.inr ⟨n0, hn0, hr⟩)
          · exact Or.inr ⟨e2, n0, hm, hn0, hr⟩

theorem mst_order_entries_sim (P : Params Key V)
    (hcmp : LawfulCmp P.compare_keys) (s : Store Key V) :
    ∀ (fuel : Nat) (nO : Option Key) (lvl : Nat) (lo hi : Option Key)
      (es : List (Key × V)) (visited : List Key),
      Rep P s nO lvl lo hi es →
      (∀ n0 r, nO = some n0 → ReachableKey s n0 r → r ∉ visited) →
      countLT s lvl < fuel →
      ∃ pds visited2,
        mst_order_entries P fuel s (nO.getD P.default) visited =
          .ok (pds, visited2) ∧
        pds.map (fun e => (e.key, e.value)) = es ∧
        (∀ r, r ∈ visited2 ↔
          (r ∈ visited ∨ ∃ n0, nO = some n0 ∧ ReachableKey s n0 r)) := by
  intro fuel
  induction fuel with
  | zero => intro nO lvl lo hi es visited _ _ hfuel; omega
  | succ fuel ihf =>
    intro nO lvl lo hi es visited hrep hvis hfuel
    cases hrep with
    | empty =>
      refine ⟨[], visited, ?_, rfl, ?_⟩
      · rw [mst_order_entries]
        dsimp only [Option.getD]
        rw [if_pos (Or.inl rfl)]
      · intro r
        constructor
        · exact fun h => Or.inl h
        · rintro (h | ⟨n0, hn0, _⟩)
          · exact h
          · cases hn0
    | node nk pg _ _ _ lowEs entEs e0 more hne hget hlt hlist hlow hents =>
      have hnkvis : nk ∉ visited := hvis nk nk rfl .root
      have hfuel2 : countLT s pg.level < fuel := by
        have := countLT_get_lt s nk pg hget hlt
        omega
      have hpreL : ∀ n0 r, pg.low = some n0 → ReachableKey s n0 r →
          r ∉ (nk :: visited) := by
        intro n0 r hn0 hr hmem
        rcases List.mem_cons.mp hmem with rfl | hmemV
        · rw [hn0] at hlow
          refine reach_ne_self P hcmp s hget e0
            (by rw [hlist]; exact List.mem_cons_self _ _) hlow ?_ hr
          intro k hk heq
          have hblw := (((rep_bounds_sorted P hcmp s).1 _ _ _ _ _ hlow).1
            k hk).2 e0.key rfl
          rw [(hcmp.eq_iff k e0.key).mp heq] at hblw
          exact hcmp.irrefl_lt _ hblw
        · exact hvis nk r rfl
            (reachableKey_trans s nk n0 r hr pg hget (refs_low pg n0 hn0)) hmemV
      obtain ⟨pdsL, visitedL, hcallL, hmapL, hiffL⟩ :=
        ihf pg.low pg.level lo (some e0.key) lowEs (nk :: visited) hlow
          hpreL hfuel2
      have hpreG : ∀ e n0 r, e ∈ e0 :: more → e.next = some n0 →
          ReachableKey s n0 r → r ∉ visitedL := by
        intro e n0 r he hn0 hr hmem
        obtain ⟨hi3, es3, hrep3, hsub3⟩ :=
          repEnts_next_sub P s (e0 :: more) pg.level lo hi entEs hents e he
            n0 hn0
        obtain ⟨tailEs, htailEq, htailGt⟩ :=
          ((rep_bounds_sorted P hcmp s).2 _ _ _ _ _ hents).2
        have hekey : e.key ∈ keysOf entEs :=
          repEnts_entry_keys P s (e0 :: more) pg.level lo hi entEs hents e he
        have he0le : e.key = e0.key ∨ P.compare_keys e0.key e.key = .lt := by
          rw [htailEq] at hekey
          simp only [keysOf, List.map_cons] at hekey
          rcases List.mem_cons.mp hekey with h1 | h2
          · exact Or.inl h1
          · exact Or.inr (htailGt _ h2)
        have hslotAbove : ∀ k, k ∈ keysOf es3 →
            P.compare_keys e0.key k = .lt := by
          intro k hk
          have h1 := (((rep_bounds_sorted P hcmp s).1 _ _ _ _ _ hrep3).1
            k hk).1 e.key rfl
          rcases he0le with heq | hlt2
          · rw [← heq]; exact h1
          · exact hcmp.lt_trans _ _ _ hlt2 h1
        rcases (hiffL r).mp hmem with hmemNV | ⟨lw, hlw, hreachLw⟩
        · rcases List.mem_cons.mp hmemNV with rfl | hmemV
          · refine reach_ne_self P hcmp s hget e0
              (by rw [hlist]; exact List.mem_cons_self _ _) hrep3 ?_ hr
            intro k hk heq
            have h2 := hslotAbove k hk
            rw [(hcmp.eq_iff k e0.key).mp heq] at h2
            exact hcmp.irrefl_lt _ h2
          · refine hvis nk r rfl
              (reachableKey_trans s nk n0 r hr pg hget
                (refs_next pg e n0 ?_ hn0)) hmemV
            rw [hlist]; exact he
        · rw [hlw] at hlow
          refine reach_disjoint P s hlow hrep3 ?_ r hreachLw hr
          intro k hkA hkB
          have h1 := (((rep_bounds_sorted P hcmp s).1 _ _ _ _ _ hlow).1
            k hkA).2 e0.key rfl
          exact hcmp.irrefl_lt _ (hcmp.lt_trans _ _ _ h1 (hslotAbove k hkB))
      obtain ⟨pdsG, visitedG, hcallG, hmapG, hiffG⟩ :=
        mst_order_go_sim P hcmp s fuel ihf (e0 :: more) pg.level lo hi entEs
          visitedL pdsL hents hpreG hfuel2
      refine ⟨pdsL ++ pdsG, visitedG, ?_, ?_, ?_⟩
      · rw [mst_order_entries]
        dsimp only [Option.getD]
        rw [if_neg ?hcnd]
        case hcnd =>
          rintro (h | h)
          · exact hne h
          · exact hnkvis h
        rw [hget]
        dsimp only
        dsimp only [Option.getD] at hcallL
        rw [hcallL]
        dsimp only
        rw [hlist, hcallG]
      · simp only [List.map_append, hmapL, hmapG]
      · intro r
        rw [hiffG r, hiffL r]
        constructor
        · rintro ((hmem | ⟨lw, hlw, hrw⟩) | ⟨e, n0, he, hn0, hr⟩)
          · rcases List.mem_cons.mp hmem with rfl | hmemV
            · exact Or.inr ⟨r, rfl, .root⟩
            · exact Or.inl hmemV
          · exact Or.inr ⟨nk, rfl,
              reachableKey_trans s nk lw r hrw pg hget (refs_low pg lw hlw)⟩
          · refine Or.inr ⟨nk, rfl,
              reachableKey_trans s nk n0 r hr pg hget
                (refs_next pg e n0 ?_ hn0)⟩
            rw [hlist]; exact he
        · rintro (hv | ⟨n0, hn0, hr⟩)
          · exact Or.inl (Or.inl (List.mem_cons_of_mem _ hv))
          · cases hn0
            rcases (reachableKey_node_iff s nk pg hget r).mp hr with
              rfl | ⟨lw, hlw, hrw⟩ | ⟨e, nx, he, hnx, hrx⟩
            · exact Or.inl (Or.inl (List.mem_cons_self _ _))
            · exact Or.inl (Or.inr ⟨lw, hlw, hrw⟩)
            · refine Or.inr ⟨e, nx, ?_, hnx, hrx⟩
              rw [hlist] at he
              exact he

/-! ## Totality of the traversal-based operations, and well-formedness
of every tree reachable by insert and merge -/

theorem rep_some_ne_default (P : Params Key V) {s : Store Key V} {n : Key}
    {lvl : Nat} {lo hi : Option Key} {es : List (Key × V)}
    (h : Rep P s (some n) lvl lo hi es) : n ≠ P.default := by
  cases h with
  | node _ _ _ _ _ _ _ _ _ hne _ _ _ _ _ => exact hne

theorem insert_fold_sim (P : Params Key V) (hcmp : LawfulCmp P.compare_keys)
    (hok : HashOK P) :
    ∀ (pds : List (PageData Key V)) (tgt : MSTree Key V)
      (es : List (Key × V)), WfTree P tgt es →
      ∃ m2 es2, insert_fold P tgt pds = .ok m2 ∧ WfTree P m2 es2 := by
  intro pds
  induction pds with
  | nil => intro tgt es hwf; exact ⟨tgt, es, rfl, hwf⟩
  | cons e rest ih =>
    intro tgt es hwf
    obtain ⟨m2, rk, hins, _, hwf2⟩ :=
      insert_sim P hcmp hok tgt es e.key e.value hwf
    obtain ⟨m3, es3, hfold, hwf3⟩ := ih m2 _ hwf2
    refine ⟨m3, es3, ?_, hwf3⟩
    simp only [insert_fold, hins]
    exact hfold

theorem add_items_sim (P : Params Key V) (hcmp : LawfulCmp P.compare_keys)
    (hok : HashOK P) (src tgt : MSTree Key V) (esS esT : List (Key × V))
    (hwfS : WfTree P src esS) (hwfT : WfTree P tgt esT) :
    ∃ m2 es2, add_items_to_mst P src tgt = .ok m2 ∧ WfTree P m2 es2 := by
  rw [add_items_to_mst]
  by_cases hroot : src.root = P.default
  · rw [if_pos hroot]
    exact ⟨tgt, esT, rfl, hwfT⟩
  · rw [if_neg hroot]
    obtain ⟨hs, hcase⟩ := hwfS
    rcases hcase with ⟨hdef, _⟩ | ⟨B, hrep⟩
    · exact absurd hdef hroot
    · have hfuel : countLT src.store B < src.store.size + 1 :=
        Nat.lt_succ_of_le (countLT_le_size src.store B)
      obtain ⟨pds, visited2, hcall, hmap, hiff⟩ :=
        mst_order_entries_sim P hcmp src.store (src.store.size + 1)
          (some src.root) B none none esS [] hrep
          (fun n0 r hn0 hr hmem => List.not_mem_nil r hmem) hfuel
      simp only [Option.getD] at hcall
      rw [hcall]
      exact insert_fold_sim P hcmp hok pds tgt esT hwfT

theorem merge_sim (P : Params Key V) (hcmp : LawfulCmp P.compare_keys)
    (hok : HashOK P) (a b : MSTree Key V) (esa esb : List (Key × V))
    (hwa : WfTree P a esa) (hwb : WfTree P b esb) :
    ∃ res es2, merge P a b = .ok res ∧ res.1 = (a, b) ∧
      WfTree P ⟨res.2.1, res.2.2⟩ es2 := by
  have hwfnew : WfTree P (⟨P.default, Store.new⟩ : MSTree Key V) [] :=
    ⟨StoreHashed.empty P, Or.inl ⟨rfl, rfl⟩⟩
  simp only [merge]
  have hstep1 : ∃ m1 es1,
      (if a.root ≠ P.default then add_items_to_mst P a
        (⟨P.default, Store.new⟩ : MSTree Key V)
       else .ok (⟨P.default, Store.new⟩ : MSTree Key V)) = .ok m1 ∧
      WfTree P m1 es1 := by
    by_cases hra : a.root = P.default
    · rw [if_neg (fun h => h hra)]
      exact ⟨_, [], rfl, hwfnew⟩
    · rw [if_pos hra]
      obtain ⟨m1, es1, hcall, hwf1⟩ :=
        add_items_sim P hcmp hok a _ esa [] hwa hwfnew
      exact ⟨m1, es1, hcall, hwf1⟩
  obtain ⟨m1, es1, hcall1, hwf1⟩ := hstep1
  rw [hcall1]
  dsimp only
  have hstep2 : ∃ m2 es2,
      (if b.root ≠ P.default then add_items_to_mst P b m1
       else .ok m1) = .ok m2 ∧ WfTree P m2 es2 := by
    by_cases hrb : b.root = P.default
    · rw [if_neg (fun h => h hrb)]
      exact ⟨m1, es1, rfl, hwf1⟩
    · rw [if_pos hrb]
      obtain ⟨m2, es2, hcall, hwf2⟩ :=
        add_items_sim P hcmp hok b m1 esb es1 hwb hwf1
      exact ⟨m2, es2, hcall, hwf2⟩
  obtain ⟨m2, es2, hcall2, hwf2⟩ := hstep2
  rw [hcall2]
  exact ⟨((a, b), (m2.root, m2.store)), es2, rfl, rfl, hwf2⟩


theorem reaches_wf (P : Params Key V) (hcmp : LawfulCmp P.compare_keys)
    (hok : HashOK P) (m : MSTree Key V) (hm : Reaches P m) :
    ∃ es, WfTree P m es := by
  induction hm with
  | new => exact ⟨[], ⟨StoreHashed.empty P, Or.inl ⟨rfl, rfl⟩⟩⟩
  | ins m2 k v res _ hins ih =>
    obtain ⟨es, hwf⟩ := ih
    obtain ⟨m3, rk, hins2, _, hwf2⟩ := insert_sim P hcmp hok m2 es k v hwf
    rw [hins] at hins2
    cases hins2
    exact ⟨_, hwf2⟩
  | mrg a b res _ _ hmrg iha ihb =>
    obtain ⟨esa, hwa⟩ := iha
    obtain ⟨esb, hwb⟩ := ihb
    obtain ⟨res2, es2, hmrg2, _, hwf2⟩ :=
      merge_sim P hcmp hok a b esa esb hwa hwb
    rw [hmrg] at hmrg2
    cases hmrg2
    exact ⟨es2, hwf2⟩

theorem to_list_sim (P : Params Key V) (hcmp : LawfulCmp P.compare_keys)
    (m : MSTree Key V) (es : List (Key × V)) (hwf : WfTree P m es) :
    to_list P m = .ok (es.map Prod.snd) := by
  obtain ⟨hs, hcase⟩ := hwf
  rw [to_list]
  rcases hcase with ⟨hdef, hnil⟩ | ⟨B, hrep⟩
  · rw [if_pos hdef, hnil]
    rfl
  · rw [if_neg (rep_some_ne_default P hrep)]
    have hfuel : countLT m.store B < m.store.size + 1 :=
      Nat.lt_succ_of_le (countLT_le_size m.store B)
    obtain ⟨pds, visited2, hcall, hmap, hiff⟩ :=
      mst_order_entries_sim P hcmp m.store (m.store.size + 1)
        (some m.root) B none none es [] hrep
        (fun n0 r hn0 hr hmem => List.not_mem_nil r hmem) hfuel
    simp only [Option.getD] at hcall
    rw [hcall, ← hmap, List.map_map]
    rfl

/-! ## Commutativity of abstract insertion and uniqueness of the
representation: groundwork for insertion-order independence -/

theorem insertEntry_comm (P : Params Key V) (hcmp : LawfulCmp P.compare_keys)
    (k1 k2 : Key) (v1 v2 : V) (hne : P.compare_keys k1 k2 ≠ .eq) :
    ∀ es : List (Key × V),
      insertEntry P k1 v1 (insertEntry P k2 v2 es) =
      insertEntry P k2 v2 (insertEntry P k1 v1 es) := by
  have hne21 : P.compare_keys k2 k1 ≠ .eq := by
    intro h
    exact hne ((hcmp.eq_iff k1 k2).mpr ((hcmp.eq_iff k2 k1).mp h).symm)
  intro es
  induction es with
  | nil =>
    cases hc : P.compare_keys k1 k2 with
    | eq => exact absurd hc hne
    | lt =>
      have hc2 : P.compare_keys k2 k1 = .gt := (hcmp.lt_iff_gt k1 k2).mp hc
      simp only [insertEntry, hc, hc2]
    | gt =>
      have hc2 : P.compare_keys k2 k1 = .lt := (hcmp.lt_iff_gt k2 k1).mpr hc
      simp only [insertEntry, hc, hc2]
  | cons kv rest ih =>
    obtain ⟨k0, v0⟩ := kv
    cases hc1 : P.compare_keys k1 k0 with
    | lt =>
      cases hc2 : P.compare_keys k2 k0 with
      | lt =>
        cases hc12 : P.compare_keys k1 k2 with
        | eq => exact absurd hc12 hne
        | lt =>
          have hc21 : P.compare_keys k2 k1 = .gt :=
            (hcmp.lt_iff_gt k1 k2).mp hc12
          simp only [insertEntry, hc1, hc2, hc12, hc21]
        | gt =>
          have hc21 : P.compare_keys k2 k1 = .lt :=
            (hcmp.lt_iff_gt k2 k1).mpr hc12
          simp only [insertEntry, hc1, hc2, hc12, hc21]
      | eq =>
        have hk : k2 = k0 := (hcmp.eq_iff k2 k0).mp hc2
        subst hk
        have hc21 : P.compare_keys k2 k1 = .gt := (hcmp.lt_iff_gt k1 k2).mp hc1
        have hkk : P.compare_keys k2 k2 = .eq := (hcmp.eq_iff k2 k2).mpr rfl
        simp only [insertEntry, hc1, hc21, hkk]
      | gt =>
        have h02 : P.compare_keys k0 k2 = .lt := (hcmp.lt_iff_gt k0 k2).mpr hc2
        have h12 : P.compare_keys k1 k2 = .lt := hcmp.lt_trans _ _ _ hc1 h02
        have hc21 : P.compare_keys k2 k1 = .gt := (hcmp.lt_iff_gt k1 k2).mp h12
        simp only [insertEntry, hc1, hc2, h12, hc21]
    | eq =>
      have hk : k1 = k0 := (hcmp.eq_iff k1 k0).mp hc1
      subst hk
      have hkk : P.compare_keys k1 k1 = .eq := (hcmp.eq_iff k1 k1).mpr rfl
      cases hc2 : P.compare_keys k2 k1 with
      | eq => exact absurd hc2 hne21
      | lt =>
        have hc12 : P.compare_keys k1 k2 = .gt := (hcmp.lt_iff_gt k2 k1).mp hc2
        simp only [insertEntry, hc2, hkk, hc12]
      | gt =>
        have hc12 : P.compare_keys k1 k2 = .lt := (hcmp.lt_iff_gt k1 k2).mpr hc2
        simp only [insertEntry, hc2, hkk, hc12]
    | gt =>
      cases hc2 : P.compare_keys k2 k0 with
      | lt =>
        have h01 : P.compare_keys k0 k1 = .lt := (hcmp.lt_iff_gt k0 k1).mpr hc1
        have h21 : P.compare_keys k2 k1 = .lt := hcmp.lt_trans _ _ _ hc2 h01
        have h12 : P.compare_keys k1 k2 = .gt := (hcmp.lt_iff_gt k2 k1).mp h21
        simp only [insertEntry, hc1, hc2, h12, h21]
      | eq =>
        have hk : k2 = k0 := (hcmp.eq_iff k2 k0).mp hc2
        subst hk
        have hkk : P.compare_keys k2 k2 = .eq := (hcmp.eq_iff k2 k2).mpr rfl
        simp only [insertEntry, hc1, hkk]
      | gt =>
        simp only [insertEntry, hc1, hc2]
        rw [ih]

theorem pageData_ext {e1 e2 : PageData Key V} (h1 : e1.key = e2.key)
    (h2 : e1.value = e2.value) (h3 : e1.next = e2.next) : e1 = e2 := by
  cases e1
  cases e2
  cases h1
  cases h2
  cases h3
  rfl

theorem page_ext {pg1 pg2 : Page Key V} (h1 : pg1.level = pg2.level)
    (h2 : pg1.low = pg2.low) (h3 : pg1.list = pg2.list) : pg1 = pg2 := by
  cases pg1
  cases pg2
  cases h1
  cases h2
  cases h3
  rfl

theorem repEnts_cons_inv (P : Params Key V) {s : Store Key V} {lvl : Nat}
    {lo hi : Option Key} {e : PageData Key V} {l : List (PageData Key V)}
    {es : List (Key × V)} (h : RepEnts P s lvl lo hi (e :: l) es) :
    ∃ subEs restEs, es = (e.key, e.value) :: (subEs ++ restEs) ∧
      inBnd P lo hi e.key ∧ P.calc_level e.key = lvl ∧
      Rep P s e.next lvl (some e.key) (upKey hi l) subEs ∧
      RepEnts P s lvl (some e.key) hi l restEs := by
  cases h with
  | cons _ _ _ _ _ subEs restEs hb hcl hsb hrest =>
    exact ⟨subEs, restEs, rfl, hb, hcl, hsb, hrest⟩

theorem repEnts_nil_es (P : Params Key V) {s : Store Key V} {lvl : Nat}
    {lo hi : Option Key} {es : List (Key × V)}
    (h : RepEnts P s lvl lo hi [] es) : es = [] := by
  cases h
  rfl

theorem repEnts_nil_inv (P : Params Key V) {s : Store Key V} {lvl : Nat}
    {lo hi : Option Key} {l : List (PageData Key V)}
    (h : RepEnts P s lvl lo hi l []) : l = [] := by
  cases l with
  | nil => rfl
  | cons e l2 =>
    obtain ⟨subEs, restEs, heq, _⟩ := repEnts_cons_inv P h
    cases heq

theorem rep_none_es (P : Params Key V) {s : Store Key V} {lvl : Nat}
    {lo hi : Option Key} {es : List (Key × V)}
    (h : Rep P s none lvl lo hi es) : es = [] := by
  cases h
  rfl

theorem rep_some_inv (P : Params Key V) {s : Store Key V} {n : Key}
    {lvl : Nat} {lo hi : Option Key} {es : List (Key × V)}
    (h : Rep P s (some n) lvl lo hi es) :
    ∃ pg lowEs entEs e0 more, n ≠ P.default ∧ s.get n = some pg ∧
      pg.level < lvl ∧ pg.list = e0 :: more ∧
      Rep P s pg.low pg.level lo (some e0.key) lowEs ∧
      RepEnts P s pg.level lo hi (e0 :: more) entEs ∧
      es = lowEs ++ entEs := by
  cases h with
  | node _ pg _ _ _ lowEs entEs e0 more hne hget hlt hlist hlow hents =>
    exact ⟨pg, lowEs, entEs, e0, more, hne, hget, hlt, hlist, hlow, hents, rfl⟩

theorem rep_nil_none (P : Params Key V) {s : Store Key V} {n : Option Key}
    {lvl : Nat} {lo hi : Option Key} (h : Rep P s n lvl lo hi []) :
    n = none := by
  cases n with
  | none => rfl
  | some nk =>
    obtain ⟨pg, lowEs, entEs, e0, more, _, _, _, _, _, hents, heq⟩ :=
      rep_some_inv P h
    obtain ⟨subEs, restEs, heq2, _⟩ := repEnts_cons_inv P hents
    rw [heq2] at heq
    simp at heq

theorem append_takeWhile_char {α : Type} (p : α → Bool) :
    ∀ (A B es : List α), es = A ++ B →
      (∀ a, a ∈ A → p a = true) →
      (∀ b bs, B = b :: bs → p b = false) →
      A = es.takeWhile p ∧ B = es.dropWhile p := by
  intro A
  induction A with
  | nil =>
    intro B es heq hA hB
    rw [List.nil_append] at heq
    subst heq
    cases es with
    | nil => exact ⟨rfl, rfl⟩
    | cons b bs =>
      have hpb : p b = false := hB b bs rfl
      constructor
      · exact (List.takeWhile_cons_of_neg (by simp [hpb])).symm
      · exact (List.dropWhile_cons_of_neg (by simp [hpb])).symm
  | cons a A2 ih =>
    intro B es heq hA hB
    subst heq
    have hpa : p a = true := hA a (List.mem_cons_self _ _)
    have hrest := ih B (A2 ++ B) rfl
      (fun x hx => hA x (List.mem_cons_of_mem _ hx)) hB
    constructor
    · rw [List.cons_append, List.takeWhile_cons_of_pos hpa, ← hrest.1]
    · rw [List.cons_append, List.dropWhile_cons_of_pos hpa]
      exact hrest.2

theorem rep_unique_aux (P : Params Key V) (hcmp : LawfulCmp P.compare_keys) :
    ∀ (n : Nat) (es : List (Key × V)), es.length ≤ n →
      ((∀ (s1 s2 : Store Key V) (lvl1 : Nat) (lo1 hi1 : Option Key)
          (l1 : List (PageData Key V)) (lvl2 : Nat) (lo2 hi2 : Option Key)
          (l2 : List (PageData Key V)),
        StoreHashed P s1 → StoreHashed P s2 →
        RepEnts P s1 lvl1 lo1 hi1 l1 es → RepEnts P s2 lvl2 lo2 hi2 l2 es →
        l1 = l2) ∧
      (∀ (s1 s2 : Store Key V) (n1 n2 : Option Key) (lvl1 : Nat)
          (lo1 hi1 : Option Key) (lvl2 : Nat) (lo2 hi2 : Option Key),
        StoreHashed P s1 → StoreHashed P s2 →
        Rep P s1 n1 lvl1 lo1 hi1 es → Rep P s2 n2 lvl2 lo2 hi2 es →
        n1 = n2)) := by
  intro n
  induction n with
  | zero =>
    intro es hlen
    have hes : es = [] := List.length_eq_zero.mp (Nat.le_zero.mp hlen)
    subst hes
    constructor
    · intro s1 s2 lvl1 lo1 hi1 l1 lvl2 lo2 hi2 l2 _ _ h1 h2
      rw [repEnts_nil_inv P h1, repEnts_nil_inv P h2]
    · intro s1 s2 n1 n2 lvl1 lo1 hi1 lvl2 lo2 hi2 _ _ h1 h2
      rw [rep_nil_none P h1, rep_nil_none P h2]
  | succ n ihn =>
    have hA : ∀ es : List (Key × V), es.length ≤ n + 1 →
        ∀ (s1 s2 : Store Key V) (lvl1 : Nat) (lo1 hi1 : Option Key)
          (l1 : List (PageData Key V)) (lvl2 : Nat) (lo2 hi2 : Option Key)
          (l2 : List (PageData Key V)),
        StoreHashed P s1 → StoreHashed P s2 →
        RepEnts P s1 lvl1 lo1 hi1 l1 es → RepEnts P s2 lvl2 lo2 hi2 l2 es →
        l1 = l2 := by
      intro es hlen s1 s2 lvl1 lo1 hi1 l1 lvl2 lo2 hi2 l2 hs1 hs2 h1 h2
      cases l1 with
      | nil =>
        have hes := repEnts_nil_es P h1
        subst hes
        exact (repEnts_nil_inv P h2).symm
      | cons e1 r1 =>
        obtain ⟨subEs1, restEs1, hes1, hb1, hcl1, hsb1, hrest1⟩ :=
          repEnts_cons_inv P h1
        subst hes1
        cases l2 with
        | nil => exact absurd (repEnts_nil_es P h2) (List.cons_ne_nil _ _)
        | cons e2 r2 =>
          obtain ⟨subEs2, restEs2, hes2, hb2, hcl2, hsb2, hrest2⟩ :=
            repEnts_cons_inv P h2
          have hhd : (e1.key, e1.value) = (e2.key, e2.value) := by
            injection hes2 with hhd htl
          have htl : subEs1 ++ restEs1 = subEs2 ++ restEs2 := by
            injection hes2 with hhd2 htl2
          have hk : e1.key = e2.key := congrArg Prod.fst hhd
          have hv : e1.value = e2.value := congrArg Prod.snd hhd
          have hlvl : lvl1 = lvl2 := by rw [← hcl1, ← hcl2, hk]
          subst hlvl
          have hlen2 : subEs1.length + restEs1.length ≤ n := by
            have h3 :
                ((e1.key, e1.value) :: (subEs1 ++ restEs1)).length ≤ n + 1 :=
              hlen
            simp only [List.length_cons, List.length_append] at h3
            omega
          have hA1 : ∀ a, a ∈ subEs1 →
              decide (P.calc_level a.1 < lvl1) = true := by
            intro a ha
            exact decide_eq_true ((rep_levels P s1).1 _ _ _ _ _ hsb1 a.1
              (List.mem_map_of_mem Prod.fst ha))
          have hB1 : ∀ b bs, restEs1 = b :: bs →
              decide (P.calc_level b.1 < lvl1) = false := by
            intro b bs hb
            cases r1 with
            | nil =>
              rw [repEnts_nil_es P hrest1] at hb
              cases hb
            | cons e1b r1b =>
              obtain ⟨s1b, t1b, heq1b, _, hclb, _, _⟩ :=
                repEnts_cons_inv P hrest1
              rw [heq1b] at hb
              injection hb with hbb _
              rw [← hbb]
              simp [hclb]
          have hA2 : ∀ a, a ∈ subEs2 →
              decide (P.calc_level a.1 < lvl1) = true := by
            intro a ha
            exact decide_eq_true ((rep_levels P s2).1 _ _ _ _ _ hsb2 a.1
              (List.mem_map_of_mem Prod.fst ha))
          have hB2 : ∀ b bs, restEs2 = b :: bs →
              decide (P.calc_level b.1 < lvl1) = false := by
            intro b bs hb
            cases r2 with
            | nil =>
              rw [repEnts_nil_es P hrest2] at hb
              cases hb
            | cons e2b r2b =>
              obtain ⟨s2b, t2b, heq2b, _, hclb, _, _⟩ :=
                repEnts_cons_inv P hrest2
              rw [heq2b] at hb
              injection hb with hbb _
              rw [← hbb]
              simp [hclb]
          have hsplit1 := append_takeWhile_char
            (fun kv : Key × V => decide (P.calc_level kv.1 < lvl1))
            subEs1 restEs1 (subEs1 ++ restEs1) rfl hA1 hB1
          have hsplit2 := append_takeWhile_char
            (fun kv : Key × V => decide (P.calc_level kv.1 < lvl1))
            subEs2 restEs2 (subEs1 ++ restEs1) htl hA2 hB2
          have hsub : subEs1 = subEs2 := by rw [hsplit1.1, hsplit2.1]
          have hrest : restEs1 = restEs2 := by rw [hsplit1.2, hsplit2.2]
          have hlsub : subEs1.length ≤ n := by omega
          have hlrest : restEs1.length ≤ n := by omega
          have hnext : e1.next = e2.next := by
            refine (ihn subEs1 hlsub).2 s1 s2 e1.next e2.next lvl1
              (some e1.key) (upKey hi1 r1) lvl1 (some e2.key) (upKey hi2 r2)
              hs1 hs2 hsb1 ?_
            rw [hsub]
            exact hsb2
          have hr12 : r1 = r2 := by
            refine (ihn restEs1 hlrest).1 s1 s2 lvl1 (some e1.key) hi1 r1
              lvl1 (some e2.key) hi2 r2 hs1 hs2 hrest1 ?_
            rw [hrest]
            exact hrest2
          rw [pageData_ext hk hv hnext, hr12]
    refine fun es hlen => ⟨hA es hlen, ?_⟩
    intro s1 s2 n1 n2 lvl1 lo1 hi1 lvl2 lo2 hi2 hs1 hs2 h1 h2
    cases n1 with
    | none =>
      have hes := rep_none_es P h1
      subst hes
      exact (rep_nil_none P h2).symm
    | some nk1 =>
      obtain ⟨pg1, lowEs1, entEs1, e01, more1, hne1, hget1, hlt1, hlist1,
        hlow1, hents1, hes1⟩ := rep_some_inv P h1
      subst hes1
      obtain ⟨sub01, rest01, hees1, _, hcl01, _, _⟩ :=
        repEnts_cons_inv P hents1
      cases n2 with
      | none =>
        have hes2 := rep_none_es P h2
        rw [hees1] at hes2
        simp at hes2
      | some nk2 =>
        obtain ⟨pg2, lowEs2, entEs2, e02, more2, hne2, hget2, hlt2, hlist2,
          hlow2, hents2, hes2⟩ := rep_some_inv P h2
        obtain ⟨sub02, rest02, hees2, _, hcl02, _, _⟩ :=
          repEnts_cons_inv P hents2
        have hle1 : ∀ k, k ∈ keysOf (lowEs1 ++ entEs1) →
            P.calc_level k ≤ pg1.level := by
          intro k hk
          simp only [keysOf, List.map_append] at hk
          rcases List.mem_append.mp hk with h | h
          · exact Nat.le_of_lt ((rep_levels P s1).1 _ _ _ _ _ hlow1 k h)
          · exact (rep_levels P s1).2 _ _ _ _ _ hents1 k h
        have hle2 : ∀ k, k ∈ keysOf (lowEs1 ++ entEs1) →
            P.calc_level k ≤ pg2.level := by
          intro k hk
          rw [hes2] at hk
          simp only [keysOf, List.map_append] at hk
          rcases List.mem_append.mp hk with h | h
          · exact Nat.le_of_lt ((rep_levels P s2).1 _ _ _ _ _ hlow2 k h)
          · exact (rep_levels P s2).2 _ _ _ _ _ hents2 k h
        have hin1 : e01.key ∈ keysOf (lowEs1 ++ entEs1) := by
          rw [hees1]
          simp only [keysOf, List.map_append, List.map_cons]
          exact List.mem_append.mpr (Or.inr (List.mem_cons_self _ _))
        have hin2 : e02.key ∈ keysOf (lowEs1 ++ entEs1) := by
          rw [hes2, hees2]
          simp only [keysOf, List.map_append, List.map_cons]
          exact List.mem_append.mpr (Or.inr (List.mem_cons_self _ _))
        have hlvl12 : pg1.level = pg2.level :=
          Nat.le_antisymm (by rw [← hcl01]; exact hle2 _ hin1)
            (by rw [← hcl02]; exact hle1 _ hin2)
        have hA1 : ∀ a, a ∈ lowEs1 →
            decide (P.calc_level a.1 < pg1.level) = true := by
          intro a ha
          exact decide_eq_true ((rep_levels P s1).1 _ _ _ _ _ hlow1 a.1
            (List.mem_map_of_mem Prod.fst ha))
        have hB1 : ∀ b bs, entEs1 = b :: bs →
            decide (P.calc_level b.1 < pg1.level) = false := by
          intro b bs hb
          rw [hees1] at hb
          injection hb with hbb _
          rw [← hbb]
          simp [hcl01]
        have hA2 : ∀ a, a ∈ lowEs2 →
            decide (P.calc_level a.1 < pg1.level) = true := by
          intro a ha
          rw [hlvl12]
          exact decide_eq_true ((rep_levels P s2).1 _ _ _ _ _ hlow2 a.1
            (List.mem_map_of_mem Prod.fst ha))
        have hB2 : ∀ b bs, entEs2 = b :: bs →
            decide (P.calc_level b.1 < pg1.level) = false := by
          intro b bs hb
          rw [hees2] at hb
          injection hb with hbb _
          rw [← hbb, hlvl12]
          simp [hcl02]
        have hsplit1 := append_takeWhile_char
          (fun kv : Key × V => decide (P.calc_level kv.1 < pg1.level))
          lowEs1 entEs1 (lowEs1 ++ entEs1) rfl hA1 hB1
        have hsplit2 := append_takeWhile_char
          (fun kv : Key × V => decide (P.calc_level kv.1 < pg1.level))
          lowEs2 entEs2 (lowEs1 ++ entEs1) hes2 hA2 hB2
        have hloweq : lowEs1 = lowEs2 := by rw [hsplit1.1, hsplit2.1]
        have henteq : entEs1 = entEs2 := by rw [hsplit1.2, hsplit2.2]
        have hlenlow : lowEs1.length ≤ n := by
          have h3 : (lowEs1 ++ entEs1).length ≤ n + 1 := hlen
          rw [hees1] at h3
          simp only [List.length_append, List.length_cons] at h3
          omega
        have hlenent : entEs1.length ≤ n + 1 := by
          have h3 : (lowEs1 ++ entEs1).length ≤ n + 1 := hlen
          simp only [List.length_append] at h3
          omega
        have hlow12 : pg1.low = pg2.low := by
          refine (ihn lowEs1 hlenlow).2 s1 s2 pg1.low pg2.low pg1.level lo1
            (some e01.key) pg2.level lo2 (some e02.key) hs1 hs2 hlow1 ?_
          rw [hloweq]
          exact hlow2
        have hlist12 : pg1.list = pg2.list := by
          have h4 := hA entEs1 hlenent s1 s2 pg1.level lo1 hi1 (e01 :: more1)
            pg2.level lo2 hi2 (e02 :: more2) hs1 hs2 hents1
            (by rw [henteq]; exact hents2)
          rw [hlist1, hlist2, h4]
        have hpg : pg1 = pg2 := page_ext hlvl12 hlow12 hlist12
        rw [hs1 nk1 pg1 hget1, hs2 nk2 pg2 hget2, hpg]

theorem rep_unique (P : Params Key V) (hcmp : LawfulCmp P.compare_keys)
    {s1 s2 : Store Key V} {n1 n2 : Option Key} {lvl1 lvl2 : Nat}
    {lo1 hi1 lo2 hi2 : Option Key} {es : List (Key × V)}
    (hs1 : StoreHashed P s1) (hs2 : StoreHashed P s2)
    (h1 : Rep P s1 n1 lvl1 lo1 hi1 es) (h2 : Rep P s2 n2 lvl2 lo2 hi2 es) :
    n1 = n2 :=
  (rep_unique_aux P hcmp es.length es (Nat.le_refl _)).2 s1 s2 n1 n2 lvl1
    lo1 hi1 lvl2 lo2 hi2 hs1 hs2 h1 h2

/-- Two well-formed trees holding the same contents have the same root:
the MST is a canonical (history-independent) structure. -/
theorem wfTree_root_unique (P : Params Key V)
    (hcmp : LawfulCmp P.compare_keys) (m1 m2 : MSTree Key V)
    (es : List (Key × V)) (h1 : WfTree P m1 es) (h2 : WfTree P m2 es) :
    m1.root = m2.root := by
  obtain ⟨hs1, hc1⟩ := h1
  obtain ⟨hs2, hc2⟩ := h2
  rcases hc1 with ⟨hd1, hnil⟩ | ⟨B1, hrep1⟩
  · rcases hc2 with ⟨hd2, _⟩ | ⟨B2, hrep2⟩
    · rw [hd1, hd2]
    · subst hnil
      exact absurd (rep_nil_none P hrep2) (by simp)
  · rcases hc2 with ⟨hd2, hnil⟩ | ⟨B2, hrep2⟩
    · subst hnil
      exact absurd (rep_nil_none P hrep1) (by simp)
    · exact Option.some.inj (rep_unique P hcmp hs1 hs2 hrep1 hrep2)

/-- A sequence of inserts, as the Rust test harness performs them. -/
def insert_seq (P : Params Key V) : MSTree Key V → List (Key × V) →
    Outcome (MSTree Key V)
  | m, [] => .ok m
  | m, kv :: rest =>
    match insert P m kv.1 kv.2 with
    | .ok res => insert_seq P res.1 rest
    | .fatal => .fatal
    | .stuck => .stuck
    | .spin => .spin

theorem insert_seq_sim (P : Params Key V) (hcmp : LawfulCmp P.compare_keys)
    (hok : HashOK P) :
    ∀ (S : List (Key × V)) (m : MSTree Key V) (es : List (Key × V)),
      WfTree P m es →
      ∃ m2, insert_seq P m S = .ok m2 ∧
        WfTree P m2
          (S.foldl (fun acc kv => insertEntry P kv.1 kv.2 acc) es) := by
  intro S
  induction S with
  | nil => intro m es hwf; exact ⟨m, rfl, hwf⟩
  | cons kv rest ih =>
    intro m es hwf
    obtain ⟨m2, rk, hins, _, hwf2⟩ :=
      insert_sim P hcmp hok m es kv.1 kv.2 hwf
    obtain ⟨m3, hseq, hwf3⟩ := ih m2 _ hwf2
    refine ⟨m3, ?_, ?_⟩
    · simp only [insert_seq, hins]
      exact hseq
    · exact hwf3

/-! ## A lawful concrete parameter bundle over `Nat`

`natParamsInj` pairs the Rust test setup's total order on keys with a
structurally injective page encoding, so that both the comparison
contract and collision-freedom hold provably. -/

def encOptNat : Option Nat → Nat
  | none => 0
  | some k => k + 1

def encPD (e : PageData Nat Nat) : Nat :=
  Nat.pair e.key (Nat.pair e.value (encOptNat e.next))

def encPDList : List (PageData Nat Nat) → Nat
  | [] => 0
  | e :: r => Nat.pair (encPD e) (encPDList r) + 1

def encPage (pg : Page Nat Nat) : Nat :=
  Nat.pair pg.level (Nat.pair (encOptNat pg.low) (encPDList pg.list)) + 1

def natParamsInj : Params Nat Nat where
  compare_keys := fun a b => compare a b
  merge := fun _ y => y
  calc_level := fun k => k % 3
  hash_page := encPage
  default := 0

theorem natCmpLawful : LawfulCmp (fun a b : Nat => compare a b) := by
  refine ⟨?_, ?_, ?_⟩
  · intro a b
    exact Nat.compare_eq_eq
  · intro a b
    rw [Nat.compare_eq_lt, Nat.compare_eq_gt]
  · intro a b c hab hbc
    rw [Nat.compare_eq_lt] at hab hbc ⊢
    exact Nat.lt_trans hab hbc

theorem natParamsInjCmp : LawfulCmp natParamsInj.compare_keys := natCmpLawful

theorem pair_inj {a b c d : Nat} (h : Nat.pair a b = Nat.pair c d) :
    a = c ∧ b = d := by
  have h2 := congrArg Nat.unpair h
  rw [Nat.unpair_pair, Nat.unpair_pair] at h2
  exact ⟨congrArg Prod.fst h2, congrArg Prod.snd h2⟩

theorem encOptNat_inj {x y : Option Nat} (h : encOptNat x = encOptNat y) :
    x = y := by
  cases x with
  | none =>
    cases y with
    | none => rfl
    | some b => exact absurd h.symm (Nat.succ_ne_zero b)
  | some a =>
    cases y with
    | none => exact absurd h (Nat.succ_ne_zero a)
    | some b =>
      have : a = b := Nat.succ_injective h
      rw [this]

theorem encPD_inj {x y : PageData Nat Nat} (h : encPD x = encPD y) : x = y := by
  obtain ⟨xk, xv, xn⟩ := x
  obtain ⟨yk, yv, yn⟩ := y
  obtain ⟨h1, h2⟩ := pair_inj h
  obtain ⟨h3, h4⟩ := pair_inj h2
  have h1b : xk = yk := h1
  have h3b : xv = yv := h3
  have h4b : xn = yn := encOptNat_inj h4
  rw [h1b, h3b, h4b]

theorem encPDList_inj :
    ∀ {x y : List (PageData Nat Nat)}, encPDList x = encPDList y → x = y := by
  intro x
  induction x with
  | nil =>
    intro y h
    cases y with
    | nil => rfl
    | cons e r => exact absurd h.symm (Nat.succ_ne_zero _)
  | cons e r ih =>
    intro y h
    cases y with
    | nil => exact absurd h (Nat.succ_ne_zero _)
    | cons e2 r2 =>
      obtain ⟨h1, h2⟩ := pair_inj (Nat.succ_injective h)
      rw [encPD_inj h1, ih h2]

theorem natParamsInjOK : HashOK natParamsInj := by
  constructor
  · intro pg
    exact Nat.succ_ne_zero _
  · intro pg1 pg2 h
    obtain ⟨l1, w1, x1⟩ := pg1
    obtain ⟨l2, w2, x2⟩ := pg2
    obtain ⟨h1, h2⟩ := pair_inj (Nat.succ_injective h)
    obtain ⟨h3, h4⟩ := pair_inj h2
    have h1b : l1 = l2 := h1
    have h3b : w1 = w2 := encOptNat_inj h3
    have h4b : x1 = x2 := encPDList_inj h4
    rw [h1b, h3b, h4b]

/-! ## C4: the `split` partition -/

/-- The input of the C4 counterexample: a store holding the single page
of the tree `{5 ↦ 7}` under its hash. -/
def C4page : Page Nat Nat := ⟨2, none, [⟨5, 7, none⟩]⟩

def C4rootKey : Nat := encPage C4page

def C4store : Store Nat Nat := Store.new.put C4rootKey C4page

theorem C4storeHashed : StoreHashed natParamsInj C4store := by
  intro k pg h
  rw [C4store, Store.get_put] at h
  split at h
  · rename_i heq
    cases h
    exact heq.symm
  · cases h

theorem C4rep :
    Rep natParamsInj C4store (some C4rootKey) 3 none none [(5, 7)] := by
  have h5 : C4store.get C4rootKey = some C4page := by
    rw [C4store, Store.get_put, if_pos rfl]
  exact Rep.node C4rootKey C4page 3 none none [] [(5, 7)] ⟨5, 7, none⟩ []
    (Nat.succ_ne_zero _) h5 (by decide) rfl (.empty _ _ _)
    (RepEnts.cons 2 none none ⟨5, 7, none⟩ [] [] []
      ⟨(fun l hl => nomatch hl), (fun h hh => nomatch hh)⟩ rfl
      (.empty _ _ _) (.nil _ _ _))

/-- C4 counterexample: splitting the tree `{5 ↦ 7}` at the pivot `5`
puts the key `5` — which is *at* the pivot, hence "greater than or
equal to k" in the spec's partition — into the **left** result, and
returns an **empty right** subtree: the code partitions as
`left ≤ k < right`, not as `left < k ≤ right`. -/
theorem split_spec_counterexample :
    (split natParamsInj C4store (some C4rootKey) 5).2.2 = none ∧
    (split natParamsInj C4store (some C4rootKey) 5).2.1 = some C4rootKey ∧
    (split natParamsInj C4store (some C4rootKey) 5).1.get C4rootKey =
      some C4page ∧
    (5 : Nat) ∈ C4page.list.map PageData.key := by
  have h5 : C4store.get C4rootKey = some C4page := by
    rw [C4store, Store.get_put, if_pos rfl]
  have hsplit : split natParamsInj C4store (some C4rootKey) 5 =
      ((split_entries natParamsInj (C4store.remove C4rootKey) C4page.level 5
          (⟨5, 7, none⟩ :: [])).1.put
        (natParamsInj.hash_page ⟨C4page.level, C4page.low,
          (split_entries natParamsInj (C4store.remove C4rootKey) C4page.level 5
            (⟨5, 7, none⟩ :: [])).2.1⟩)
        ⟨C4page.level, C4page.low,
          (split_entries natParamsInj (C4store.remove C4rootKey) C4page.level 5
            (⟨5, 7, none⟩ :: [])).2.1⟩,
      some (natParamsInj.hash_page ⟨C4page.level, C4page.low,
          (split_entries natParamsInj (C4store.remove C4rootKey) C4page.level 5
            (⟨5, 7, none⟩ :: [])).2.1⟩),
      (split_entries natParamsInj (C4store.remove C4rootKey) C4page.level 5
          (⟨5, 7, none⟩ :: [])).2.2) :=
    split_cons_ge natParamsInj C4store C4rootKey 5 C4page ⟨5, 7, none⟩ []
      (Nat.succ_ne_zero _) h5 rfl (by decide)
  have hentries : split_entries natParamsInj (C4store.remove C4rootKey)
      C4page.level 5 (⟨5, 7, none⟩ :: []) =
      (C4store.remove C4rootKey, [⟨5, 7, none⟩], none) := by
    rw [split_entries_last]
    rw [split_none]
  rw [hsplit, hentries]
  refine ⟨rfl, ?_, ?_, by decide⟩
  · show some (natParamsInj.hash_page ⟨C4page.level, C4page.low, [⟨5, 7, none⟩]⟩)
      = some C4rootKey
    rfl
  · show Store.get ((C4store.remove C4rootKey).put
        (natParamsInj.hash_page ⟨C4page.level, C4page.low, [⟨5, 7, none⟩]⟩)
        ⟨C4page.level, C4page.low, [⟨5, 7, none⟩]⟩)
        C4rootKey = some C4page
    rw [Store.get_put]
    have hkey : natParamsInj.hash_page
        ⟨C4page.level, C4page.low, [⟨5, 7, none⟩]⟩ = C4rootKey := rfl
    rw [if_pos hkey]
    rfl

/-- C4 (amended): on a represented subtree, `split` at pivot `k` sends
exactly the keys **at or below** `k` to the left result and exactly the
keys **strictly above** `k` to the right result (the represented
contents are the `entsLE`/`entsGT` filters of the subtree's contents),
over a content-addressed store with a collision-free digest and a
lawful comparison. -/
theorem split_partition (P : Params Key V) (hcmp : LawfulCmp P.compare_keys)
    (hok : HashOK P) (s : Store Key V) (node : Option Key) (k : Key)
    (lvl : Nat) (lo hi : Option Key) (es : List (Key × V))
    (hs : StoreHashed P s) (hrep : Rep P s node lvl lo hi es) :
    Rep P (split P s node k).1 (split P s node k).2.1 lvl lo hi
      (entsLE P k es) ∧
    Rep P (split P s node k).1 (split P s node k).2.2 lvl lo hi
      (entsGT P k es) :=
  ⟨(split_sim P hcmp hok s node k lvl lo hi es hs hrep).1,
   (split_sim P hcmp hok s node k lvl lo hi es hs hrep).2.1⟩

theorem split_partition_witness :
    Rep natParamsInj (split natParamsInj C4store (some C4rootKey) 5).1
      (split natParamsInj C4store (some C4rootKey) 5).2.1 3 none none
      (entsLE natParamsInj 5 [(5, 7)]) ∧
    Rep natParamsInj (split natParamsInj C4store (some C4rootKey) 5).1
      (split natParamsInj C4store (some C4rootKey) 5).2.2 3 none none
      (entsGT natParamsInj 5 [(5, 7)]) :=
  split_partition natParamsInj natParamsInjCmp natParamsInjOK C4store
    (some C4rootKey) 5 3 none none [(5, 7)] C4storeHashed C4rep

theorem merge_frame_witness :
    ((MSTree.new natParamsSer, MSTree.new natParamsSer),
      ((0 : Nat), (Store.new : Store Nat Nat))).1.1 = MSTree.new natParamsSer ∧
    ((MSTree.new natParamsSer, MSTree.new natParamsSer),
      ((0 : Nat), (Store.new : Store Nat Nat))).1.2 = MSTree.new natParamsSer :=
  merge_frame natParamsSer (MSTree.new natParamsSer) (MSTree.new natParamsSer)
    _ (by decide)

/-- The value `get_value` must report for key `k` after `insert(k, v)`:
the merge of the previous binding with `v` if one existed, else `v`. -/
def mergedValue (P : Params Key V) (iv : V) : Option V → V
  | some prev => P.merge prev iv
  | none => iv

/-- C3: for every well-formed MST (as produced by any sequence of
insertions) and all (k, v), `insert(k, v)` succeeds, and a subsequent
`get_value(k)` returns `Some` of `merge(prev, v)` if `k` was previously
bound to `prev` (as reported by `get_value` before the insert), and
`Some v` otherwise. -/
theorem insert_then_get (P : Params Key V) (hcmp : LawfulCmp P.compare_keys)
    (hok : HashOK P) (m : MSTree Key V) (es : List (Key × V)) (ik : Key)
    (iv : V) (hwf : WfTree P m es) :
    ∃ m2 rk, insert P m ik iv = .ok (m2, rk) ∧
      ∀ prevO : Option V, get_value P m ik = .ok prevO →
        get_value P m2 ik = .ok (some (mergedValue P iv prevO)) := by
  obtain ⟨m2, rk, hins, _, hwf2⟩ := insert_sim P hcmp hok m es ik iv hwf
  refine ⟨m2, rk, hins, ?_⟩
  intro prevO hprev
  rw [get_value_sim P hcmp m es ik hwf] at hprev
  have hprevO : prevO = lookupEs P ik es := by
    cases hprev; rfl
  rw [get_value_sim P hcmp m2 (insertEntry P ik iv es) ik hwf2,
    lookupEs_insertEntry_self P hcmp ik iv es
      (wfTree_sorted P hcmp m es hwf), hprevO]
  cases hlk : lookupEs P ik es <;> rfl

theorem insert_then_get_witness :
    ∃ m2 rk,
      insert natParamsInj (MSTree.new natParamsInj) 5 7 = .ok (m2, rk) ∧
      ∀ prevO : Option Nat,
        get_value natParamsInj (MSTree.new natParamsInj) 5 = .ok prevO →
        get_value natParamsInj m2 5 =
          .ok (some (mergedValue natParamsInj 7 prevO)) :=
  insert_then_get natParamsInj natParamsInjCmp natParamsInjOK
    (MSTree.new natParamsInj) [] 5 7
    ⟨StoreHashed.empty natParamsInj, Or.inl ⟨rfl, rfl⟩⟩

/-- C6: after any sequence of `insert` and `merge` operations starting
from an empty MST, `to_list` succeeds and returns exactly the values of
the tree's entries enumerated in strictly ascending key order (hence
non-decreasing, keys being unique). -/
theorem to_list_sorted (P : Params Key V) (hcmp : LawfulCmp P.compare_keys)
    (hok : HashOK P) (m : MSTree Key V) (hm : Reaches P m) :
    ∃ es : List (Key × V), WfTree P m es ∧
      to_list P m = .ok (es.map Prod.snd) ∧
      es.Pairwise (fun a b => P.compare_keys a.1 b.1 = .lt) := by
  obtain ⟨es, hwf⟩ := reaches_wf P hcmp hok m hm
  exact ⟨es, hwf, to_list_sim P hcmp m es hwf, wfTree_sorted P hcmp m es hwf⟩

theorem to_list_sorted_witness :
    ∃ es : List (Nat × Nat), WfTree natParamsInj ⟨C4rootKey, C4store⟩ es ∧
      to_list natParamsInj ⟨C4rootKey, C4store⟩ = .ok (es.map Prod.snd) ∧
      es.Pairwise (fun a b => natParamsInj.compare_keys a.1 b.1 = .lt) :=
  to_list_sorted natParamsInj natParamsInjCmp natParamsInjOK
    ⟨C4rootKey, C4store⟩
    (Reaches.ins (MSTree.new natParamsInj) 5 7 (⟨C4rootKey, C4store⟩, C4rootKey)
      Reaches.new (by decide))

/-- C7: after any sequence of `insert` and `merge` operations starting
from an empty MST, every page reachable from the root has all of its
entry keys at the page's own level (`calc_level key = page.level`), and
every page referenced by its `low` pointer or by an entry's `next`
pointer has a strictly smaller level. -/
theorem level_invariant (P : Params Key V) (hcmp : LawfulCmp P.compare_keys)
    (hok : HashOK P) (m : MSTree Key V) (hm : Reaches P m) (r : Key)
    (hreach : ReachableKey m.store m.root r) (pg : Page Key V)
    (hget : m.store.get r = some pg) :
    (∀ e, e ∈ pg.list → P.calc_level e.key = pg.level) ∧
    (∀ ck pg2, ck ∈ pg.refs → m.store.get ck = some pg2 →
      pg2.level < pg.level) := by
  obtain ⟨es, hs, hcase⟩ := reaches_wf P hcmp hok m hm
  rcases hcase with ⟨hdef, _⟩ | ⟨B, hrep⟩
  · exfalso
    rcases reachableKey_unfold m.store m.root r hreach with
      rfl | ⟨pg0, r0, hget0, _, _⟩
    · rw [hdef] at hget
      exact hok.ne_default pg (hs P.default pg hget).symm
    · rw [hdef] at hget0
      exact hok.ne_default pg0 (hs P.default pg0 hget0).symm
  · obtain ⟨lvl2, lo2, hi2, es2, hrep2, _⟩ :=
      rep_reach P m.store m.root B none none es hrep r hreach
    have hrepR := hrep2
    cases hrep2 with
    | node _ pg2 _ _ _ lowEs entEs e0 more hne hget2 hlt hlist hlow hents =>
    rw [hget] at hget2
    cases hget2
    constructor
    · intro e he
      rw [hlist] at he
      exact repEnts_entry_level P m.store pg.level lo2 hi2 (e0 :: more)
        entEs hents e he
    · intro ck pgc hck hgetc
      obtain ⟨lo3, hi3, es3, hrep3, _⟩ :=
        rep_refs_sub P m.store r lvl2 lo2 hi2 _ hrepR pg hget ck hck
      cases hrep3 with
      | node _ pgc2 _ _ _ _ _ _ _ hnec hgetc2 hltc _ _ _ =>
      rw [hgetc] at hgetc2
      cases hgetc2
      exact hltc

theorem level_invariant_witness :
    (∀ e, e ∈ C4page.list → natParamsInj.calc_level e.key = C4page.level) ∧
    (∀ ck pg2, ck ∈ C4page.refs → C4store.get ck = some pg2 →
      pg2.level < C4page.level) :=
  level_invariant natParamsInj natParamsInjCmp natParamsInjOK
    ⟨C4rootKey, C4store⟩
    (Reaches.ins (MSTree.new natParamsInj) 5 7 (⟨C4rootKey, C4store⟩, C4rootKey)
      Reaches.new (by decide))
    C4rootKey .root C4page (by decide)

/-- C9: with a comparison that is a lawful strict total order and a
collision-free, non-default digest, both mutating operations succeed on
well-formed trees: `insert` and `merge` always return `.ok` (so the
fatal abort inside `insert_after_first` is unreachable). -/
theorem mutators_infallible (P : Params Key V)
    (hcmp : LawfulCmp P.compare_keys) (hok : HashOK P) (a b : MSTree Key V)
    (esa esb : List (Key × V)) (hwa : WfTree P a esa) (hwb : WfTree P b esb)
    (k : Key) (v : V) :
    (∃ res, insert P a k v = .ok res) ∧
    (∃ res, merge P a b = .ok res) := by
  obtain ⟨m2, rk, hins, _, _⟩ := insert_sim P hcmp hok a esa k v hwa
  obtain ⟨res, es2, hmrg, _, _⟩ := merge_sim P hcmp hok a b esa esb hwa hwb
  exact ⟨⟨(m2, rk), hins⟩, ⟨res, hmrg⟩⟩

theorem mutators_infallible_witness :
    (∃ res, insert natParamsInj (MSTree.new natParamsInj) 5 7 = .ok res) ∧
    (∃ res, merge natParamsInj (MSTree.new natParamsInj)
      (MSTree.new natParamsInj) = .ok res) :=
  mutators_infallible natParamsInj natParamsInjCmp natParamsInjOK
    (MSTree.new natParamsInj) (MSTree.new natParamsInj) [] []
    ⟨StoreHashed.empty natParamsInj, Or.inl ⟨rfl, rfl⟩⟩
    ⟨StoreHashed.empty natParamsInj, Or.inl ⟨rfl, rfl⟩⟩ 5 7

/-- C2: inserting a uniquely-keyed set of pairs into an empty MST in two
different orders always succeeds and produces the same root hash. -/
theorem insertion_order_independence (P : Params Key V)
    (hcmp : LawfulCmp P.compare_keys) (hok : HashOK P)
    (S1 S2 : List (Key × V)) (hperm : S1.Perm S2)
    (huniq : S1.Pairwise (fun a b => P.compare_keys a.1 b.1 ≠ .eq)) :
    ∃ m1 m2, insert_seq P (MSTree.new P) S1 = .ok m1 ∧
      insert_seq P (MSTree.new P) S2 = .ok m2 ∧
      m1.root = m2.root := by
  have hwfnew : WfTree P (MSTree.new P) [] :=
    ⟨StoreHashed.empty P, Or.inl ⟨rfl, rfl⟩⟩
  obtain ⟨m1, hs1, hwf1⟩ := insert_seq_sim P hcmp hok S1 (MSTree.new P) [] hwfnew
  obtain ⟨m2, hs2, hwf2⟩ := insert_seq_sim P hcmp hok S2 (MSTree.new P) [] hwfnew
  have hsymm : Symmetric (fun a b : Key × V => P.compare_keys a.1 b.1 ≠ .eq) := by
    intro a b h hba
    exact h ((hcmp.eq_iff a.1 b.1).mpr ((hcmp.eq_iff b.1 a.1).mp hba).symm)
  have hcomm : ∀ x ∈ S1, ∀ y ∈ S1, ∀ z : List (Key × V),
      insertEntry P y.1 y.2 (insertEntry P x.1 x.2 z) =
      insertEntry P x.1 x.2 (insertEntry P y.1 y.2 z) := by
    intro x hx y hy z
    by_cases hxy : x = y
    · rw [hxy]
    · exact insertEntry_comm P hcmp y.1 x.1 y.2 x.2
        (hsymm (huniq.forall hsymm hx hy hxy)) z
  have hfold :
      S1.foldl (fun acc kv => insertEntry P kv.1 kv.2 acc) [] =
      S2.foldl (fun acc kv => insertEntry P kv.1 kv.2 acc) [] :=
    hperm.foldl_eq' hcomm []
  rw [hfold] at hwf1
  exact ⟨m1, m2, hs1, hs2, wfTree_root_unique P hcmp m1 m2 _ hwf1 hwf2⟩

theorem insertion_order_independence_witness :
    ∃ m1 m2, insert_seq natParamsInj (MSTree.new natParamsInj)
        [(1, 10), (2, 20)] = .ok m1 ∧
      insert_seq natParamsInj (MSTree.new natParamsInj)
        [(2, 20), (1, 10)] = .ok m2 ∧
      m1.root = m2.root :=
  insertion_order_independence natParamsInj natParamsInjCmp natParamsInjOK
    [(1, 10), (2, 20)] [(2, 20), (1, 10)] (by decide) (by decide)

end MST
